import Mathlib

set_option autoImplicit false

/-!
# gosort: a shallow embedding of the sort engine

The in-memory engine (`internal/sort/sort.go`), the chunker, run sorter and
k-way merger (`internal/chunks/*.go`) are embedded as pure functions.

* Byte slices are `Bytes`: lists of natural numbers (Go bytes are the values
  below 256).
* `uint32` / `uint64` arithmetic is arithmetic on `Nat` reduced modulo `2^32` /
  `2^64` at the places where the Go code converts or can wrap.
* Readers are the finite byte sequences they deliver; they report end of input
  on a read of its own (as `os.File` and `strings.Reader` do) and raise no I/O
  failure. Writers are in-memory and never fail. The context is never
  cancelled.
* Loops of the standard library that have no structural bound (`heap.up`,
  `heap.down`) and the callers' drain loops run on fuel; the fuel passed is
  shown sufficient by the theorems below.
* A run-time panic of the in-memory engine (a slice expression out of bounds, an
  index expression on an empty slice) is a result of its own: `none` for a
  comparison, a library call or `Sort`, `.error .panic` for `NextToken` and the
  drain. The comparison of the merger reads no slice of a buffer and is total.
-/

namespace Gosort

/-- A Go byte slice `[]byte`; a byte is a natural number (below 256 in Go). -/
abbrev Bytes := List Nat

/-! ## Standard library: `bytes`, `container/heap`, `bufio`, `sort` -/

/-- Go `bytes.Compare`: lexicographic three-way comparison, result in {-1, 0, 1}. -/
def bytes.Compare : Bytes → Bytes → Int
  | [], [] => 0
  | [], _ :: _ => -1
  | _ :: _, [] => 1
  | a :: as, b :: bs =>
    if a < b then -1 else if b < a then 1 else bytes.Compare as bs

/-- Go `bytes.IndexByte`: index of the first occurrence of `c` (`none` for Go's -1). -/
def bytes.IndexByte : Bytes → Nat → Option Nat
  | [], _ => none
  | x :: xs, c => if x = c then some 0 else (bytes.IndexByte xs c).map (· + 1)

/-- A Go slice expression `data[lo:hi]`: Go panics unless `lo ≤ hi ≤ cap(data)`, and
`none` is that panic. The capacity of `data` is taken to be its length: the slice
expressions of the engine on a buffer built by `NewBuffer` all end within the length
(theorem `NewBuffer_entry_end`), so that for them the two bounds decide alike. -/
def sliceBytes (data : Bytes) (lo hi : Nat) : Option Bytes :=
  if lo ≤ hi ∧ hi ≤ data.length then some ((data.take hi).drop lo) else none

/-- Conversion to `uint32`. -/
def u32 (x : Nat) : Nat := x % 2 ^ 32

/-- Addition of two `uint32` values (wraps). -/
def u32add (a b : Nat) : Nat := (a + b) % 2 ^ 32

/-- Subtraction of two `uint32` values (wraps). -/
def u32sub (a b : Nat) : Nat := (a + 2 ^ 32 - b % 2 ^ 32) % 2 ^ 32

namespace heap

variable {α : Type}

/-- The call `h.Less(i, j)` of a `heap.Interface` whose elements live in the slice `h`
and whose `Less` compares the elements at the two indices (an index out of range
panics in Go; `false` here). -/
def lessAt (less : α → α → Bool) (h : List α) (i j : Nat) : Bool :=
  match h[i]?, h[j]? with
  | some a, some b => less a b
  | _, _ => false

/-- The call `h.Swap(i, j)`: `h[i], h[j] = h[j], h[i]`. -/
def swap (h : List α) (i j : Nat) : List α :=
  match h[i]?, h[j]? with
  | some a, some b => (h.set i b).set j a
  | _, _ => h

/-- The loop of `heap.up`:
`for { i := (j - 1) / 2; if i == j || !h.Less(j, i) { break }; h.Swap(i, j); j = i }`
(at `j = 0` Go's division truncates `-1 / 2` to `0`, as the subtraction on `Nat`
does). -/
def upLoop (less : α → α → Bool) : Nat → List α → Nat → List α
  | 0, h, _ => h
  | fuel + 1, h, j =>
    let i := (j - 1) / 2
    if i = j ∨ lessAt less h j i = false then h
    else upLoop less fuel (swap h i j) i

/-- Go `heap.up(h, j)`. -/
def up (less : α → α → Bool) (h : List α) (j : Nat) : List α :=
  upLoop less (j + 1) h j

/-- The loop of `heap.down(h, i0, n)` from position `i`:
`j1 := 2*i + 1; if j1 >= n || j1 < 0 { break }; j := j1;`
`if j2 := j1 + 1; j2 < n && h.Less(j2, j1) { j = j2 };`
`if !h.Less(j, i) { break }; h.Swap(i, j); i = j`
(`j1 < 0` guards against `int` overflow, out of reach for an index of a slice). -/
def downLoop (less : α → α → Bool) (n : Nat) : Nat → List α → Nat → List α
  | 0, h, _ => h
  | fuel + 1, h, i =>
    let j1 := 2 * i + 1
    if j1 ≥ n then h
    else
      let j := if j1 + 1 < n ∧ lessAt less h (j1 + 1) j1 = true then j1 + 1 else j1
      if lessAt less h j i = false then h
      else downLoop less n fuel (swap h i j) j

/-- Go `heap.down(h, i0, n)`; the boolean result of the Go function is used by neither
`Init` nor `Pop` and is left out. -/
def down (less : α → α → Bool) (h : List α) (i0 n : Nat) : List α :=
  downLoop less n n h i0

/-- The loop of `heap.Init`: `for i := n/2 - 1; i >= 0; i-- { down(h, i, n) }`;
the argument counts the iterations left, so the next index is `k`. -/
def initLoop (less : α → α → Bool) (n : Nat) : Nat → List α → List α
  | 0, h => h
  | k + 1, h => initLoop less n k (down less h k n)

/-- Go `heap.Init(h)`. -/
def Init (less : α → α → Bool) (h : List α) : List α :=
  initLoop less h.length (h.length / 2) h

/-- Go `heap.Push(h, x)`: `h.Push(x); up(h, h.Len()-1)` where `h.Push` appends. -/
def Push (less : α → α → Bool) (h : List α) (x : α) : List α :=
  up less (h ++ [x]) ((h ++ [x]).length - 1)

/-- Go `heap.Pop(h)`: `n := h.Len() - 1; h.Swap(0, n); down(h, 0, n); return h.Pop()`
where `h.Pop` removes and returns the last element. On an empty heap Go panics
(`none`). -/
def Pop (less : α → α → Bool) (h : List α) : Option (α × List α) :=
  if h.length = 0 then none
  else
    let n := h.length - 1
    let h1 := down less (swap h 0 n) 0 n
    match h1[n]? with
    | some x => some (x, h1.take n)
    | none => none

/-- The call `h.Less(i, j)` of a `heap.Interface` whose `Less` can panic on the two
elements it compares (`none`); an index out of range, which the routines below never
pass, gives `false` as in `lessAt`. -/
def lessAt? (less : α → α → Option Bool) (h : List α) (i j : Nat) : Option Bool :=
  match h[i]?, h[j]? with
  | some a, some b => less a b
  | _, _ => some false

/-- The loop of `heap.up` for a `Less` that can panic: `container/heap` has no
`recover`, so the panic ends the call (`none`). The condition
`i == j || !h.Less(j, i)` calls `Less` only when `i != j`. -/
def upLoop? (less : α → α → Option Bool) : Nat → List α → Nat → Option (List α)
  | 0, h, _ => some h
  | fuel + 1, h, j =>
    let i := (j - 1) / 2
    if i = j then some h
    else
      match lessAt? less h j i with
      | none => none
      | some false => some h
      | some true => upLoop? less fuel (swap h i j) i

/-- Go `heap.up(h, j)` for a `Less` that can panic. -/
def up? (less : α → α → Option Bool) (h : List α) (j : Nat) : Option (List α) :=
  upLoop? less (j + 1) h j

/-- The loop of `heap.down(h, i0, n)` for a `Less` that can panic (`none`). The
condition `j2 < n && h.Less(j2, j1)` calls `Less` only when `j2 < n`. -/
def downLoop? (less : α → α → Option Bool) (n : Nat) : Nat → List α → Nat → Option (List α)
  | 0, h, _ => some h
  | fuel + 1, h, i =>
    let j1 := 2 * i + 1
    if j1 ≥ n then some h
    else
      let j? : Option Nat :=
        if j1 + 1 < n then
          match lessAt? less h (j1 + 1) j1 with
          | none => none
          | some true => some (j1 + 1)
          | some false => some j1
        else some j1
      match j? with
      | none => none
      | some j =>
        match lessAt? less h j i with
        | none => none
        | some false => some h
        | some true => downLoop? less n fuel (swap h i j) j

/-- Go `heap.down(h, i0, n)` for a `Less` that can panic. -/
def down? (less : α → α → Option Bool) (h : List α) (i0 n : Nat) : Option (List α) :=
  downLoop? less n n h i0

/-- The loop of `heap.Init` for a `Less` that can panic. -/
def initLoop? (less : α → α → Option Bool) (n : Nat) : Nat → List α → Option (List α)
  | 0, h => some h
  | k + 1, h =>
    match down? less h k n with
    | none => none
    | some h1 => initLoop? less n k h1

/-- Go `heap.Init(h)` for a `Less` that can panic (`none`). -/
def Init? (less : α → α → Option Bool) (h : List α) : Option (List α) :=
  initLoop? less h.length (h.length / 2) h

/-- Go `heap.Push(h, x)` for a `Less` that can panic (`none`). -/
def Push? (less : α → α → Option Bool) (h : List α) (x : α) : Option (List α) :=
  up? less (h ++ [x]) ((h ++ [x]).length - 1)

/-- Go `heap.Pop(h)` for a `Less` that can panic; `none` is a panic, that of `Less` or
that of Go on an empty heap. -/
def Pop? (less : α → α → Option Bool) (h : List α) : Option (α × List α) :=
  if h.length = 0 then none
  else
    let n := h.length - 1
    match down? less (swap h 0 n) 0 n with
    | none => none
    | some h1 =>
      match h1[n]? with
      | some x => some (x, h1.take n)
      | none => none

/-- The heap order on the first `n` positions, for the parents at or after `lo`: no
element is less than its parent (the parent of position `k` is `(k - 1) / 2`). -/
def HeapFrom (less : α → α → Bool) (h : List α) (n lo : Nat) : Prop :=
  ∀ k, 0 < k → k < n → lo ≤ (k - 1) / 2 → lessAt less h k ((k - 1) / 2) = false

/-- The invariant of `container/heap`: the whole slice is in heap order. -/
def IsHeap (less : α → α → Bool) (h : List α) : Prop :=
  HeapFrom less h h.length 0

end heap

/-- Go `bufio.MaxScanTokenSize`, the largest buffer a `Scanner` allocates. -/
def bufio.MaxScanTokenSize : Nat := 64 * 1024

/-- Go `bufio.dropCR`: drops one trailing `'\r'`. -/
def bufio.dropCR (data : Bytes) : Bytes :=
  if data.getLast? = some 13 then data.dropLast else data

/-- Go `bufio.ScanLines`, the default split function of a `Scanner`: the result is
`(advance, token)`, with `none` for a nil token. -/
def bufio.ScanLines (data : Bytes) (atEOF : Bool) : Nat × Option Bytes :=
  if atEOF = true ∧ data.length = 0 then (0, none)
  else
    match bytes.IndexByte data 10 with
    | some i => (i + 1, some (bufio.dropCR (data.take i)))
    | none => if atEOF = true then (data.length, some (bufio.dropCR data)) else (0, none)

/-- One call of `Scanner.Scan` on a scanner whose reader still holds `rest`:
`some (token, rest')` when it returns true. The scanner offers the split function
the bytes from the start of the token, growing its buffer up to
`MaxScanTokenSize`; the split function sees `atEOF` only when the reader ended
before that buffer was full. `none` is a `Scan` that returns false: end of input,
or `ErrTooLong` when the full buffer holds no token. -/
def bufio.Scan (rest : Bytes) : Option (Bytes × Bytes) :=
  match bufio.ScanLines (rest.take bufio.MaxScanTokenSize)
      (decide (rest.length < bufio.MaxScanTokenSize)) with
  | (advance, some token) => some (token, rest.drop advance)
  | (_, none) => none

/-- The tokens the successive `Scan` calls return until the first one that
returns false. -/
def bufio.scanLoop : Nat → Bytes → List Bytes
  | 0, _ => []
  | fuel + 1, rest =>
    match bufio.Scan rest with
    | some (token, rest') => token :: bufio.scanLoop fuel rest'
    | none => []

/-- Go `bufio.NewScanner(r)`: a scanner is represented by the tokens its `Scan`
calls are going to return, in order (`scanner.Scan()` takes the head,
`scanner.Bytes()` is that head). -/
def bufio.NewScanner (r : Bytes) : List Bytes :=
  bufio.scanLoop r.length r

/-- The error a `Scanner` can end with when its reader raises none: `bufio.ErrTooLong`
("token too long"). -/
inductive bufio.ScanError where
  | ErrTooLong
deriving DecidableEq

/-- What `Scanner.Err()` reports (`none` for nil) after a `Scan` that returned false on a
scanner whose reader still held `rest`: the split function found no token in what
the buffer holds; when the reader ended before the buffer was full that is the end
of input (`io.EOF`, which `Err` reports as nil), otherwise the buffer is full at
`MaxScanTokenSize` and `Scan` has set `ErrTooLong`. -/
def bufio.scanErr (rest : Bytes) : Option bufio.ScanError :=
  if rest.length < bufio.MaxScanTokenSize then none else some .ErrTooLong

/-- The successive `Scan` calls up to the first one that returns false, and the error
left by that one. -/
def bufio.errLoop : Nat → Bytes → Option bufio.ScanError
  | 0, _ => none
  | fuel + 1, rest =>
    match bufio.Scan rest with
    | some (_, rest') => bufio.errLoop fuel rest'
    | none => bufio.scanErr rest

/-- `scanner.Err()` after the loop `for scanner.Scan() { ... }` on
`bufio.NewScanner(r)`. -/
def bufio.Scanner.Err (r : Bytes) : Option bufio.ScanError :=
  bufio.errLoop (r.length + 1) r

/-- The contract of an ordering function handed to `sort.Sort` / `sort.Slice`
or to `container/heap`: a strict weak ordering. -/
structure StrictWeak {α : Type} (less : α → α → Bool) : Prop where
  asymm : ∀ a b, less a b = true → less b a = false
  trans : ∀ a b c, less b a = false → less c b = false → less c a = false

/-- The documented contract of Go `sort.Sort` and `sort.Slice` (the algorithm itself
is library code and not stable): the result is a rearrangement of the input,
and it is in increasing order when `less` is a strict weak ordering. -/
def SortContract {α : Type} (srt : (α → α → Bool) → List α → List α) : Prop :=
  ∀ less l, (srt less l).Perm l ∧
    (StrictWeak less → (srt less l).Pairwise (fun a b => less b a = false))

/-- An executable instance of the `sort` contract: insertion sort. -/
def insertionSortBy {α : Type} (less : α → α → Bool) (l : List α) : List α :=
  l.insertionSort (fun a b => less b a = false)

/-- The contract of Go `sort.Sort` for a `Less` that can panic (`none`). `sort.Sort`
has no `recover`, so a panic of `Less` ends the call (`none`). A call that returns
has rearranged its input. When `Less` panics on no two elements of the input and is
a strict weak ordering there (it gives what a strict weak ordering `lessT` gives),
the call returns, with the elements in increasing order. -/
def PanicSortContract {α : Type}
    (srt : (α → α → Option Bool) → List α → Option (List α)) : Prop :=
  ∀ less l,
    (∀ out, srt less l = some out → out.Perm l) ∧
    (∀ lessT : α → α → Bool, StrictWeak lessT →
      (∀ a ∈ l, ∀ b ∈ l, less a b = some (lessT a b)) →
      ∃ out, srt less l = some out ∧ out.Pairwise (fun a b => lessT b a = false))

/-- The insertion step of `insertionSortBy?`: `a` goes before the first element that it
is not above. -/
def orderedInsert? {α : Type} (less : α → α → Option Bool) (a : α) :
    List α → Option (List α)
  | [] => some [a]
  | b :: l =>
    match less b a with
    | none => none
    | some false => some (a :: b :: l)
    | some true => (orderedInsert? less a l).map (fun l1 => b :: l1)

/-- An executable instance of the contract of `sort.Sort` for a `Less` that can panic:
insertion sort, ended by the first panic of `Less`. -/
def insertionSortBy? {α : Type} (less : α → α → Option Bool) :
    List α → Option (List α)
  | [] => some []
  | a :: l =>
    match insertionSortBy? less l with
    | none => none
    | some l1 => orderedInsert? less a l1

/-! ## `internal/sort/sort.go` -/

/-- The constant `tokenDelim`. -/
def tokenDelim : Nat := 10

/-- The constant `maxBufferSize`. -/
def maxBufferSize : Int := 4 * 1024 * 1024 * 1024

/-- The constant `minSplitSize`. -/
def minSplitSize : Nat := 1024

/-- The constant `minParallel`. -/
def minParallel : Int := 1

/-- The constant `maxParallel`. -/
def maxParallel : Int := 8

/-- The type `info` (a `uint64`). -/
abbrev info := Nat

/-- The constant `infoMask`. -/
def infoMask : Nat := 0x0FFFFFFFF

/-- `newInfo(offset, length uint32)`: `info(uint64(offset)<<32 | uint64(length))`. -/
def newInfo (offset length : Nat) : info :=
  ((offset <<< 32) ||| length) % 2 ^ 64

/-- `info.offset`: `uint32((uint64(i) &^ infoMask) >> 32)`. -/
def info.offset (i : info) : Nat :=
  u32 ((i &&& (0xFFFFFFFFFFFFFFFF ^^^ infoMask)) >>> 32)

/-- `info.len`: `uint32(uint64(i) & infoMask)`. -/
def info.len (i : info) : Nat :=
  u32 (i &&& infoMask)

/-- The slice expression `data[o : o+n]` for `o := i.offset()`, `n := i.len()`; the sum
is a `uint32` sum, and `none` is the panic of a slice expression out of bounds. -/
def info.slice (data : Bytes) (i : info) : Option Bytes :=
  sliceBytes data (info.offset i) (u32add (info.offset i) (info.len i))

/-- The slice expression of `info.slice` is within bounds (Go does not panic). -/
def info.inBounds (data : Bytes) (i : info) : Prop :=
  info.offset i ≤ u32add (info.offset i) (info.len i) ∧
    u32add (info.offset i) (info.len i) ≤ data.length

instance (data : Bytes) (i : info) : Decidable (info.inBounds data i) :=
  inferInstanceAs (Decidable (_ ∧ _))

/-- The struct `buffer`. -/
structure buffer where
  data : Bytes
  infos : List info
deriving DecidableEq

/-- The errors of `NewBuffer`; `makeslicePanic` is the run-time panic of
`make([]byte, size)` on a negative size. -/
inductive BufferError where
  | ErrorTokenDelimiterNotFound
  | ErrorBufferSizeTooBig
  | makeslicePanic
deriving DecidableEq

/-- The loop of `buffer.computeOffsets` at index `i`, with the bytes from `i` on. -/
def buffer.computeOffsetsLoop : Nat → Bytes → Nat → List info → List info
  | _, [], _, infos => infos
  | i, x :: xs, offset, infos =>
    if x = tokenDelim then
      buffer.computeOffsetsLoop (i + 1) xs (u32 (i + 1))
        (infos ++ [newInfo offset (u32sub (u32add (u32 i) 1) offset)])
    else buffer.computeOffsetsLoop (i + 1) xs offset infos

/-- `buffer.computeOffsets`. -/
def buffer.computeOffsets (b : buffer) : buffer :=
  { b with infos := buffer.computeOffsetsLoop 0 b.data 0 [] }

/-- The loop of `buffer.trim`: `for i := len(b.data) - 1; i >= 0; i--`, the argument
being `i + 1`; the result is `delimIdx` when found. -/
def buffer.trimLoop (data : Bytes) : Nat → Option Nat
  | 0 => none
  | i + 1 => if data[i]? = some tokenDelim then some i else buffer.trimLoop data i

/-- `buffer.trim`: the buffer after the call and `trimmed`. On success `trimmed` is the
slice that `make([]byte, len(b.data)-lastOffset)` returns, which is never nil (it is
the empty slice when the data ends with the delimiter); the failing call returns
`nil, ErrorTokenDelimiterNotFound`, an error without a slice. -/
def buffer.trim (b : buffer) : Except BufferError (buffer × Bytes) :=
  match buffer.trimLoop b.data b.data.length with
  | none => .error .ErrorTokenDelimiterNotFound
  | some delimIdx =>
    let lastOffset := delimIdx + 1
    let trimmed := b.data.drop lastOffset
    .ok ({ b with data := b.data.take lastOffset }, trimmed)

/-- `NewBuffer(r, size)`; `io.ReadFull` delivers the first `size` bytes of the
reader, or all of them when it holds fewer (its errors `io.EOF`, after no byte at
all, and `io.ErrUnexpectedEOF`, after fewer bytes than `size`, are let through by
`NewBuffer`). A failing call returns `nil, nil, err`: an error without buffer and
without trimmed bytes. -/
def NewBuffer (r : Bytes) (size : Int) : Except BufferError (buffer × Bytes) :=
  if size > maxBufferSize then .error .ErrorBufferSizeTooBig
  else if size < 0 then .error .makeslicePanic
  else
    let data := r.take size.toNat
    let b : buffer := { data := data, infos := [] }
    buffer.trim (buffer.computeOffsets b)

/-- `sortSplit.Less` on the two index entries at the indices compared; `none` when one
of its two slice expressions panics. -/
def sortSplit.Less (data : Bytes) (iInfo jInfo : info) : Option Bool :=
  match info.slice data iInfo, info.slice data jInfo with
  | some a, some b => some (decide (bytes.Compare a b < 0))
  | _, _ => none

/-- The struct `splitHeap`. -/
structure splitHeap where
  data : Bytes
  heap : List (List info)
deriving DecidableEq

/-- The bytes `h.data[iO : iO+iN]` that `splitHeap.Less` reads for a partition, those of
its head entry `h.heap[i][0]`; `none` is a panic, that of the index expression on an
empty partition or that of the slice expression. -/
def splitHeap.headSlice (data : Bytes) (s : List info) : Option Bytes :=
  match s with
  | iInfo :: _ => info.slice data iInfo
  | [] => none

/-- `splitHeap.Less` on the two partitions at the indices compared; `none` when it
panics. -/
def splitHeap.Less (data : Bytes) (a b : List info) : Option Bool :=
  match splitHeap.headSlice data a, splitHeap.headSlice data b with
  | some x, some y => some (decide (bytes.Compare x y < 0))
  | _, _ => none

/-- The loop `for parallel > 1 && len(b.infos)/parallel < minSplitSize { parallel-- }`. -/
def buffer.reduceParallel (len : Nat) : Nat → Nat
  | 0 => 0
  | 1 => 1
  | p + 2 => if len / (p + 2) < minSplitSize then buffer.reduceParallel len (p + 1) else p + 2

/-- The partition count `buffer.Sort` works with: the clamp and the reduction loop. -/
def buffer.parallelOf (b : buffer) (parallel : Int) : Nat :=
  buffer.reduceParallel b.infos.length (max minParallel (min maxParallel parallel)).toNat

/-- The loop `for i := range parallel` of `buffer.Sort` that cuts the index into
`splits`, at index `i`, with `k` iterations left. -/
def buffer.splitsLoop (infos : List info) (parallel n : Nat) : Nat → Nat → List (List info)
  | 0, _ => []
  | k + 1, i =>
    let j := i * n
    let split := if i < parallel - 1 then (infos.drop j).take n else infos.drop j
    if split.length > 0 then split :: buffer.splitsLoop infos parallel n k (i + 1)
    else buffer.splitsLoop infos parallel n k (i + 1)

/-- The partitions `splits` that `buffer.Sort(parallel)` cuts from the index, before
its goroutines sort them. -/
def buffer.splits (b : buffer) (parallel : Int) : List (List info) :=
  let parallel := buffer.parallelOf b parallel
  let n := b.infos.length / parallel
  buffer.splitsLoop b.infos parallel n parallel 0

/-- The goroutines of `buffer.Sort`, one `sort.Sort` per partition, and `wg.Wait()`.
The goroutines sort disjoint partitions, so their joint effect is that of sorting the
partitions one by one; a panic in any of them ends the program (`none`). -/
def buffer.sortSplits (srt : (info → info → Option Bool) → List info → Option (List info))
    (data : Bytes) : List (List info) → Option (List (List info))
  | [] => some []
  | s :: splits =>
    match srt (sortSplit.Less data) s, buffer.sortSplits srt data splits with
    | some s1, some splits1 => some (s1 :: splits1)
    | _, _ => none

/-- `buffer.Sort(parallel)`; `srt` is `sort.Sort`. `none` is a panic, in a goroutine or
in `heap.Init`. -/
def buffer.Sort (srt : (info → info → Option Bool) → List info → Option (List info))
    (b : buffer) (parallel : Int) : Option splitHeap :=
  let parallel := buffer.parallelOf b parallel
  let n := b.infos.length / parallel
  let splits := buffer.splitsLoop b.infos parallel n parallel 0
  match buffer.sortSplits srt b.data splits with
  | none => none
  | some splits =>
    match heap.Init? (splitHeap.Less b.data) splits with
    | none => none
    | some hp => some { data := b.data, heap := hp }

/-- How a run of the engine ends without a result: a run-time panic of Go, or the fuel
of the drain loop running out (which the theorems exclude). -/
inductive Fault where
  | panic
  | outOfFuel
deriving DecidableEq

/-- `splitHeap.NextToken`: `.ok none` is the result `(nil, false)`, `.ok (some ..)` the
token and the heap after the call, `.error .panic` a panic: in `heap.Pop`, in
`infos[0]` on an empty partition, in the slice expression of the token, or in
`heap.Push`. -/
def splitHeap.NextToken (h : splitHeap) : Except Fault (Option (Bytes × splitHeap)) :=
  if h.heap.length = 0 then .ok none
  else
    match heap.Pop? (splitHeap.Less h.data) h.heap with
    | none => .error .panic
    | some ([], _) => .error .panic
    | some (i :: rest, heap1) =>
      match info.slice h.data i with
      | none => .error .panic
      | some token =>
        if (i :: rest).length > 1 then
          match heap.Push? (splitHeap.Less h.data) heap1 rest with
          | none => .error .panic
          | some heap2 => .ok (some (token, { h with heap := heap2 }))
        else .ok (some (token, { h with heap := heap1 }))

/-- The drain loop of `cmd/simple_sort`:
`for { token, ok := it.NextToken(); if !ok { break }; br.Write(token) }`,
returning the tokens in the order written; `.error .panic` when a `NextToken` panics,
`.error .outOfFuel` when the fuel runs out. -/
def drainLoop : Nat → splitHeap → Except Fault (List Bytes)
  | 0, _ => .error .outOfFuel
  | fuel + 1, h =>
    match splitHeap.NextToken h with
    | .error e => .error e
    | .ok none => .ok []
    | .ok (some (token, h1)) =>
      match drainLoop fuel h1 with
      | .error e => .error e
      | .ok ts => .ok (token :: ts)

/-- Draining `b.Sort(parallel)` with `NextToken`. -/
def drainSort (srt : (info → info → Option Bool) → List info → Option (List info))
    (b : buffer) (parallel : Int) : Except Fault (List Bytes) :=
  match buffer.Sort srt b parallel with
  | none => .error .panic
  | some h => drainLoop (b.infos.length + 1) h

/-! ## `internal/chunks/chunker.go` -/

/-- The error the chunker sends: `fmt.Errorf("token size greater than chunk size")`. -/
inductive ChunkerError where
  | tokenSizeGreaterThanChunkSize
deriving DecidableEq

/-- What the producer goroutine of `NewChunker` sent before both channels were
closed: the chunks on `out`, in order, and the errors on `errs`. -/
structure ChunkerOutput where
  out : List (List Bytes)
  errs : List ChunkerError
deriving DecidableEq

/-- The loop `for scanner.Scan() { ... }` of the producer over the tokens the scanner
still returns, with the loop variables `chunk` and `currentSize`. The result is
the chunks sent on `out` by this loop and the chunk held when the loop ended,
or `none` when the error was sent and the goroutine returned. `currentSize` and
`tokenSize` are the byte counts of slices that are all held in memory at that
point, so their `uint` sum stays below `2^64` and is the sum on `Nat`. -/
def NewChunker.scanLoop (chunkSize : Nat) :
    List Bytes → List Bytes → Nat → List (List Bytes) × Option (List Bytes)
  | [], chunk, _ => ([], some chunk)
  | token :: scanner, chunk, currentSize =>
    let tokenSize := token.length
    if tokenSize > chunkSize then ([], none)
    else if currentSize + tokenSize ≤ chunkSize then
      NewChunker.scanLoop chunkSize scanner (chunk ++ [token]) (currentSize + tokenSize)
    else
      let r := NewChunker.scanLoop chunkSize scanner [token] tokenSize
      (chunk :: r.1, r.2)

/-- The loop `for _, reader := range readers` of the producer. -/
def NewChunker.readersLoop (chunkSize : Nat) : List Bytes → ChunkerOutput
  | [] => { out := [], errs := [] }
  | reader :: readers =>
    match NewChunker.scanLoop chunkSize (bufio.NewScanner reader) [] 0 with
    | (sent, none) => { out := sent, errs := [ChunkerError.tokenSizeGreaterThanChunkSize] }
    | (sent, some chunk) =>
      let sent := if chunk.length > 0 then sent ++ [chunk] else sent
      let r := NewChunker.readersLoop chunkSize readers
      { out := sent ++ r.out, errs := r.errs }

set_option linter.unusedVariables false in
/-- `NewChunker(ctx, chunkSize, bufferSize, readers...)`: everything the two returned
channels deliver (`bufferSize` only sizes the channel). -/
def NewChunker (chunkSize bufferSize : Nat) (readers : List Bytes) : ChunkerOutput :=
  NewChunker.readersLoop chunkSize readers

/-! ## `internal/chunks/sorter.go` -/

/-- The comparator handed to `sort.Slice` in the worker:
`bytes.Compare(chunk[i], chunk[j]) < 0`. -/
def NewSorter.less (a b : Bytes) : Bool :=
  decide (bytes.Compare a b < 0)

/-- The write loop of the worker: each token, then `'\n'`. -/
def NewSorter.writeRun (chunk : List Bytes) : Bytes :=
  chunk.flatMap (fun token => token ++ [10])

/-- One iteration of a worker of `NewSorter` on a received chunk, absent I/O
failure: `sort.Slice` on the chunk, then the content written to the temporary
file whose name it sends. `slc` is `sort.Slice`. -/
def NewSorter.worker (slc : (Bytes → Bytes → Bool) → List Bytes → List Bytes)
    (chunk : List Bytes) : Bytes :=
  NewSorter.writeRun (slc NewSorter.less chunk)

/-- The temporary files of `NewSorter(ctx, numSorters, chunks)`, one per chunk received
whatever the number of workers, listed in the order of the chunks (the order in
which the workers send the names is not fixed). -/
def NewSorter (slc : (Bytes → Bytes → Bool) → List Bytes → List Bytes)
    (chunks : List (List Bytes)) : List Bytes :=
  chunks.map (NewSorter.worker slc)

/-! ## `internal/chunks/merger.go` -/

/-- The struct `mergeStep`. -/
structure mergeStep where
  srcIdx : Nat
  token : Bytes
deriving DecidableEq

/-- `mergeHeap.Less` on the two steps at the indices compared. -/
def mergeHeap.Less (a b : mergeStep) : Bool :=
  decide (bytes.Compare a.token b.token < 0)

/-- The first loop of `Merge`, `for idx, scanner := range scanners`, from index `idx`
on: the heap and the scanners after it. -/
def Merge.fillLoop : Nat → Nat → List mergeStep → List (List Bytes) →
    List mergeStep × List (List Bytes)
  | 0, _, h, scanners => (h, scanners)
  | k + 1, idx, h, scanners =>
    match scanners[idx]? with
    | some (token :: rest) =>
      Merge.fillLoop k (idx + 1) (heap.Push mergeHeap.Less h { srcIdx := idx, token := token })
        (scanners.set idx rest)
    | _ => Merge.fillLoop k (idx + 1) h scanners

/-- The second loop of `Merge`, `for mergeHeap.Len() > 0`: the steps whose token and
newline it writes, in order; `none` when the fuel runs out. -/
def Merge.mainLoop : Nat → List mergeStep → List (List Bytes) → Option (List mergeStep)
  | 0, _, _ => none
  | fuel + 1, h, scanners =>
    if h.length > 0 then
      match heap.Pop mergeHeap.Less h with
      | some (step, h1) =>
        match scanners[step.srcIdx]? with
        | some (token :: rest) =>
          (Merge.mainLoop fuel (heap.Push mergeHeap.Less h1 { step with token := token })
            (scanners.set step.srcIdx rest)).map (fun w => step :: w)
        | _ => (Merge.mainLoop fuel h1 scanners).map (fun w => step :: w)
      | none => none
    else some []

/-- The errors `Merge` can return: a failed write of a token, of a newline, or a
failed flush. -/
inductive MergeError where
  | failedToWriteToken
  | failedToWriteNewline
  | flushFailed
deriving DecidableEq

/-- What `Merge` leaves behind: the bytes written to `out` and the error returned
(`none` for nil). -/
structure MergeResult where
  written : Bytes
  err : Option MergeError
deriving DecidableEq

/-- The steps `Merge` writes for the given readers. -/
def Merge.steps (readers : List Bytes) : Option (List mergeStep) :=
  let scanners := readers.map bufio.NewScanner
  let filled := Merge.fillLoop scanners.length 0 [] scanners
  Merge.mainLoop ((scanners.map List.length).sum + 1) filled.1 filled.2

/-- `Merge(ctx, readers, out)`; `none` when the fuel of the main loop runs out. After
the loop `writer.Flush()` returns nil. -/
def Merge (readers : List Bytes) : Option MergeResult :=
  (Merge.steps readers).map (fun w =>
    { written := w.flatMap (fun s => s.token ++ [10]), err := none })

/-! ## `main.go`: the external pipeline -/

/-- The data path of `runSort` for the one input stream it supports (stdin): chunker,
run sorter, merger. `slc` is `sort.Slice`; `arrival` is the order in which the
names of the temporary files reach the driver, which the scheduling of the
workers decides. `none` stands for the `log.Fatal` that answers a chunker error
(or for the merge loop running out of fuel). -/
def runSort.pipeline (slc : (Bytes → Bytes → Bool) → List Bytes → List Bytes)
    (arrival : List Bytes → List Bytes) (chunkSize bufferSize : Nat) (input : Bytes) :
    Option MergeResult :=
  let c := NewChunker chunkSize bufferSize [input]
  if c.errs ≠ [] then none
  else Merge (arrival (NewSorter slc c.out))

/-- The sizing arithmetic of `runSort` on `uint` values (64 bits):
`chunkSize := bufferSize / numSorters / 2`, `totalChunks := bufferSize / chunkSize`,
`channelBufferSize := totalChunks - numSorters`; the result is these three values,
and `none` stands for the run-time panic of an integer division by zero. The
subtraction wraps as `uint` subtraction does. -/
def runSort.sizing (bufferSize numSorters : Nat) : Option (Nat × Nat × Nat) :=
  if numSorters = 0 then none
  else
    let chunkSize := bufferSize / numSorters / 2
    if chunkSize = 0 then none
    else
      let totalChunks := bufferSize / chunkSize
      let channelBufferSize := (totalChunks + 2 ^ 64 - numSorters % 2 ^ 64) % 2 ^ 64
      some (chunkSize, totalChunks, channelBufferSize)

/-! ## Notions of the specification -/

/-- The tokens of a byte stream as the specification defines them: the byte runs
delimited by `0x0A`, delimiter excluded; a last run without delimiter is a token
when it is not empty. -/
def splitTokens : Bytes → List Bytes
  | [] => []
  | x :: xs =>
    if x = 10 then [] :: splitTokens xs
    else
      match splitTokens xs with
      | [] => [[x]]
      | t :: ts => (x :: t) :: ts

/-- The stream written by putting the delimiter `0x0A` after each token. -/
def joinTokens (toks : List Bytes) : Bytes :=
  toks.flatMap (fun t => t ++ [10])

/-- The index entries that address consecutive newline-terminated tokens with the
payloads `toks`, the first of them starting at `start`: offset of the first
byte, and length with the delimiter. -/
def entriesFrom : Nat → List Bytes → List info
  | _, [] => []
  | start, t :: ts => newInfo start (t.length + 1) :: entriesFrom (start + t.length + 1) ts

/-- The bytes an index entry addresses: those its slice expression returns (no bytes
when the expression panics). -/
def info.bytes (data : Bytes) (i : info) : Bytes :=
  (info.slice data i).getD []

/-- The order of `sortSplit.Less` on the bytes the entries address. -/
def sortSplit.lessBytes (data : Bytes) (iInfo jInfo : info) : Bool :=
  decide (bytes.Compare (info.bytes data iInfo) (info.bytes data jInfo) < 0)

/-- The bytes the head entry of a partition addresses. -/
def splitHeap.headBytes (data : Bytes) (s : List info) : Bytes :=
  (splitHeap.headSlice data s).getD []

/-- The order of `splitHeap.Less` on the bytes the head entries address. -/
def splitHeap.lessBytes (data : Bytes) (a b : List info) : Bool :=
  decide (bytes.Compare (splitHeap.headBytes data a) (splitHeap.headBytes data b) < 0)

/-- Invariant of `Merge`: each of the first `n` scanners that still has tokens has a
step in the heap. -/
def Merge.Covered (n : Nat) (h : List mergeStep) (scanners : List (List Bytes)) : Prop :=
  ∀ i toks, i < n → scanners[i]? = some toks → toks ≠ [] → ∃ s ∈ h, s.srcIdx = i

/-- Non-decreasing order of a token sequence under `bytes.Compare`. -/
def SortedTokens (l : List Bytes) : Prop :=
  l.Pairwise (fun a b => bytes.Compare a b ≤ 0)

instance (l : List Bytes) : Decidable (SortedTokens l) :=
  inferInstanceAs (Decidable (l.Pairwise (fun a b => bytes.Compare a b ≤ 0)))

/-- Invariant of `Merge` on sorted sources: the tokens each scanner still returns are
in order, and no step in the heap is above a token its scanner still returns. -/
def Merge.Ordered (h : List mergeStep) (scanners : List (List Bytes)) : Prop :=
  (∀ toks ∈ scanners, SortedTokens toks) ∧
    ∀ s ∈ h, ∀ toks, scanners[s.srcIdx]? = some toks → ∀ t ∈ toks, bytes.Compare s.token t ≤ 0

/-- The relation between a chunk and the chunk sent after it by a greedy grouping: the
second chunk starts with a token that did not fit the first any more. -/
def NewChunker.Overflows (chunkSize : Nat) (c d : List Bytes) : Prop :=
  ∃ t rest, d = t :: rest ∧ chunkSize < (c.map List.length).sum + t.length

/-- The tokens of the steps that come from source `i`, in the order of the steps. -/
def Merge.fromSource (i : Nat) (w : List mergeStep) : List Bytes :=
  (w.filter (fun s => decide (s.srcIdx = i))).map mergeStep.token

/-! ## `bytes.Compare` is a three-way comparison of a linear order -/

theorem bytes.Compare_self (a : Bytes) : bytes.Compare a a = 0 := by
  induction a with
  | nil => rfl
  | cons x xs ih => simp [bytes.Compare, ih]

theorem bytes.Compare_range (a b : Bytes) :
    bytes.Compare a b = -1 ∨ bytes.Compare a b = 0 ∨ bytes.Compare a b = 1 := by
  induction a generalizing b with
  | nil => cases b <;> simp [bytes.Compare]
  | cons x xs ih =>
    cases b with
    | nil => simp [bytes.Compare]
    | cons y ys =>
      simp only [bytes.Compare]
      split
      · simp
      · split
        · simp
        · exact ih ys

theorem bytes.Compare_swap (a b : Bytes) : bytes.Compare b a = - bytes.Compare a b := by
  induction a generalizing b with
  | nil => cases b <;> simp [bytes.Compare]
  | cons x xs ih =>
    cases b with
    | nil => simp [bytes.Compare]
    | cons y ys =>
      simp only [bytes.Compare]
      by_cases h1 : x < y
      · have h2 : ¬ y < x := by omega
        simp [h1, h2]
      · by_cases h2 : y < x
        · simp [h1, h2]
        · simp [h1, h2, ih ys]

theorem bytes.Compare_eq_zero {a b : Bytes} (h : bytes.Compare a b = 0) : a = b := by
  induction a generalizing b with
  | nil => cases b <;> simp_all [bytes.Compare]
  | cons x xs ih =>
    cases b with
    | nil => simp [bytes.Compare] at h
    | cons y ys =>
      simp only [bytes.Compare] at h
      by_cases h1 : x < y
      · simp [h1] at h
      · by_cases h2 : y < x
        · simp [h1, h2] at h
        · simp only [h1, h2, if_false] at h
          have hxy : x = y := by omega
          rw [hxy, ih h]

theorem bytes.Compare_le_trans {a b c : Bytes}
    (h1 : bytes.Compare a b ≤ 0) (h2 : bytes.Compare b c ≤ 0) : bytes.Compare a c ≤ 0 := by
  induction a generalizing b c with
  | nil => cases c <;> simp [bytes.Compare]
  | cons x xs ih =>
    cases b with
    | nil => simp [bytes.Compare] at h1
    | cons y ys =>
      cases c with
      | nil => simp [bytes.Compare] at h2
      | cons z zs =>
        simp only [bytes.Compare] at h1 h2 ⊢
        by_cases hxy : x < y
        · by_cases hyz : y < z
          · have : x < z := by omega
            simp [this]
          · by_cases hzy : z < y
            · simp [hyz, hzy] at h2
            · have : x < z := by omega
              simp [this]
        · by_cases hyx : y < x
          · simp [hxy, hyx] at h1
          · simp only [hxy, hyx, if_false] at h1
            by_cases hyz : y < z
            · have : x < z := by omega
              simp [this]
            · by_cases hzy : z < y
              · simp [hyz, hzy] at h2
              · simp only [hyz, hzy, if_false] at h2
                have h3 : ¬ x < z := by omega
                have h4 : ¬ z < x := by omega
                simp only [h3, h4, if_false]
                exact ih h1 h2

theorem bytes.Compare_le_total (a b : Bytes) :
    bytes.Compare a b ≤ 0 ∨ bytes.Compare b a ≤ 0 := by
  rw [bytes.Compare_swap a b]
  omega

theorem bytes.Compare_le_antisymm {a b : Bytes}
    (h1 : bytes.Compare a b ≤ 0) (h2 : bytes.Compare b a ≤ 0) : a = b := by
  rw [bytes.Compare_swap a b] at h2
  exact bytes.Compare_eq_zero (by omega)

/-- An ordering that compares keys with `bytes.Compare(..) < 0` is a strict weak ordering. -/
theorem strictWeak_of_key {α : Type} (key : α → Bytes) :
    StrictWeak (fun a b : α => decide (bytes.Compare (key a) (key b) < 0)) := by
  constructor
  · intro a b h
    have h1 : bytes.Compare (key a) (key b) < 0 := by simpa using h
    rw [bytes.Compare_swap (key a) (key b)]
    simp only [decide_eq_false_iff_not, not_lt]
    omega
  · intro a b c h1 h2
    simp only [decide_eq_false_iff_not, not_lt] at h1 h2 ⊢
    rw [bytes.Compare_swap] at h1 h2 ⊢
    have := @bytes.Compare_le_trans (key a) (key b) (key c) (by omega) (by omega)
    omega

/-- Appending the delimiter to payloads without bytes below it keeps the comparison. -/
theorem bytes.Compare_append_delim (a b : Bytes)
    (ha : ∀ x ∈ a, 10 < x) (hb : ∀ x ∈ b, 10 < x) :
    bytes.Compare (a ++ [10]) (b ++ [10]) = bytes.Compare a b := by
  induction a generalizing b with
  | nil =>
    cases b with
    | nil => simp [bytes.Compare]
    | cons y ys =>
      have hy : 10 < y := hb y (by simp)
      simp [bytes.Compare, hy]
  | cons x xs ih =>
    have hx : 10 < x := ha x (by simp)
    cases b with
    | nil =>
      have h1 : ¬ x < 10 := by omega
      simp [bytes.Compare, hx, h1]
    | cons y ys =>
      have h := ih ys (fun z hz => ha z (by simp [hz])) (fun z hz => hb z (by simp [hz]))
      simp [bytes.Compare, h]

namespace heap

variable {α : Type}

/-! ## `container/heap`: swaps -/

theorem length_swap (h : List α) (i j : Nat) : (swap h i j).length = h.length := by
  unfold swap
  split <;> simp

theorem getElem?_swap (h : List α) (i j k : Nat) (hi : i < h.length) (hj : j < h.length) :
    (swap h i j)[k]? = if k = j then h[i]? else if k = i then h[j]? else h[k]? := by
  unfold swap
  rw [List.getElem?_eq_getElem hi, List.getElem?_eq_getElem hj]
  simp only [List.getElem?_set, List.length_set]
  by_cases h1 : k = j
  · subst h1
    simp [hj]
  · by_cases h2 : k = i
    · subst h2
      simp [h1, hi, Ne.symm h1]
    · simp [h1, h2, Ne.symm h1, Ne.symm h2]

theorem set_perm_aux (l : List α) (j : Nat) (x b : α) (hb : l[j]? = some b) :
    (b :: l.set j x).Perm (x :: l) := by
  induction l generalizing j with
  | nil => simp at hb
  | cons y ys ih =>
    cases j with
    | zero =>
      simp at hb
      subst hb
      simp only [List.set_cons_zero]
      exact List.Perm.swap _ _ _
    | succ j =>
      simp only [List.getElem?_cons_succ] at hb
      simp only [List.set_cons_succ]
      exact (List.Perm.swap _ _ _).trans (((ih j hb).cons y).trans (List.Perm.swap _ _ _))

theorem swap_perm (h : List α) (i j : Nat) : (swap h i j).Perm h := by
  unfold swap
  split
  · rename_i a b ha hb
    induction h generalizing i j with
    | nil => simp at ha
    | cons y ys ih =>
      cases i with
      | zero =>
        cases j with
        | zero =>
          simp at ha hb
          subst ha
          subst hb
          simp
        | succ j =>
          simp at ha hb
          subst ha
          simp only [List.set_cons_zero, List.set_cons_succ]
          exact set_perm_aux ys j y b hb
      | succ i =>
        cases j with
        | zero =>
          simp at ha hb
          subst hb
          simp only [List.set_cons_zero, List.set_cons_succ]
          exact set_perm_aux ys i y a ha
        | succ j =>
          simp only [List.getElem?_cons_succ] at ha hb
          simp only [List.set_cons_succ]
          exact (ih i j ha hb).cons y
  · exact List.Perm.refl _

theorem getElem?_swap_tr (h : List α) (i j k : Nat) (hi : i < h.length) (hj : j < h.length) :
    (swap h i j)[k]? = h[if k = j then i else if k = i then j else k]? := by
  rw [getElem?_swap h i j k hi hj]
  split_ifs <;> rfl

theorem lessAt_swap (less : α → α → Bool) (h : List α) (i j k m : Nat)
    (hi : i < h.length) (hj : j < h.length) :
    lessAt less (swap h i j) k m =
      lessAt less h (if k = j then i else if k = i then j else k)
        (if m = j then i else if m = i then j else m) := by
  unfold lessAt
  rw [getElem?_swap_tr h i j k hi hj, getElem?_swap_tr h i j m hi hj]

theorem lessAt_asymm {less : α → α → Bool} (sw : StrictWeak less) (h : List α) (a b : Nat)
    (hab : lessAt less h a b = true) : lessAt less h b a = false := by
  unfold lessAt at hab ⊢
  cases ha : h[a]? with
  | none => simp [ha] at hab
  | some x =>
    cases hb : h[b]? with
    | none => simp [ha, hb] at hab
    | some y =>
      simp only [ha, hb] at hab ⊢
      exact sw.asymm x y hab

theorem lessAt_self {less : α → α → Bool} (sw : StrictWeak less) (h : List α) (a : Nat) :
    lessAt less h a a = false := by
  cases hab : lessAt less h a a with
  | false => rfl
  | true =>
    have := lessAt_asymm sw h a a hab
    rw [hab] at this
    exact absurd this (by simp)

theorem lessAt_trans {less : α → α → Bool} (sw : StrictWeak less) (h : List α) (a b c : Nat)
    (hb : b < h.length) (h1 : lessAt less h b a = false) (h2 : lessAt less h c b = false) :
    lessAt less h c a = false := by
  unfold lessAt at h1 h2 ⊢
  rw [List.getElem?_eq_getElem hb] at h1 h2
  cases ha : h[a]? with
  | none => cases h[c]? <;> rfl
  | some x =>
    cases hc : h[c]? with
    | none => rfl
    | some z =>
      simp only [ha, hc] at h1 h2 ⊢
      exact sw.trans x _ z h1 h2

end heap

namespace heap

variable {α : Type}

/-! ## `container/heap`: `down` -/

theorem downLoop_length (less : α → α → Bool) (n : Nat) (fuel : Nat) (h : List α) (c : Nat) :
    (downLoop less n fuel h c).length = h.length := by
  induction fuel generalizing h c with
  | zero => rfl
  | succ fuel ih =>
    simp only [downLoop]
    split_ifs <;> first | rfl | (rw [ih, length_swap])

theorem downLoop_perm (less : α → α → Bool) (n : Nat) (fuel : Nat) (h : List α) (c : Nat) :
    (downLoop less n fuel h c).Perm h := by
  induction fuel generalizing h c with
  | zero => exact List.Perm.refl _
  | succ fuel ih =>
    simp only [downLoop]
    split_ifs <;> first | exact List.Perm.refl _ | exact (ih _ _).trans (swap_perm _ _ _)

theorem downLoop_getElem?_ge (less : α → α → Bool) (n : Nat) (fuel : Nat) (h : List α) (c : Nat)
    (hn : n ≤ h.length) (m : Nat) (hm : n ≤ m) :
    (downLoop less n fuel h c)[m]? = h[m]? := by
  induction fuel generalizing h c with
  | zero => rfl
  | succ fuel ih =>
    simp only [downLoop]
    split_ifs with h1 h2 h3 h4
    · rfl
    · rfl
    · rw [ih _ _ (by rw [length_swap]; exact hn)]
      rw [getElem?_swap h c _ m (by omega) (by omega)]
      rw [if_neg (by omega), if_neg (by omega)]
    · rfl
    · rw [ih _ _ (by rw [length_swap]; exact hn)]
      rw [getElem?_swap h c _ m (by omega) (by omega)]
      rw [if_neg (by omega), if_neg (by omega)]

theorem down_stop {less : α → α → Bool} (sw : StrictWeak less) (h : List α) (n lo c j : Nat)
    (hn : n ≤ h.length) (hjn : j < n)
    (hA : ∀ k, 0 < k → k < n → lo ≤ (k - 1) / 2 → (k - 1) / 2 ≠ c →
      lessAt less h k ((k - 1) / 2) = false)
    (hmin : ∀ k, 0 < k → k < n → (k - 1) / 2 = c → lessAt less h k j = false)
    (hstop : lessAt less h j c = false) : HeapFrom less h n lo := by
  intro k hk0 hkn hlo
  by_cases hp : (k - 1) / 2 = c
  · rw [hp]
    exact lessAt_trans sw h c j k (by omega) hstop (hmin k hk0 hkn hp)
  · exact hA k hk0 hkn hlo hp

theorem down_swap_A {less : α → α → Bool} (sw : StrictWeak less) (h : List α) (n lo c j : Nat)
    (hn : n ≤ h.length) (hjn : j < n) (hjc : 0 < j ∧ (j - 1) / 2 = c)
    (hA : ∀ k, 0 < k → k < n → lo ≤ (k - 1) / 2 → (k - 1) / 2 ≠ c →
      lessAt less h k ((k - 1) / 2) = false)
    (hB : ∀ k, 0 < k → k < n → (k - 1) / 2 = c → 0 < c → lo ≤ (c - 1) / 2 →
      lessAt less h k ((c - 1) / 2) = false)
    (hmin : ∀ k, 0 < k → k < n → (k - 1) / 2 = c → lessAt less h k j = false)
    (hgo : lessAt less h j c = true) :
    ∀ k, 0 < k → k < n → lo ≤ (k - 1) / 2 → (k - 1) / 2 ≠ j →
      lessAt less (swap h c j) k ((k - 1) / 2) = false := by
  intro k hk0 hkn hlo hpj
  rw [lessAt_swap less h c j k _ (by omega) (by omega)]
  by_cases h1 : k = j
  · have hp : (k - 1) / 2 = c := by rw [h1]; exact hjc.2
    have hcj : c ≠ j := by omega
    rw [if_pos h1, hp, if_neg hcj, if_pos rfl]
    exact lessAt_asymm sw h j c hgo
  · by_cases h2 : k = c
    · have hc0 : 0 < c := by omega
      have hpc : (k - 1) / 2 ≠ c := by omega
      rw [if_neg h1, if_pos h2, if_neg hpj, if_neg hpc, h2]
      exact hB j hjc.1 hjn hjc.2 hc0 (by rw [h2] at hlo; exact hlo)
    · rw [if_neg h1, if_neg h2, if_neg hpj]
      by_cases h3 : (k - 1) / 2 = c
      · rw [if_pos h3]
        exact hmin k hk0 hkn h3
      · rw [if_neg h3]
        exact hA k hk0 hkn hlo h3

theorem down_swap_B {less : α → α → Bool} (h : List α) (n lo c j : Nat)
    (hn : n ≤ h.length) (hjn : j < n) (hjc : 0 < j ∧ (j - 1) / 2 = c) (hlo : lo ≤ c)
    (hA : ∀ k, 0 < k → k < n → lo ≤ (k - 1) / 2 → (k - 1) / 2 ≠ c →
      lessAt less h k ((k - 1) / 2) = false) :
    ∀ k, 0 < k → k < n → (k - 1) / 2 = j → 0 < j → lo ≤ (j - 1) / 2 →
      lessAt less (swap h c j) k ((j - 1) / 2) = false := by
  intro k hk0 hkn hp _ _
  rw [lessAt_swap less h c j k _ (by omega) (by omega)]
  have h1 : k ≠ j := by omega
  have h2 : k ≠ c := by omega
  have h3 : (j - 1) / 2 ≠ j := by omega
  rw [if_neg h1, if_neg h2, if_neg h3, if_pos hjc.2]
  have := hA k hk0 hkn (by omega) (by omega)
  rw [hp] at this
  exact this

theorem downLoop_spec {less : α → α → Bool} (sw : StrictWeak less) (n lo : Nat) :
    ∀ (fuel : Nat) (h : List α) (c : Nat), n ≤ h.length → lo ≤ c → n ≤ c + fuel →
      (∀ k, 0 < k → k < n → lo ≤ (k - 1) / 2 → (k - 1) / 2 ≠ c →
        lessAt less h k ((k - 1) / 2) = false) →
      (∀ k, 0 < k → k < n → (k - 1) / 2 = c → 0 < c → lo ≤ (c - 1) / 2 →
        lessAt less h k ((c - 1) / 2) = false) →
      HeapFrom less (downLoop less n fuel h c) n lo := by
  intro fuel
  induction fuel with
  | zero =>
    intro h c _ _ hfuel hA _ k hk0 hkn hlo
    exact hA k hk0 hkn hlo (by omega)
  | succ fuel ih =>
    intro h c hn hlo hfuel hA hB
    simp only [downLoop]
    split
    · intro k hk0 hkn hlo2
      exact hA k hk0 hkn hlo2 (by omega)
    · rename_i hj1
      by_cases hc : 2 * c + 1 + 1 < n ∧ lessAt less h (2 * c + 1 + 1) (2 * c + 1) = true
      · rw [if_pos hc]
        have hmin : ∀ k, 0 < k → k < n → (k - 1) / 2 = c →
            lessAt less h k (2 * c + 1 + 1) = false := by
          intro k hk0 _ hp
          have hk : k = 2 * c + 1 ∨ k = 2 * c + 1 + 1 := by omega
          rcases hk with hk | hk
          · rw [hk]; exact lessAt_asymm sw h _ _ hc.2
          · rw [hk]; exact lessAt_self sw h _
        split
        · rename_i hstop
          exact down_stop sw h n lo c _ hn hc.1 hA hmin hstop
        · rename_i hgo
          have hgo2 : lessAt less h (2 * c + 1 + 1) c = true := by simpa using hgo
          exact ih _ _ (by rw [length_swap]; exact hn) (by omega) (by omega)
            (down_swap_A sw h n lo c _ hn hc.1 (by omega) hA hB hmin hgo2)
            (down_swap_B h n lo c _ hn hc.1 (by omega) hlo hA)
      · rw [if_neg hc]
        have hmin : ∀ k, 0 < k → k < n → (k - 1) / 2 = c →
            lessAt less h k (2 * c + 1) = false := by
          intro k hk0 hkn hp
          have hk : k = 2 * c + 1 ∨ k = 2 * c + 1 + 1 := by omega
          rcases hk with hk | hk
          · rw [hk]; exact lessAt_self sw h _
          · rw [hk]
            rw [hk] at hkn
            cases hl : lessAt less h (2 * c + 1 + 1) (2 * c + 1) with
            | false => rfl
            | true => exact absurd ⟨hkn, hl⟩ hc
        split
        · rename_i hstop
          exact down_stop sw h n lo c _ hn (by omega) hA hmin hstop
        · rename_i hgo
          have hgo2 : lessAt less h (2 * c + 1) c = true := by simpa using hgo
          exact ih _ _ (by rw [length_swap]; exact hn) (by omega) (by omega)
            (down_swap_A sw h n lo c _ hn (by omega) (by omega) hA hB hmin hgo2)
            (down_swap_B h n lo c _ hn (by omega) (by omega) hlo hA)

end heap

namespace heap

variable {α : Type}

/-! ## `container/heap`: `up` -/

theorem upLoop_length (less : α → α → Bool) (fuel : Nat) (h : List α) (c : Nat) :
    (upLoop less fuel h c).length = h.length := by
  induction fuel generalizing h c with
  | zero => rfl
  | succ fuel ih =>
    simp only [upLoop]
    split_ifs <;> first | rfl | (rw [ih, length_swap])

theorem upLoop_perm (less : α → α → Bool) (fuel : Nat) (h : List α) (c : Nat) :
    (upLoop less fuel h c).Perm h := by
  induction fuel generalizing h c with
  | zero => exact List.Perm.refl _
  | succ fuel ih =>
    simp only [upLoop]
    split_ifs <;> first | exact List.Perm.refl _ | exact (ih _ _).trans (swap_perm _ _ _)

theorem up_swap_A {less : α → α → Bool} (sw : StrictWeak less) (h : List α) (c : Nat)
    (hc : c < h.length) (hc0 : 0 < c)
    (hA : ∀ k, 0 < k → k < h.length → k ≠ c → lessAt less h k ((k - 1) / 2) = false)
    (hB : ∀ k, 0 < k → k < h.length → (k - 1) / 2 = c → 0 < c →
      lessAt less h k ((c - 1) / 2) = false)
    (hgo : lessAt less h c ((c - 1) / 2) = true) :
    ∀ k, 0 < k → k < h.length → k ≠ (c - 1) / 2 →
      lessAt less (swap h ((c - 1) / 2) c) k ((k - 1) / 2) = false := by
  intro k hk0 hkn hki
  have hic : (c - 1) / 2 ≠ c := by omega
  rw [lessAt_swap less h ((c - 1) / 2) c k _ (by omega) hc]
  by_cases h1 : k = c
  · rw [if_pos h1, h1, if_neg hic, if_pos rfl]
    exact lessAt_asymm sw h _ _ hgo
  · rw [if_neg h1, if_neg hki]
    by_cases h2 : (k - 1) / 2 = c
    · rw [if_pos h2]
      exact hB k hk0 hkn h2 hc0
    · rw [if_neg h2]
      by_cases h3 : (k - 1) / 2 = (c - 1) / 2
      · rw [if_pos h3]
        have hk := hA k hk0 hkn h1
        rw [h3] at hk
        exact lessAt_trans sw h c ((c - 1) / 2) k (by omega) (lessAt_asymm sw h _ _ hgo) hk
      · rw [if_neg h3]
        exact hA k hk0 hkn h1

theorem up_swap_B {less : α → α → Bool} (sw : StrictWeak less) (h : List α) (c : Nat)
    (hc : c < h.length) (hc0 : 0 < c)
    (hA : ∀ k, 0 < k → k < h.length → k ≠ c → lessAt less h k ((k - 1) / 2) = false) :
    ∀ k, 0 < k → k < h.length → (k - 1) / 2 = (c - 1) / 2 → 0 < (c - 1) / 2 →
      lessAt less (swap h ((c - 1) / 2) c) k (((c - 1) / 2 - 1) / 2) = false := by
  intro k hk0 hkn hp hi0
  rw [lessAt_swap less h ((c - 1) / 2) c k _ (by omega) hc]
  have hq1 : ((c - 1) / 2 - 1) / 2 ≠ c := by omega
  have hq2 : ((c - 1) / 2 - 1) / 2 ≠ (c - 1) / 2 := by omega
  have hi := hA ((c - 1) / 2) hi0 (by omega) (by omega)
  rw [if_neg hq1, if_neg hq2]
  by_cases h1 : k = c
  · rw [if_pos h1]
    exact hi
  · have h2 : k ≠ (c - 1) / 2 := by omega
    rw [if_neg h1, if_neg h2]
    have hk := hA k hk0 hkn h1
    rw [hp] at hk
    exact lessAt_trans sw h _ ((c - 1) / 2) k (by omega) hi hk

theorem upLoop_spec {less : α → α → Bool} (sw : StrictWeak less) :
    ∀ (fuel : Nat) (h : List α) (c : Nat), c < h.length → c < fuel →
      (∀ k, 0 < k → k < h.length → k ≠ c → lessAt less h k ((k - 1) / 2) = false) →
      (∀ k, 0 < k → k < h.length → (k - 1) / 2 = c → 0 < c →
        lessAt less h k ((c - 1) / 2) = false) →
      IsHeap less (upLoop less fuel h c) := by
  intro fuel
  induction fuel with
  | zero => intro h c _ hf; omega
  | succ fuel ih =>
    intro h c hc hf hA hB
    simp only [upLoop]
    split
    · rename_i hstop
      intro k hk0 hkn _
      by_cases h1 : k = c
      · rcases hstop with hs | hs
        · omega
        · rw [h1]; exact hs
      · exact hA k hk0 hkn h1
    · rename_i hgo
      have hgo1 : (c - 1) / 2 ≠ c := fun e => hgo (Or.inl e)
      have hgo2 : lessAt less h c ((c - 1) / 2) = true := by
        cases hl : lessAt less h c ((c - 1) / 2) with
        | true => rfl
        | false => exact absurd (Or.inr hl) hgo
      have hc0 : 0 < c := by omega
      have hlen : (swap h ((c - 1) / 2) c).length = h.length := length_swap _ _ _
      apply ih _ _ (by rw [hlen]; omega) (by omega)
      · rw [hlen]
        exact up_swap_A sw h c hc hc0 hA hB hgo2
      · rw [hlen]
        exact up_swap_B sw h c hc hc0 hA

/-! ## `container/heap`: `Init`, `Push`, `Pop` -/

theorem initLoop_length (less : α → α → Bool) (n k : Nat) (h : List α) :
    (initLoop less n k h).length = h.length := by
  induction k generalizing h with
  | zero => rfl
  | succ k ih => simp only [initLoop]; rw [ih]; exact downLoop_length _ _ _ _ _

theorem initLoop_perm (less : α → α → Bool) (n k : Nat) (h : List α) :
    (initLoop less n k h).Perm h := by
  induction k generalizing h with
  | zero => exact List.Perm.refl _
  | succ k ih => simp only [initLoop]; exact (ih _).trans (downLoop_perm _ _ _ _ _)

theorem initLoop_spec {less : α → α → Bool} (sw : StrictWeak less) (n k : Nat) (h : List α)
    (hn : n ≤ h.length) (hh : HeapFrom less h n k) : HeapFrom less (initLoop less n k h) n 0 := by
  induction k generalizing h with
  | zero => exact hh
  | succ k ih =>
    simp only [initLoop]
    apply ih _ (by unfold down; rw [downLoop_length]; exact hn)
    apply downLoop_spec sw n k n h k hn (le_refl _) (by omega)
    · intro j hj0 hjn hlo hne
      exact hh j hj0 hjn (by omega)
    · intro j _ _ _ hk0 hlo
      omega

theorem Init_perm (less : α → α → Bool) (h : List α) : (Init less h).Perm h :=
  initLoop_perm _ _ _ _

theorem Init_isHeap {less : α → α → Bool} (sw : StrictWeak less) (h : List α) :
    IsHeap less (Init less h) := by
  unfold IsHeap Init
  rw [initLoop_length]
  apply initLoop_spec sw _ _ _ (le_refl _)
  intro k hk0 hkn hlo
  omega

theorem Push_perm (less : α → α → Bool) (h : List α) (x : α) : (Push less h x).Perm (x :: h) := by
  unfold Push up
  exact (upLoop_perm _ _ _ _).trans (List.perm_append_singleton x h)

theorem Push_isHeap {less : α → α → Bool} (sw : StrictWeak less) (h : List α) (x : α)
    (hh : IsHeap less h) : IsHeap less (Push less h x) := by
  unfold Push up
  have hlen : (h ++ [x]).length = h.length + 1 := by simp
  apply upLoop_spec sw _ _ _ (by rw [hlen]; omega) (by omega)
  · intro k hk0 hkn hne
    rw [hlen] at hkn hne
    have hk : k < h.length := by omega
    have := hh k hk0 hk (Nat.zero_le _)
    unfold lessAt at this ⊢
    rw [List.getElem?_append_left hk, List.getElem?_append_left (by omega)]
    exact this
  · intro k hk0 hkn hp _
    rw [hlen] at hkn hp
    omega

theorem isHeap_root_le {less : α → α → Bool} (sw : StrictWeak less) (h : List α)
    (hh : IsHeap less h) : ∀ k, k < h.length → lessAt less h k 0 = false := by
  intro k
  induction k using Nat.strong_induction_on with
  | _ k ih =>
    intro hk
    by_cases hk0 : k = 0
    · rw [hk0]; exact lessAt_self sw h 0
    · have h1 := hh k (by omega) hk (Nat.zero_le _)
      have h2 := ih ((k - 1) / 2) (by omega) (by omega)
      exact lessAt_trans sw h 0 ((k - 1) / 2) k (by omega) h2 h1

theorem isHeap_head_le {less : α → α → Bool} (sw : StrictWeak less) (x : α) (h : List α)
    (hh : IsHeap less (x :: h)) : ∀ y ∈ x :: h, less y x = false := by
  intro y hy
  obtain ⟨k, hk, hky⟩ := List.getElem_of_mem hy
  have := isHeap_root_le sw _ hh k hk
  unfold lessAt at this
  rw [List.getElem?_eq_getElem hk, hky] at this
  simpa using this

theorem Pop_spec {less : α → α → Bool} (sw : StrictWeak less) (h : List α) (hne : h ≠ [])
    (hh : IsHeap less h) :
    ∃ x h1, Pop less h = some (x, h1) ∧ (x :: h1).Perm h ∧ IsHeap less h1 ∧
      (∀ y ∈ h, less y x = false) ∧ x ∈ h := by
  cases h with
  | nil => exact absurd rfl hne
  | cons x t =>
    have hlen : (x :: t).length - 1 = t.length := by simp
    let d := down less (swap (x :: t) 0 t.length) 0 t.length
    have hsl : (swap (x :: t) 0 t.length).length = t.length + 1 := by rw [length_swap]; simp
    have hdl : d.length = t.length + 1 := by
      show (downLoop less _ _ _ _).length = _
      rw [downLoop_length, hsl]
    have hdn : d[t.length]? = some x := by
      show (downLoop less _ _ _ _)[t.length]? = _
      rw [downLoop_getElem?_ge less _ _ _ _ (by rw [hsl]; omega) _ (le_refl _)]
      rw [getElem?_swap _ 0 t.length _ (by simp) (by simp)]
      simp
    have hdp : d.Perm (x :: t) := (downLoop_perm _ _ _ _ _).trans (swap_perm _ _ _)
    have hsplit : d = d.take t.length ++ [x] := by
      have h1 : d.drop t.length = [x] := by
        rw [List.drop_eq_getElem_cons (by omega : t.length < d.length)]
        rw [List.getElem?_eq_getElem (by omega : t.length < d.length)] at hdn
        have hx : d[t.length] = x := by simpa using hdn
        rw [hx, List.drop_of_length_le (by omega)]
      conv_lhs => rw [← List.take_append_drop t.length d, h1]
    refine ⟨x, d.take t.length, ?_, ?_, ?_, ?_, ?_⟩
    · unfold Pop
      rw [if_neg (by simp)]
      simp only [hlen]
      show (match d[t.length]? with
        | some x => some (x, d.take t.length)
        | none => none) = _
      rw [hdn]
    · have : (x :: d.take t.length).Perm (d.take t.length ++ [x]) :=
        (List.perm_append_singleton x _).symm
      rw [← hsplit] at this
      exact this.trans hdp
    · have hd : HeapFrom less d t.length 0 := by
        apply downLoop_spec sw t.length 0 t.length _ 0 (by rw [hsl]; omega) (le_refl _) (by omega)
        · intro k hk0 hkn _ hp
          rw [lessAt_swap less _ 0 t.length k _ (by simp) (by simp)]
          rw [if_neg (by omega), if_neg (by omega), if_neg (by omega), if_neg hp]
          exact hh k hk0 (by simp; omega) (Nat.zero_le _)
        · intro k _ _ _ hc0 _
          omega
      intro k hk0 hkn _
      have hkl : k < t.length := by
        have : (d.take t.length).length = t.length := by
          rw [List.length_take]; omega
        omega
      have := hd k hk0 hkl (Nat.zero_le _)
      unfold lessAt at this ⊢
      rw [List.getElem?_take_of_lt hkl, List.getElem?_take_of_lt (by omega)]
      exact this
    · exact isHeap_head_le sw x t hh
    · simp

end heap

namespace heap

variable {α : Type}

/-! ## `container/heap`: the fuel of `up` and `down` is enough -/

/-- More fuel than the positions left below `n` does not change `down`. -/
theorem downLoop_fuel_succ (less : α → α → Bool) (n : Nat) (fuel : Nat) :
    ∀ (h : List α) (c : Nat), n ≤ c + fuel →
      downLoop less n (fuel + 1) h c = downLoop less n fuel h c := by
  induction fuel with
  | zero =>
    intro h c hc
    simp only [downLoop]
    rw [if_pos (by omega)]
  | succ fuel ih =>
    intro h c hc
    rw [downLoop]
    conv_rhs => rw [downLoop]
    simp only []
    split_ifs with h1 h2 h3 h4
    · rfl
    · rfl
    · exact ih _ _ (by omega)
    · rfl
    · exact ih _ _ (by omega)

/-- More fuel than the position climbed from does not change `up`. -/
theorem upLoop_fuel_succ (less : α → α → Bool) (fuel : Nat) :
    ∀ (h : List α) (c : Nat), c < fuel →
      upLoop less (fuel + 1) h c = upLoop less fuel h c := by
  induction fuel with
  | zero => intro h c hc; omega
  | succ fuel ih =>
    intro h c hc
    rw [upLoop]
    conv_rhs => rw [upLoop]
    split_ifs with h1
    · rfl
    · have : (c - 1) / 2 ≠ c := fun e => h1 (Or.inl e)
      exact ih _ _ (by omega)

end heap

/-! ## The chunker -/

/-- The scan loop of the producer: either every token fits and the chunks sent plus
the chunk held are the chunk held before plus the tokens, or some token is too
large and what was sent stops before the first such token. -/
theorem NewChunker.scanLoop_spec (chunkSize : Nat) (scanner : List Bytes) :
    ∀ (chunk : List Bytes) (currentSize : Nat),
      (∃ sent last, NewChunker.scanLoop chunkSize scanner chunk currentSize = (sent, some last) ∧
        (∀ t ∈ scanner, t.length ≤ chunkSize) ∧ sent.flatten ++ last = chunk ++ scanner) ∨
      (∃ sent, NewChunker.scanLoop chunkSize scanner chunk currentSize = (sent, none) ∧
        (∃ t ∈ scanner, chunkSize < t.length) ∧
        sent.flatten <+: chunk ++ scanner.takeWhile (fun t => decide (t.length ≤ chunkSize))) := by
  induction scanner with
  | nil =>
    intro chunk currentSize
    left
    exact ⟨[], chunk, rfl, by simp, by simp⟩
  | cons token scanner ih =>
    intro chunk currentSize
    simp only [NewChunker.scanLoop]
    by_cases h1 : token.length > chunkSize
    · right
      refine ⟨[], ?_, ⟨token, by simp, h1⟩, by simp⟩
      rw [if_pos h1]
    · rw [if_neg h1]
      have hfit : token.length ≤ chunkSize := by omega
      by_cases h2 : currentSize + token.length ≤ chunkSize
      · rw [if_pos h2]
        rcases ih (chunk ++ [token]) (currentSize + token.length) with
          ⟨sent, last, he, hall, hcat⟩ | ⟨sent, he, ⟨t, ht, hbig⟩, hpre⟩
        · left
          refine ⟨sent, last, he, ?_, ?_⟩
          · intro t ht
            rcases List.mem_cons.1 ht with rfl | ht
            · exact hfit
            · exact hall t ht
          · rw [hcat]; simp
        · right
          refine ⟨sent, he, ⟨t, List.mem_cons_of_mem _ ht, hbig⟩, ?_⟩
          rw [List.takeWhile_cons_of_pos (by simpa using hfit)]
          simpa using hpre
      · rw [if_neg h2]
        rcases ih [token] token.length with
          ⟨sent, last, he, hall, hcat⟩ | ⟨sent, he, ⟨t, ht, hbig⟩, hpre⟩
        · left
          refine ⟨chunk :: sent, last, by rw [he], ?_, ?_⟩
          · intro t ht
            rcases List.mem_cons.1 ht with rfl | ht
            · exact hfit
            · exact hall t ht
          · simp only [List.flatten_cons, List.append_assoc]
            rw [hcat]; simp
        · right
          refine ⟨chunk :: sent, by rw [he], ⟨t, List.mem_cons_of_mem _ ht, hbig⟩, ?_⟩
          rw [List.takeWhile_cons_of_pos (by simpa using hfit)]
          simp only [List.flatten_cons]
          exact (List.prefix_append_right_inj chunk).2 (by simpa using hpre)

/-- Every chunk the scan loop sends, and the chunk it holds at the end, has a payload
within the chunk size, when the chunk held at the start has payload
`currentSize` within it. -/
theorem NewChunker.scanLoop_size (chunkSize : Nat) (scanner : List Bytes) :
    ∀ (chunk : List Bytes) (currentSize : Nat),
      (chunk.map List.length).sum = currentSize → currentSize ≤ chunkSize →
      (∀ c ∈ (NewChunker.scanLoop chunkSize scanner chunk currentSize).1,
        (c.map List.length).sum ≤ chunkSize) ∧
      (∀ last, (NewChunker.scanLoop chunkSize scanner chunk currentSize).2 = some last →
        (last.map List.length).sum ≤ chunkSize) := by
  induction scanner with
  | nil =>
    intro chunk currentSize hsum hle
    simp only [NewChunker.scanLoop]
    refine ⟨by simp, ?_⟩
    intro last hlast
    simp only [Option.some.injEq] at hlast
    rw [← hlast, hsum]
    exact hle
  | cons token scanner ih =>
    intro chunk currentSize hsum hle
    simp only [NewChunker.scanLoop]
    by_cases h1 : token.length > chunkSize
    · rw [if_pos h1]
      simp
    · rw [if_neg h1]
      by_cases h2 : currentSize + token.length ≤ chunkSize
      · rw [if_pos h2]
        exact ih (chunk ++ [token]) (currentSize + token.length) (by simp [hsum]) h2
      · rw [if_neg h2]
        have := ih [token] token.length (by simp) (by omega)
        refine ⟨?_, this.2⟩
        intro c hc
        rcases List.mem_cons.1 hc with rfl | hc
        · rw [hsum]; exact hle
        · exact this.1 c hc

/-- The producer over all readers: what it sent is a beginning of the tokens that come
before the first token that is too large; the error is sent exactly when there
is such a token, and otherwise everything is sent. -/
theorem NewChunker.readersLoop_spec (chunkSize : Nat) (readers : List Bytes) :
    ((NewChunker.readersLoop chunkSize readers).out.flatten <+:
      (readers.flatMap bufio.NewScanner).takeWhile (fun t => decide (t.length ≤ chunkSize))) ∧
    (((∀ t ∈ readers.flatMap bufio.NewScanner, t.length ≤ chunkSize) ∧
        (NewChunker.readersLoop chunkSize readers).errs = [] ∧
        (NewChunker.readersLoop chunkSize readers).out.flatten =
          readers.flatMap bufio.NewScanner) ∨
      ((∃ t ∈ readers.flatMap bufio.NewScanner, chunkSize < t.length) ∧
        (NewChunker.readersLoop chunkSize readers).errs =
          [ChunkerError.tokenSizeGreaterThanChunkSize])) := by
  induction readers with
  | nil =>
    simp [NewChunker.readersLoop]
  | cons reader readers ih =>
    simp only [NewChunker.readersLoop, List.flatMap_cons]
    rcases NewChunker.scanLoop_spec chunkSize (bufio.NewScanner reader) [] 0 with
      ⟨sent, last, he, hall, hcat⟩ | ⟨sent, he, ⟨t, ht, hbig⟩, hpre⟩
    · rw [he]
      simp only [List.nil_append] at hcat
      have hflat : (if last.length > 0 then sent ++ [last] else sent).flatten =
          bufio.NewScanner reader := by
        by_cases hl : last.length > 0
        · rw [if_pos hl, ← hcat]; simp
        · rw [if_neg hl, ← hcat]
          have : last = [] := List.length_eq_zero.1 (by omega)
          simp [this]
      have htw : List.takeWhile (fun t => decide (t.length ≤ chunkSize))
          (bufio.NewScanner reader ++ readers.flatMap bufio.NewScanner) =
          bufio.NewScanner reader ++ List.takeWhile (fun t => decide (t.length ≤ chunkSize))
            (readers.flatMap bufio.NewScanner) := by
        rw [List.takeWhile_append_of_pos]
        intro t ht
        simpa using hall t ht
      constructor
      · simp only [List.flatten_append, hflat, htw]
        exact (List.prefix_append_right_inj _).2 ih.1
      · rcases ih.2 with ⟨h1, h2, h3⟩ | ⟨⟨t, ht, hbig⟩, h2⟩
        · left
          refine ⟨?_, h2, ?_⟩
          · intro t ht
            rcases List.mem_append.1 ht with ht | ht
            · exact hall t ht
            · exact h1 t ht
          · simp only [List.flatten_append, hflat, h3]
        · right
          exact ⟨⟨t, List.mem_append_right _ ht, hbig⟩, h2⟩
    · rw [he]
      simp only [List.nil_append] at hpre
      constructor
      · refine hpre.trans ?_
        have key : ∀ (l r : List Bytes), (∃ u ∈ l, chunkSize < u.length) →
            List.takeWhile (fun t => decide (t.length ≤ chunkSize)) (l ++ r) =
              List.takeWhile (fun t => decide (t.length ≤ chunkSize)) l := by
          intro l r
          induction l with
          | nil => rintro ⟨u, hu, _⟩; simp at hu
          | cons a l ihl =>
            rintro ⟨u, hu, hub⟩
            by_cases ha : a.length ≤ chunkSize
            · rw [List.cons_append, List.takeWhile_cons_of_pos (by simpa using ha),
                List.takeWhile_cons_of_pos (by simpa using ha)]
              rcases List.mem_cons.1 hu with rfl | hu
              · omega
              · rw [ihl ⟨u, hu, hub⟩]
            · rw [List.cons_append, List.takeWhile_cons_of_neg (by simpa using ha),
                List.takeWhile_cons_of_neg (by simpa using ha)]
        rw [key _ _ ⟨t, ht, hbig⟩]
      · right
        exact ⟨⟨t, List.mem_append_left _ ht, hbig⟩, rfl⟩

theorem NewChunker.readersLoop_size (chunkSize : Nat) (readers : List Bytes) :
    ∀ c ∈ (NewChunker.readersLoop chunkSize readers).out, (c.map List.length).sum ≤ chunkSize := by
  induction readers with
  | nil => simp [NewChunker.readersLoop]
  | cons reader readers ih =>
    have hs := NewChunker.scanLoop_size chunkSize (bufio.NewScanner reader) [] 0 rfl
      (Nat.zero_le _)
    simp only [NewChunker.readersLoop]
    rcases hr : NewChunker.scanLoop chunkSize (bufio.NewScanner reader) [] 0 with ⟨sent, r⟩
    rw [hr] at hs
    cases r with
    | none => exact hs.1
    | some last =>
      intro c hc
      simp only [List.mem_append] at hc
      rcases hc with hc | hc
      · by_cases hl : last.length > 0
        · rw [if_pos hl] at hc
          rcases List.mem_append.1 hc with hc | hc
          · exact hs.1 c hc
          · have : c = last := by simpa using hc
            rw [this]; exact hs.2 last rfl
        · rw [if_neg hl] at hc
          exact hs.1 c hc
      · exact ih c hc

/-! ## The merger -/

theorem mergeHeap_strictWeak : StrictWeak mergeHeap.Less :=
  strictWeak_of_key (fun s : mergeStep => s.token)

theorem Merge.flatten_set (sc : List (List Bytes)) (i : Nat) (token : Bytes) (rest : List Bytes)
    (hi : sc[i]? = some (token :: rest)) :
    sc.flatten.Perm (token :: (sc.set i rest).flatten) ∧
      ((sc.set i rest).map List.length).sum + 1 = (sc.map List.length).sum := by
  induction sc generalizing i with
  | nil => simp at hi
  | cons a sc ih =>
    cases i with
    | zero =>
      simp only [List.getElem?_cons_zero, Option.some.injEq] at hi
      subst hi
      simp
      omega
    | succ i =>
      simp only [List.getElem?_cons_succ] at hi
      obtain ⟨h1, h2⟩ := ih i hi
      constructor
      · simp only [List.set_cons_succ, List.flatten_cons]
        exact (List.Perm.append_left a h1).trans List.perm_middle
      · simp only [List.set_cons_succ, List.map_cons, List.sum_cons]
        omega

/-- Taking the next token of scanner `i` and pushing its step keeps the invariants. -/
theorem Merge.advance (n : Nat) (h1 h2 : List mergeStep) (sc : List (List Bytes)) (i : Nat)
    (token : Bytes) (rest : List Bytes) (hi : sc[i]? = some (token :: rest))
    (hperm : h2.Perm ({ srcIdx := i, token := token } :: h1))
    (hcov : ∀ j toks, j < n → j ≠ i → sc[j]? = some toks → toks ≠ [] → ∃ s ∈ h1, s.srcIdx = j) :
    Merge.Covered n h2 (sc.set i rest) ∧
    (Merge.Ordered h1 sc → Merge.Ordered h2 (sc.set i rest)) ∧
    (h2.map mergeStep.token ++ (sc.set i rest).flatten).Perm
      (h1.map mergeStep.token ++ sc.flatten) ∧
    h2.length + ((sc.set i rest).map List.length).sum =
      h1.length + (sc.map List.length).sum := by
  have hilt : i < sc.length := by
    by_contra hc
    rw [List.getElem?_eq_none (by omega)] at hi
    simp at hi
  refine ⟨?_, ?_, ?_, ?_⟩
  · intro j toks hj hget hne
    by_cases hji : j = i
    · exact ⟨_, hperm.symm.subset (List.mem_cons_self _ _), hji.symm⟩
    · rw [List.getElem?_set_ne (Ne.symm hji)] at hget
      obtain ⟨s, hs, hsj⟩ := hcov j toks hj hji hget hne
      exact ⟨s, hperm.symm.subset (List.mem_cons_of_mem _ hs), hsj⟩
  · rintro ⟨hS1, hS2⟩
    have hsorted : SortedTokens (token :: rest) := hS1 _ (List.getElem?_mem hi)
    constructor
    · intro toks htoks
      rcases List.mem_or_eq_of_mem_set htoks with h | h
      · exact hS1 toks h
      · rw [h]; exact (List.pairwise_cons.1 hsorted).2
    · intro s hs toks hget t ht
      rcases List.mem_cons.1 (hperm.subset hs) with hs | hs
      · subst hs
        simp only [List.getElem?_set_self hilt, Option.some.injEq] at hget
        subst hget
        exact (List.pairwise_cons.1 hsorted).1 t ht
      · by_cases hsi : s.srcIdx = i
        · rw [hsi, List.getElem?_set_self hilt] at hget
          simp only [Option.some.injEq] at hget
          subst hget
          exact hS2 s hs _ (by rw [hsi]; exact hi) t (List.mem_cons_of_mem _ ht)
        · rw [List.getElem?_set_ne (Ne.symm hsi)] at hget
          exact hS2 s hs toks hget t ht
  · have h1p := (Merge.flatten_set sc i token rest hi).1
    have h2p : (h2.map mergeStep.token).Perm (token :: h1.map mergeStep.token) := by
      simpa using hperm.map mergeStep.token
    calc (h2.map mergeStep.token ++ (sc.set i rest).flatten).Perm
          ((token :: h1.map mergeStep.token) ++ (sc.set i rest).flatten) :=
            List.Perm.append_right _ h2p
      _ = (token :: (h1.map mergeStep.token ++ (sc.set i rest).flatten)) := rfl
      _ |>.Perm (h1.map mergeStep.token ++ token :: (sc.set i rest).flatten) :=
            List.perm_middle.symm
      _ |>.Perm (h1.map mergeStep.token ++ sc.flatten) :=
            List.Perm.append_left _ h1p.symm
  · have := (Merge.flatten_set sc i token rest hi).2
    have hl : h2.length = h1.length + 1 := by simpa using hperm.length_eq
    omega

theorem Merge.fillLoop_spec (k : Nat) :
    ∀ (idx : Nat) (h : List mergeStep) (sc : List (List Bytes)),
      heap.IsHeap mergeHeap.Less h → Merge.Covered idx h sc →
      heap.IsHeap mergeHeap.Less (Merge.fillLoop k idx h sc).1 ∧
      Merge.Covered (idx + k) (Merge.fillLoop k idx h sc).1 (Merge.fillLoop k idx h sc).2 ∧
      (Merge.Ordered h sc →
        Merge.Ordered (Merge.fillLoop k idx h sc).1 (Merge.fillLoop k idx h sc).2) ∧
      ((Merge.fillLoop k idx h sc).1.map mergeStep.token ++
          (Merge.fillLoop k idx h sc).2.flatten).Perm (h.map mergeStep.token ++ sc.flatten) ∧
      (Merge.fillLoop k idx h sc).1.length + ((Merge.fillLoop k idx h sc).2.map List.length).sum =
        h.length + (sc.map List.length).sum ∧
      (Merge.fillLoop k idx h sc).2.length = sc.length := by
  induction k with
  | zero =>
    intro idx h sc hh hc
    exact ⟨hh, hc, id, List.Perm.refl _, rfl, rfl⟩
  | succ k ih =>
    intro idx h sc hh hc
    simp only [Merge.fillLoop]
    have hskip : ∀ (hx : ∀ token rest, sc[idx]? ≠ some (token :: rest)),
        Merge.Covered (idx + 1) h sc := by
      intro hx j toks hj hget hne
      by_cases hji : j = idx
      · subst hji
        cases toks with
        | nil => exact absurd rfl hne
        | cons t r => exact absurd hget (hx t r)
      · exact hc j toks (by omega) hget hne
    cases hget : sc[idx]? with
    | none =>
      simp only []
      have := ih (idx + 1) h sc hh (hskip (by intro t r; rw [hget]; simp))
      rw [show idx + (k + 1) = idx + 1 + k by omega]
      exact this
    | some toks =>
      cases toks with
      | nil =>
        simp only []
        have := ih (idx + 1) h sc hh (hskip (by intro t r; rw [hget]; simp))
        rw [show idx + (k + 1) = idx + 1 + k by omega]
        exact this
      | cons token rest =>
        simp only []
        have hp := heap.Push_perm mergeHeap.Less h { srcIdx := idx, token := token }
        obtain ⟨a1, a2, a3, a4⟩ := Merge.advance (idx + 1) h _ sc idx token rest hget hp
          (fun j toks hj hji hg hne => hc j toks (by omega) hg hne)
        obtain ⟨b1, b2, b3, b4, b5, b6⟩ := ih (idx + 1) _ _
          (heap.Push_isHeap mergeHeap_strictWeak h _ hh) a1
        rw [show idx + (k + 1) = idx + 1 + k by omega]
        refine ⟨b1, b2, fun ho => b3 (a2 ho), b4.trans a3, by omega, ?_⟩
        rw [b6, List.length_set]

theorem Merge.flatten_nil_of_covered (sc : List (List Bytes))
    (hc : Merge.Covered sc.length [] sc) : sc.flatten = [] := by
  rw [List.flatten_eq_nil_iff]
  intro toks htoks
  obtain ⟨i, hi, hget⟩ := List.getElem_of_mem htoks
  by_contra hne
  obtain ⟨s, hs, _⟩ := hc i toks hi (by rw [List.getElem?_eq_getElem hi, hget]) hne
  simp at hs

/-- The step the main loop pops is not above any token still in the heap or in a
scanner, on sorted sources. -/
theorem Merge.popped_le (h : List mergeStep) (sc : List (List Bytes)) (step : mergeStep)
    (hmin : ∀ y ∈ h, mergeHeap.Less y step = false)
    (hc : Merge.Covered sc.length h sc) (ho : Merge.Ordered h sc) :
    ∀ t ∈ h.map mergeStep.token ++ sc.flatten, bytes.Compare step.token t ≤ 0 := by
  have hle : ∀ y ∈ h, bytes.Compare step.token y.token ≤ 0 := by
    intro y hy
    have := hmin y hy
    unfold mergeHeap.Less at this
    rw [bytes.Compare_swap]
    simp only [decide_eq_false_iff_not, not_lt] at this
    omega
  intro t ht
  rcases List.mem_append.1 ht with ht | ht
  · obtain ⟨y, hy, hyt⟩ := List.mem_map.1 ht
    rw [← hyt]
    exact hle y hy
  · obtain ⟨toks, htoks, htt⟩ := List.mem_flatten.1 ht
    obtain ⟨i, hi, hget⟩ := List.getElem_of_mem htoks
    have hget2 : sc[i]? = some toks := by rw [List.getElem?_eq_getElem hi, hget]
    obtain ⟨s, hs, hsi⟩ := hc i toks hi hget2 (List.ne_nil_of_mem htt)
    have h1 := ho.2 s hs toks (by rw [hsi]; exact hget2) t htt
    exact bytes.Compare_le_trans (hle s hs) h1

theorem Merge.mainLoop_spec (fuel : Nat) :
    ∀ (h : List mergeStep) (sc : List (List Bytes)),
      heap.IsHeap mergeHeap.Less h → Merge.Covered sc.length h sc →
      h.length + (sc.map List.length).sum < fuel →
      ∃ w, Merge.mainLoop fuel h sc = some w ∧
        (w.map mergeStep.token).Perm (h.map mergeStep.token ++ sc.flatten) ∧
        (Merge.Ordered h sc → SortedTokens (w.map mergeStep.token)) := by
  induction fuel with
  | zero => intro h sc _ _ hf; omega
  | succ fuel ih =>
    intro h sc hh hc hf
    simp only [Merge.mainLoop]
    by_cases hlen : h.length > 0
    · rw [if_pos hlen]
      obtain ⟨step, h1, hpop, hperm, hh1, hmin, hmem⟩ :=
        heap.Pop_spec mergeHeap_strictWeak h (by intro e; rw [e] at hlen; simp at hlen) hh
      rw [hpop]
      simp only []
      have hl1 : h1.length + 1 = h.length := by simpa using hperm.length_eq
      have hsub : ∀ s ∈ h, s = step ∨ s ∈ h1 := fun s hs =>
        List.mem_cons.1 (hperm.symm.subset hs)
      have hsub1 : ∀ s ∈ h1, s ∈ h := fun s hs => hperm.subset (List.mem_cons_of_mem _ hs)
      have hptok : (h.map mergeStep.token).Perm (step.token :: h1.map mergeStep.token) := by
        simpa using (hperm.map mergeStep.token).symm
      have ho1 : Merge.Ordered h sc → Merge.Ordered h1 sc :=
        fun ho => ⟨ho.1, fun s hs => ho.2 s (hsub1 s hs)⟩
      have hcons : ∀ (w : List mergeStep),
          (w.map mergeStep.token).Perm (h1.map mergeStep.token ++ sc.flatten) →
          (Merge.Ordered h sc → SortedTokens (w.map mergeStep.token)) →
          ((step :: w).map mergeStep.token).Perm (h.map mergeStep.token ++ sc.flatten) ∧
          (Merge.Ordered h sc → SortedTokens ((step :: w).map mergeStep.token)) := by
        intro w hw hs
        constructor
        · simp only [List.map_cons]
          exact (hw.cons step.token).trans (List.Perm.append_right _ hptok.symm)
        · intro ho
          simp only [List.map_cons]
          refine List.pairwise_cons.2 ⟨?_, hs ho⟩
          intro t ht
          apply Merge.popped_le h sc step hmin hc ho
          have := hw.subset ht
          rcases List.mem_append.1 this with h2 | h2
          · exact List.mem_append_left _ (hptok.symm.subset (List.mem_cons_of_mem _ h2))
          · exact List.mem_append_right _ h2
      have hnone : (∀ token rest, sc[step.srcIdx]? ≠ some (token :: rest)) →
          ∃ w, Option.map (fun w => step :: w) (Merge.mainLoop fuel h1 sc) = some w ∧
            (w.map mergeStep.token).Perm (h.map mergeStep.token ++ sc.flatten) ∧
            (Merge.Ordered h sc → SortedTokens (w.map mergeStep.token)) := by
        intro hx
        have hc1 : Merge.Covered sc.length h1 sc := by
          intro j toks hj hget hne
          obtain ⟨s, hs, hsj⟩ := hc j toks hj hget hne
          rcases hsub s hs with rfl | hs1
          · cases toks with
            | nil => exact absurd rfl hne
            | cons t r => rw [← hsj] at hget; exact absurd hget (hx t r)
          · exact ⟨s, hs1, hsj⟩
        obtain ⟨w, hw, hwp, hws⟩ := ih h1 sc hh1 hc1 (by omega)
        refine ⟨step :: w, by rw [hw]; rfl, ?_⟩
        exact hcons w hwp (fun ho => hws (ho1 ho))
      cases hget : sc[step.srcIdx]? with
      | none =>
        have := hnone (by intro t r; rw [hget]; simp)
        simpa using this
      | some toks =>
        cases toks with
        | nil =>
          have := hnone (by intro t r; rw [hget]; simp)
          simpa using this
        | cons token rest =>
          simp only []
          have hp := heap.Push_perm mergeHeap.Less h1 { step with token := token }
          obtain ⟨a1, a2, a3, a4⟩ := Merge.advance sc.length h1 _ sc step.srcIdx token rest hget hp
            (by
              intro j toks hj hji hg hne
              obtain ⟨s, hs, hsj⟩ := hc j toks hj hg hne
              rcases hsub s hs with rfl | hs1
              · exact absurd hsj (Ne.symm hji)
              · exact ⟨s, hs1, hsj⟩)
          obtain ⟨w, hw, hwp, hws⟩ := ih _ _
            (heap.Push_isHeap mergeHeap_strictWeak h1 _ hh1)
            (by rw [List.length_set]; exact a1) (by omega)
          refine ⟨step :: w, by rw [hw]; rfl, ?_⟩
          exact hcons w (hwp.trans a3) (fun ho => hws (a2 (ho1 ho)))
    · rw [if_neg hlen]
      have hnil : h = [] := List.length_eq_zero.1 (by omega)
      subst hnil
      refine ⟨[], rfl, ?_, fun _ => List.Pairwise.nil⟩
      rw [Merge.flatten_nil_of_covered sc hc]
      simp

theorem heap.isHeap_nil {α : Type} (less : α → α → Bool) : heap.IsHeap less [] := by
  intro k _ hk
  simp at hk

/-- The steps `Merge` writes: all the tokens of all the scanners, and in order when
every scanner returns its tokens in order. -/
theorem Merge.steps_spec (readers : List Bytes) :
    ∃ w, Merge.steps readers = some w ∧
      (w.map mergeStep.token).Perm (readers.flatMap bufio.NewScanner) ∧
      ((∀ r ∈ readers, SortedTokens (bufio.NewScanner r)) →
        SortedTokens (w.map mergeStep.token)) := by
  unfold Merge.steps
  simp only []
  obtain ⟨b1, b2, b3, b4, b5, b6⟩ := Merge.fillLoop_spec (readers.map bufio.NewScanner).length 0 []
    (readers.map bufio.NewScanner) (heap.isHeap_nil _) (by intro i toks hi; omega)
  obtain ⟨w, hw, hwp, hws⟩ := Merge.mainLoop_spec
    (((readers.map bufio.NewScanner).map List.length).sum + 1) _ _ b1
    (by rw [b6]; simpa using b2) (by simp only [List.length_nil, Nat.zero_add] at b5; omega)
  refine ⟨w, hw, ?_, ?_⟩
  · refine hwp.trans (b4.trans ?_)
    simp [List.flatMap]
  · intro hsorted
    apply hws
    apply b3
    refine ⟨?_, by intro s hs; simp at hs⟩
    intro toks htoks
    obtain ⟨r, hr, hrt⟩ := List.mem_map.1 htoks
    rw [← hrt]
    exact hsorted r hr

theorem Merge.spec (readers : List Bytes) :
    ∃ toks, Merge readers = some { written := toks.flatMap (fun t => t ++ [10]), err := none } ∧
      toks.Perm (readers.flatMap bufio.NewScanner) ∧
      ((∀ r ∈ readers, SortedTokens (bufio.NewScanner r)) → SortedTokens toks) := by
  obtain ⟨w, hw, hwp, hws⟩ := Merge.steps_spec readers
  refine ⟨w.map mergeStep.token, ?_, hwp, hws⟩
  unfold Merge
  rw [hw]
  simp [List.flatMap, List.map_map, Function.comp_def]

/-! ## The line scanner -/

theorem bytes.IndexByte_append (t rest : Bytes) (c : Nat) (ht : c ∉ t) :
    bytes.IndexByte (t ++ c :: rest) c = some t.length := by
  induction t with
  | nil => simp [bytes.IndexByte]
  | cons x t ih =>
    have hx : x ≠ c := fun e => ht (by simp [e])
    have ht2 : c ∉ t := fun e => ht (List.mem_cons_of_mem _ e)
    simp [bytes.IndexByte, hx, ih ht2]

theorem bytes.IndexByte_none (t : Bytes) (c : Nat) (ht : c ∉ t) : bytes.IndexByte t c = none := by
  induction t with
  | nil => rfl
  | cons x t ih =>
    have hx : x ≠ c := fun e => ht (by simp [e])
    have ht2 : c ∉ t := fun e => ht (List.mem_cons_of_mem _ e)
    simp [bytes.IndexByte, hx, ih ht2]

theorem bytes.IndexByte_lt (l : Bytes) (c i : Nat) (h : bytes.IndexByte l c = some i) :
    i < l.length := by
  induction l generalizing i with
  | nil => simp [bytes.IndexByte] at h
  | cons x l ih =>
    simp only [bytes.IndexByte] at h
    by_cases hx : x = c
    · rw [if_pos hx] at h
      simp only [Option.some.injEq] at h
      simp
      omega
    · rw [if_neg hx] at h
      cases hl : bytes.IndexByte l c with
      | none => rw [hl] at h; simp at h
      | some j =>
        rw [hl] at h
        simp only [Option.map_some', Option.some.injEq] at h
        have := ih j hl
        simp
        omega

theorem bufio.Scan_nil : bufio.Scan [] = none := by
  simp [bufio.Scan, bufio.ScanLines, bufio.MaxScanTokenSize]

/-- A `Scan` on a line that ends in a newline within the buffer limit returns the line
without its newline and without one trailing carriage return. -/
theorem bufio.Scan_line (t rest : Bytes) (ht : 10 ∉ t) (hlen : t.length < bufio.MaxScanTokenSize) :
    bufio.Scan (t ++ 10 :: rest) = some (bufio.dropCR t, rest) := by
  have hw : (t ++ 10 :: rest).take bufio.MaxScanTokenSize =
      t ++ 10 :: rest.take (bufio.MaxScanTokenSize - t.length - 1) := by
    rw [List.take_append_eq_append_take, List.take_of_length_le (by omega)]
    obtain ⟨m, hm⟩ : ∃ m, bufio.MaxScanTokenSize - t.length = m + 1 :=
      ⟨bufio.MaxScanTokenSize - t.length - 1, by omega⟩
    rw [hm, List.take_succ_cons]
    simp
  unfold bufio.Scan bufio.ScanLines
  rw [hw, bytes.IndexByte_append t _ 10 ht]
  rw [if_neg (by simp)]
  simp

/-- A `Scan` on a last line without newline returns it without one trailing carriage
return. -/
theorem bufio.Scan_last (t : Bytes) (ht : 10 ∉ t) (hne : t ≠ [])
    (hlen : t.length < bufio.MaxScanTokenSize) : bufio.Scan t = some (bufio.dropCR t, []) := by
  unfold bufio.Scan bufio.ScanLines
  rw [List.take_of_length_le (by omega), bytes.IndexByte_none t 10 ht]
  have h0 : t.length ≠ 0 := fun e => hne (List.length_eq_zero.1 e)
  simp [hlen, h0]

theorem bufio.Scan_length (rest : Bytes) (token rest1 : Bytes)
    (h : bufio.Scan rest = some (token, rest1)) : rest1.length < rest.length := by
  unfold bufio.Scan bufio.ScanLines at h
  have hrest : ∀ i, bytes.IndexByte (rest.take bufio.MaxScanTokenSize) 10 = some i →
      0 < rest.length := by
    intro i hi
    have := bytes.IndexByte_lt _ _ _ hi
    rw [List.length_take] at this
    omega
  split at h
  · rename_i advance tok heq
    simp only [Option.some.injEq, Prod.mk.injEq] at h
    rw [← h.2, List.length_drop]
    split at heq
    · simp at heq
    · rename_i hcond
      split at heq
      · rename_i i hi
        simp only [Prod.mk.injEq] at heq
        have := hrest i hi
        omega
      · split at heq
        · rename_i hat
          simp only [Prod.mk.injEq] at heq
          have hl : (rest.take bufio.MaxScanTokenSize).length ≠ 0 := by
            intro e
            exact hcond ⟨hat, e⟩
          rw [List.length_take] at hl heq
          omega
        · simp at heq
  · simp at h

theorem bufio.scanLoop_fuel_succ (fuel : Nat) :
    ∀ rest : Bytes, rest.length ≤ fuel → bufio.scanLoop (fuel + 1) rest = bufio.scanLoop fuel rest := by
  induction fuel with
  | zero =>
    intro rest h
    have : rest = [] := List.length_eq_zero.1 (by omega)
    subst this
    simp [bufio.scanLoop, bufio.Scan_nil]
  | succ fuel ih =>
    intro rest h
    rw [bufio.scanLoop]
    conv_rhs => rw [bufio.scanLoop]
    cases hs : bufio.Scan rest with
    | none => rfl
    | some p =>
      obtain ⟨token, rest1⟩ := p
      simp only []
      have := bufio.Scan_length rest token rest1 hs
      rw [ih rest1 (by omega)]

theorem bufio.scanLoop_fuel (fuel : Nat) (rest : Bytes) (h : rest.length ≤ fuel) :
    bufio.scanLoop fuel rest = bufio.scanLoop rest.length rest := by
  induction fuel with
  | zero =>
    have : rest.length = 0 := by omega
    rw [this]
  | succ fuel ih =>
    by_cases he : rest.length = fuel + 1
    · rw [he]
    · rw [bufio.scanLoop_fuel_succ fuel rest (by omega)]
      exact ih (by omega)

/-- The fuel of `bufio.NewScanner` is enough: the scanner returns the token of its
first `Scan` and then what a scanner on the rest returns. -/
theorem bufio.NewScanner_eq (rest : Bytes) :
    bufio.NewScanner rest =
      match bufio.Scan rest with
      | some (token, rest1) => token :: bufio.NewScanner rest1
      | none => [] := by
  unfold bufio.NewScanner
  cases hr : rest with
  | nil => simp [bufio.scanLoop, bufio.Scan_nil]
  | cons x xs =>
    simp only [List.length_cons, bufio.scanLoop]
    cases hs : bufio.Scan (x :: xs) with
    | none => rfl
    | some p =>
      obtain ⟨token, rest1⟩ := p
      simp only []
      have := bufio.Scan_length _ token rest1 hs
      simp only [List.length_cons] at this
      rw [bufio.scanLoop_fuel xs.length rest1 (by omega)]

theorem bufio.dropCR_of_not_cr (t : Bytes) (h : t.getLast? ≠ some 13) : bufio.dropCR t = t := by
  unfold bufio.dropCR
  rw [if_neg h]

theorem bufio.dropCR_length (t : Bytes) : (bufio.dropCR t).length ≤ t.length := by
  unfold bufio.dropCR
  split
  · simp
  · exact le_refl _

/-! ## Tokens of a stream -/

theorem splitTokens_line (t rest : Bytes) (ht : 10 ∉ t) :
    splitTokens (t ++ 10 :: rest) = t :: splitTokens rest := by
  induction t with
  | nil => simp [splitTokens]
  | cons x t ih =>
    have hx : x ≠ 10 := fun e => ht (by simp [e])
    have ht2 : 10 ∉ t := fun e => ht (List.mem_cons_of_mem _ e)
    have e : (x :: t) ++ 10 :: rest = x :: (t ++ 10 :: rest) := rfl
    rw [e, splitTokens, if_neg hx, ih ht2]

theorem splitTokens_last (t : Bytes) (ht : 10 ∉ t) (hne : t ≠ []) : splitTokens t = [t] := by
  induction t with
  | nil => exact absurd rfl hne
  | cons x t ih =>
    have hx : x ≠ 10 := fun e => ht (by simp [e])
    have ht2 : 10 ∉ t := fun e => ht (List.mem_cons_of_mem _ e)
    simp only [splitTokens, if_neg hx]
    cases t with
    | nil => simp [splitTokens]
    | cons y t => rw [ih ht2 (by simp)]

theorem exists_first_delim (l : Bytes) (h : 10 ∈ l) :
    ∃ t rest, 10 ∉ t ∧ l = t ++ 10 :: rest := by
  induction l with
  | nil => simp at h
  | cons x l ih =>
    by_cases hx : x = 10
    · exact ⟨[], l, by simp, by simp [hx]⟩
    · have hl : 10 ∈ l := by
        rcases List.mem_cons.1 h with e | e
        · exact absurd e.symm hx
        · exact e
      obtain ⟨t, rest, ht, hrest⟩ := ih hl
      refine ⟨x :: t, rest, ?_, by simp [hrest]⟩
      intro e
      rcases List.mem_cons.1 e with e | e
      · exact hx e.symm
      · exact ht e

theorem splitTokens_no_delim (input : Bytes) : ∀ t ∈ splitTokens input, 10 ∉ t := by
  induction input with
  | nil => simp [splitTokens]
  | cons x xs ih =>
    intro t ht
    simp only [splitTokens] at ht
    by_cases hx : x = 10
    · rw [if_pos hx] at ht
      rcases List.mem_cons.1 ht with e | e
      · rw [e]; simp
      · exact ih t e
    · rw [if_neg hx] at ht
      cases hs : splitTokens xs with
      | nil =>
        rw [hs] at ht
        simp only [List.mem_singleton] at ht
        rw [ht]
        simpa using Ne.symm hx
      | cons u us =>
        rw [hs] at ht ih
        rcases List.mem_cons.1 ht with e | e
        · rw [e]
          intro hm
          rcases List.mem_cons.1 hm with e2 | e2
          · exact hx e2.symm
          · exact ih u (by simp) e2
        · exact ih t (List.mem_cons_of_mem _ e)

/-- On a stream whose lines all fit the scanner's buffer, the scanner returns the
tokens of the stream, each without one trailing carriage return. -/
theorem bufio.NewScanner_eq_splitTokens (n : Nat) :
    ∀ input : Bytes, input.length ≤ n →
      (∀ t ∈ splitTokens input, t.length < bufio.MaxScanTokenSize) →
      bufio.NewScanner input = (splitTokens input).map bufio.dropCR := by
  induction n with
  | zero =>
    intro input hn _
    have : input = [] := List.length_eq_zero.1 (by omega)
    subst this
    rfl
  | succ n ih =>
    intro input hn hlen
    by_cases hnil : input = []
    · subst hnil; rfl
    · by_cases hd : 10 ∈ input
      · obtain ⟨t, rest, ht, hsplit⟩ := exists_first_delim input hd
        subst hsplit
        rw [splitTokens_line t rest ht] at hlen ⊢
        rw [bufio.NewScanner_eq, bufio.Scan_line t rest ht (hlen t (by simp))]
        simp only [List.map_cons]
        rw [ih rest (by simp at hn; omega) (fun u hu => hlen u (List.mem_cons_of_mem _ hu))]
      · rw [splitTokens_last input hd hnil] at hlen ⊢
        rw [bufio.NewScanner_eq, bufio.Scan_last input hd hnil (hlen input (by simp))]
        simp only [List.map_cons, List.map_nil]
        rw [bufio.NewScanner_eq, bufio.Scan_nil]

theorem splitTokens_writeRun (l : List Bytes) (h : ∀ t ∈ l, 10 ∉ t) :
    splitTokens (NewSorter.writeRun l) = l := by
  unfold NewSorter.writeRun
  induction l with
  | nil => rfl
  | cons t l ih =>
    simp only [List.flatMap_cons, List.append_assoc, List.singleton_append]
    rw [splitTokens_line t _ (h t (by simp)), ih (fun u hu => h u (List.mem_cons_of_mem _ hu))]

/-! ## `sort.Sort` / `sort.Slice` -/

theorem insertionSortBy_contract {α : Type} : SortContract (insertionSortBy (α := α)) := by
  intro less l
  refine ⟨List.perm_insertionSort _ l, ?_⟩
  intro sw
  haveI : IsTotal α (fun a b => less b a = false) := ⟨by
    intro a b
    cases h : less b a with
    | false => exact Or.inl rfl
    | true => exact Or.inr (sw.asymm b a h)⟩
  haveI : IsTrans α (fun a b => less b a = false) := ⟨fun a b c h1 h2 => sw.trans a b c h1 h2⟩
  exact List.sorted_insertionSort _ l

theorem NewSorter.less_strictWeak : StrictWeak NewSorter.less :=
  strictWeak_of_key (fun t : Bytes => t)

theorem NewSorter.less_false_iff (a b : Bytes) :
    NewSorter.less b a = false ↔ bytes.Compare a b ≤ 0 := by
  unfold NewSorter.less
  rw [bytes.Compare_swap a b]
  simp only [decide_eq_false_iff_not, not_lt]
  omega

/-- A worker of the run sorter writes its chunk in order, one token per line. -/
theorem NewSorter.worker_spec
    (slc : (Bytes → Bytes → Bool) → List Bytes → List Bytes) (hslc : SortContract slc)
    (chunk : List Bytes) :
    ∃ toks, NewSorter.worker slc chunk = toks.flatMap (fun t => t ++ [10]) ∧
      toks.Perm chunk ∧ SortedTokens toks := by
  refine ⟨slc NewSorter.less chunk, rfl, (hslc NewSorter.less chunk).1, ?_⟩
  have := (hslc NewSorter.less chunk).2 NewSorter.less_strictWeak
  exact this.imp (fun {a b} h => (NewSorter.less_false_iff a b).1 h)

/-- Two token sequences in order with the same tokens are equal. -/
theorem SortedTokens.eq_of_perm {l1 l2 : List Bytes} (hp : l1.Perm l2)
    (h1 : SortedTokens l1) (h2 : SortedTokens l2) : l1 = l2 := by
  haveI : IsAntisymm Bytes (fun a b => bytes.Compare a b ≤ 0) :=
    ⟨fun a b hab hba => bytes.Compare_le_antisymm hab hba⟩
  exact List.eq_of_perm_of_sorted hp h1 h2

/-! ## The external pipeline -/

/-- What the external pipeline does on an input none of whose lines ends in `0x0D`, is
longer than the chunk size or reaches the scanner's limit: it writes the tokens
of the input, each once, in non-decreasing order, each followed by `0x0A`, in
whatever order the runs arrive. -/
theorem runSort.pipeline_spec (slc : (Bytes → Bytes → Bool) → List Bytes → List Bytes)
    (arrival : List Bytes → List Bytes) (chunkSize bufferSize : Nat) (input : Bytes)
    (hslc : SortContract slc) (harr : ∀ l, (arrival l).Perm l)
    (hfit : ∀ t ∈ splitTokens input, t.length ≤ chunkSize)
    (hlen : ∀ t ∈ splitTokens input, t.length < bufio.MaxScanTokenSize)
    (hcr : ∀ t ∈ splitTokens input, t.getLast? ≠ some 13) :
    ∃ toks, runSort.pipeline slc arrival chunkSize bufferSize input =
        some { written := joinTokens toks, err := none } ∧
      toks.Perm (splitTokens input) ∧ SortedTokens toks := by
  show ∃ toks, runSort.pipeline slc arrival chunkSize bufferSize input =
        some { written := joinTokens toks, err := none } ∧
      toks.Perm (splitTokens input) ∧ SortedTokens toks
  have hscan : bufio.NewScanner input = splitTokens input := by
    rw [bufio.NewScanner_eq_splitTokens input.length input (le_refl _) hlen]
    conv_rhs => rw [← List.map_id (splitTokens input)]
    exact List.map_congr_left (fun t ht => bufio.dropCR_of_not_cr t (hcr t ht))
  have hall : [input].flatMap bufio.NewScanner = splitTokens input := by simp [hscan]
  have hch := (NewChunker.readersLoop_spec chunkSize [input]).2
  rw [hall] at hch
  rcases hch with ⟨_, herrs, hout⟩ | ⟨⟨t, ht, hbig⟩, _⟩
  swap
  · exact absurd (hfit t ht) (by omega)
  have hmem : ∀ c ∈ (NewChunker.readersLoop chunkSize [input]).out, ∀ t ∈ c,
      t ∈ splitTokens input := by
    intro c hc t ht
    rw [← hout]
    exact List.mem_flatten.2 ⟨c, hc, ht⟩
  -- every run scans back to its sorted chunk
  have hrun : ∀ c ∈ (NewChunker.readersLoop chunkSize [input]).out,
      bufio.NewScanner (NewSorter.worker slc c) = slc NewSorter.less c := by
    intro c hc
    have hsub : ∀ t ∈ slc NewSorter.less c, t ∈ splitTokens input :=
      fun t ht => hmem c hc t ((hslc NewSorter.less c).1.subset ht)
    have hsp : splitTokens (NewSorter.worker slc c) = slc NewSorter.less c :=
      splitTokens_writeRun _ (fun t ht => splitTokens_no_delim input t (hsub t ht))
    rw [bufio.NewScanner_eq_splitTokens _ _ (le_refl _) (by
      rw [hsp]; exact fun t ht => hlen t (hsub t ht)), hsp]
    conv_rhs => rw [← List.map_id (slc NewSorter.less c)]
    exact List.map_congr_left (fun t ht => bufio.dropCR_of_not_cr t (hcr t (hsub t ht)))
  obtain ⟨toks, hm, hperm, hsorted⟩ := Merge.spec
    (arrival (NewSorter slc (NewChunker.readersLoop chunkSize [input]).out))
  have hruns := harr (NewSorter slc (NewChunker.readersLoop chunkSize [input]).out)
  refine ⟨toks, ?_, ?_, ?_⟩
  · unfold runSort.pipeline NewChunker
    simp only []
    rw [if_neg (by rw [herrs]; simp)]
    exact hm
  · refine hperm.trans ((hruns.flatMap_right _).trans ?_)
    unfold NewSorter
    rw [List.flatMap_map]
    have h1 : ((NewChunker.readersLoop chunkSize [input]).out.flatMap
        (fun c => bufio.NewScanner (NewSorter.worker slc c))).Perm
        ((NewChunker.readersLoop chunkSize [input]).out.flatMap id) := by
      apply List.Perm.flatMap_left
      intro c hc
      rw [hrun c hc]
      exact (hslc NewSorter.less c).1
    rw [← hout]
    simpa [List.flatMap_id] using h1
  · apply hsorted
    intro r hr
    obtain ⟨c, hc, hcr2⟩ := List.mem_map.1 (hruns.subset hr)
    rw [← hcr2, hrun c hc]
    have := (hslc NewSorter.less c).2 NewSorter.less_strictWeak
    exact this.imp (fun {a b} h => (NewSorter.less_false_iff a b).1 h)

/-- What `Merge` does on sources whose lines are below the scanner's limit and whose
tokens, one trailing `0x0D` dropped from each, are in order: it returns no error
and writes these tokens of all sources in order, each followed by `0x0A`. -/
theorem Merge.sorted_sources (readers : List Bytes)
    (hlen : ∀ r ∈ readers, ∀ t ∈ splitTokens r, t.length < bufio.MaxScanTokenSize)
    (hsorted : ∀ r ∈ readers, SortedTokens ((splitTokens r).map bufio.dropCR)) :
    ∃ toks, Merge readers = some { written := joinTokens toks, err := none } ∧
      toks.Perm (readers.flatMap (fun r => (splitTokens r).map bufio.dropCR)) ∧
      SortedTokens toks := by
  have hscan : ∀ r ∈ readers, bufio.NewScanner r = (splitTokens r).map bufio.dropCR :=
    fun r hr => bufio.NewScanner_eq_splitTokens r.length r (le_refl _) (hlen r hr)
  obtain ⟨toks, hm, hp, hs⟩ := Merge.spec readers
  refine ⟨toks, hm, ?_, ?_⟩
  · rw [← List.flatMap_congr hscan]
    exact hp
  · apply hs
    intro r hr
    rw [hscan r hr]
    exact hsorted r hr

/-! ## `container/heap` with a `Less` that can panic -/

namespace heap

variable {α : Type}

/-- Where `Less` does not panic it is the call of the total `Less`. -/
theorem lessAt_agree (lessP : α → α → Option Bool) (less : α → α → Bool) (h : List α)
    (hag : ∀ a ∈ h, ∀ b ∈ h, lessP a b = some (less a b)) (i j : Nat) :
    lessAt? lessP h i j = some (lessAt less h i j) := by
  unfold lessAt? lessAt
  cases hi : h[i]? with
  | none => rfl
  | some a =>
    cases hj : h[j]? with
    | none => rfl
    | some b => exact hag a (List.getElem?_mem hi) b (List.getElem?_mem hj)

theorem upLoop_agree (lessP : α → α → Option Bool) (less : α → α → Bool) (fuel : Nat) :
    ∀ (h : List α) (j : Nat), (∀ a ∈ h, ∀ b ∈ h, lessP a b = some (less a b)) →
      upLoop? lessP fuel h j = some (upLoop less fuel h j) := by
  induction fuel with
  | zero => intro h j _; rfl
  | succ fuel ih =>
    intro h j hag
    simp only [upLoop?, upLoop]
    by_cases hij : (j - 1) / 2 = j
    · rw [if_pos hij, if_pos (Or.inl hij)]
    · rw [if_neg hij, lessAt_agree lessP less h hag]
      cases hb : lessAt less h j ((j - 1) / 2) with
      | false => simp
      | true =>
        simp only [hij, false_or, Bool.true_eq_false, if_false]
        exact ih _ _ (fun a ha b hb => hag a ((swap_perm h _ _).subset ha) b
          ((swap_perm h _ _).subset hb))

theorem downLoop_agree (lessP : α → α → Option Bool) (less : α → α → Bool) (n fuel : Nat) :
    ∀ (h : List α) (i : Nat), (∀ a ∈ h, ∀ b ∈ h, lessP a b = some (less a b)) →
      downLoop? lessP n fuel h i = some (downLoop less n fuel h i) := by
  induction fuel with
  | zero => intro h i _; rfl
  | succ fuel ih =>
    intro h i hag
    have hsw : ∀ j, ∀ a ∈ swap h i j, ∀ b ∈ swap h i j, lessP a b = some (less a b) :=
      fun j a ha b hb => hag a ((swap_perm h _ _).subset ha) b ((swap_perm h _ _).subset hb)
    simp only [downLoop?, downLoop]
    by_cases h1 : 2 * i + 1 ≥ n
    · rw [if_pos h1, if_pos h1]
    · rw [if_neg h1, if_neg h1]
      by_cases h2 : 2 * i + 1 + 1 < n
      · rw [if_pos h2, lessAt_agree lessP less h hag]
        cases hb : lessAt less h (2 * i + 1 + 1) (2 * i + 1) with
        | false =>
          simp only [h2, Bool.false_eq_true, and_false, if_false]
          rw [lessAt_agree lessP less h hag]
          cases hc : lessAt less h (2 * i + 1) i with
          | false => simp
          | true => simpa using ih _ _ (hsw _)
        | true =>
          simp only [h2, and_self, if_true]
          rw [lessAt_agree lessP less h hag]
          cases hc : lessAt less h (2 * i + 1 + 1) i with
          | false => simp
          | true => simpa using ih _ _ (hsw _)
      · rw [if_neg h2]
        simp only [h2, false_and, if_false]
        rw [lessAt_agree lessP less h hag]
        cases hc : lessAt less h (2 * i + 1) i with
        | false => simp
        | true => simpa using ih _ _ (hsw _)

theorem initLoop_agree (lessP : α → α → Option Bool) (less : α → α → Bool) (n k : Nat) :
    ∀ (h : List α), (∀ a ∈ h, ∀ b ∈ h, lessP a b = some (less a b)) →
      initLoop? lessP n k h = some (initLoop less n k h) := by
  induction k with
  | zero => intro h _; rfl
  | succ k ih =>
    intro h hag
    simp only [initLoop?, initLoop]
    unfold down? down
    rw [downLoop_agree lessP less n n h k hag]
    exact ih _ (fun a ha b hb => hag a ((downLoop_perm _ _ _ _ _).subset ha) b
      ((downLoop_perm _ _ _ _ _).subset hb))

/-- On a heap on whose elements `Less` does not panic, `heap.Init` does not panic. -/
theorem Init_agree (lessP : α → α → Option Bool) (less : α → α → Bool) (h : List α)
    (hag : ∀ a ∈ h, ∀ b ∈ h, lessP a b = some (less a b)) :
    Init? lessP h = some (Init less h) :=
  initLoop_agree lessP less _ _ h hag

/-- On a heap and a new element on which `Less` does not panic, `heap.Push` does not
panic. -/
theorem Push_agree (lessP : α → α → Option Bool) (less : α → α → Bool) (h : List α) (x : α)
    (hag : ∀ a ∈ x :: h, ∀ b ∈ x :: h, lessP a b = some (less a b)) :
    Push? lessP h x = some (Push less h x) := by
  unfold Push? Push up? up
  exact upLoop_agree lessP less _ _ _ (fun a ha b hb =>
    hag a ((List.perm_append_singleton x h).subset ha) b
      ((List.perm_append_singleton x h).subset hb))

/-- On a heap on whose elements `Less` does not panic, `heap.Pop` is that of the total
`Less`. -/
theorem Pop_agree (lessP : α → α → Option Bool) (less : α → α → Bool) (h : List α)
    (hag : ∀ a ∈ h, ∀ b ∈ h, lessP a b = some (less a b)) :
    Pop? lessP h = Pop less h := by
  unfold Pop? Pop
  by_cases hl : h.length = 0
  · rw [if_pos hl, if_pos hl]
  · rw [if_neg hl, if_neg hl]
    simp only []
    unfold down? down
    rw [downLoop_agree lessP less _ _ _ _ (fun a ha b hb =>
      hag a ((swap_perm h _ _).subset ha) b ((swap_perm h _ _).subset hb))]

theorem perm_of_upLoop (lessP : α → α → Option Bool) (fuel : Nat) :
    ∀ (h h1 : List α) (j : Nat), upLoop? lessP fuel h j = some h1 → h1.Perm h := by
  induction fuel with
  | zero =>
    intro h h1 j e
    simp only [upLoop?, Option.some.injEq] at e
    rw [← e]
  | succ fuel ih =>
    intro h h1 j e
    simp only [upLoop?] at e
    split at e
    · simp only [Option.some.injEq] at e
      rw [← e]
    · split at e
      · exact absurd e (by simp)
      · simp only [Option.some.injEq] at e
        rw [← e]
      · exact (ih _ _ _ e).trans (swap_perm _ _ _)

theorem perm_of_downLoop (lessP : α → α → Option Bool) (n fuel : Nat) :
    ∀ (h h1 : List α) (i : Nat), downLoop? lessP n fuel h i = some h1 → h1.Perm h := by
  induction fuel with
  | zero =>
    intro h h1 i e
    simp only [downLoop?, Option.some.injEq] at e
    rw [← e]
  | succ fuel ih =>
    intro h h1 i e
    simp only [downLoop?] at e
    split at e
    · simp only [Option.some.injEq] at e
      rw [← e]
    · split at e
      · exact absurd e (by simp)
      · split at e
        · exact absurd e (by simp)
        · simp only [Option.some.injEq] at e
          rw [← e]
        · exact (ih _ _ _ e).trans (swap_perm _ _ _)

theorem perm_of_initLoop (lessP : α → α → Option Bool) (n k : Nat) :
    ∀ (h h1 : List α), initLoop? lessP n k h = some h1 → h1.Perm h := by
  induction k with
  | zero =>
    intro h h1 e
    simp only [initLoop?, Option.some.injEq] at e
    rw [← e]
  | succ k ih =>
    intro h h1 e
    simp only [initLoop?] at e
    split at e
    · exact absurd e (by simp)
    · rename_i h2 hd
      exact (ih _ _ e).trans (perm_of_downLoop lessP _ _ _ _ _ hd)

/-- A `heap.Init` that returns has rearranged the heap. -/
theorem perm_of_Init (lessP : α → α → Option Bool) (h h1 : List α)
    (e : Init? lessP h = some h1) : h1.Perm h :=
  perm_of_initLoop lessP _ _ h h1 e

/-- A `heap.Push` that returns has added the element. -/
theorem perm_of_Push (lessP : α → α → Option Bool) (h h1 : List α) (x : α)
    (e : Push? lessP h x = some h1) : h1.Perm (x :: h) :=
  (perm_of_upLoop lessP _ _ _ _ e).trans (List.perm_append_singleton x h)

/-- A `heap.Pop` that returns has taken one element out of the heap. -/
theorem perm_of_Pop (lessP : α → α → Option Bool) (h h1 : List α) (x : α)
    (e : Pop? lessP h = some (x, h1)) : (x :: h1).Perm h := by
  unfold Pop? at e
  split at e
  · exact absurd e (by simp)
  · rename_i hl
    simp only [] at e
    split at e
    · exact absurd e (by simp)
    · rename_i d hd
      have hdp : d.Perm h := (perm_of_downLoop lessP _ _ _ _ _ hd).trans (swap_perm _ _ _)
      have hdl : d.length = h.length := hdp.length_eq
      split at e
      · rename_i y hy
        simp only [Option.some.injEq, Prod.mk.injEq] at e
        obtain ⟨e1, e2⟩ := e
        subst e1
        have hlt : h.length - 1 < d.length := by omega
        have hsplit : d = d.take (h.length - 1) ++ [y] := by
          have h1 : d.drop (h.length - 1) = [y] := by
            rw [List.drop_eq_getElem_cons hlt]
            rw [List.getElem?_eq_getElem hlt] at hy
            have hx : d[h.length - 1] = y := by simpa using hy
            rw [hx, List.drop_of_length_le (by omega)]
          conv_lhs => rw [← List.take_append_drop (h.length - 1) d, h1]
        have : (y :: d.take (h.length - 1)).Perm (d.take (h.length - 1) ++ [y]) :=
          (List.perm_append_singleton y _).symm
        rw [← hsplit] at this
        rw [← e2]
        exact this.trans hdp
      · exact absurd e (by simp)

end heap

/-! ## `sort.Sort` with a `Less` that can panic -/

theorem orderedInsert_agree {α : Type} (lessP : α → α → Option Bool) (lessT : α → α → Bool)
    (a : α) : ∀ l : List α, (∀ b ∈ l, lessP b a = some (lessT b a)) →
      orderedInsert? lessP a l = some (l.orderedInsert (fun x y => lessT y x = false) a) := by
  intro l
  induction l with
  | nil => intro _; rfl
  | cons b l ih =>
    intro hag
    simp only [orderedInsert?, List.orderedInsert]
    rw [hag b (List.mem_cons_self _ _)]
    by_cases hb : lessT b a = false
    · rw [if_pos hb, hb]
    · rw [if_neg hb]
      have ht : lessT b a = true := by simpa using hb
      rw [ht]
      simp only []
      rw [ih (fun c hc => hag c (List.mem_cons_of_mem _ hc))]
      rfl

theorem insertionSortBy_agree {α : Type} (lessP : α → α → Option Bool) (lessT : α → α → Bool) :
    ∀ l : List α, (∀ a ∈ l, ∀ b ∈ l, lessP a b = some (lessT a b)) →
      insertionSortBy? lessP l = some (insertionSortBy lessT l) := by
  intro l
  induction l with
  | nil => intro _; rfl
  | cons a l ih =>
    intro hag
    simp only [insertionSortBy?]
    rw [ih (fun x hx y hy => hag x (List.mem_cons_of_mem _ hx) y (List.mem_cons_of_mem _ hy))]
    simp only [insertionSortBy, List.insertionSort]
    apply orderedInsert_agree
    intro b hb
    exact hag b (List.mem_cons_of_mem _ ((List.perm_insertionSort _ l).subset hb)) a
      (List.mem_cons_self _ _)

theorem perm_of_orderedInsert {α : Type} (lessP : α → α → Option Bool) (a : α) :
    ∀ l out : List α, orderedInsert? lessP a l = some out → out.Perm (a :: l) := by
  intro l
  induction l with
  | nil =>
    intro out e
    simp only [orderedInsert?, Option.some.injEq] at e
    rw [← e]
  | cons b l ih =>
    intro out e
    simp only [orderedInsert?] at e
    split at e
    · exact absurd e (by simp)
    · simp only [Option.some.injEq] at e
      rw [← e]
    · cases hrec : orderedInsert? lessP a l with
      | none => rw [hrec] at e; exact absurd e (by simp)
      | some l1 =>
        rw [hrec] at e
        simp only [Option.map_some', Option.some.injEq] at e
        rw [← e]
        exact ((ih l1 hrec).cons b).trans (List.Perm.swap _ _ _)

theorem perm_of_insertionSortBy {α : Type} (lessP : α → α → Option Bool) :
    ∀ l out : List α, insertionSortBy? lessP l = some out → out.Perm l := by
  intro l
  induction l with
  | nil =>
    intro out e
    simp only [insertionSortBy?, Option.some.injEq] at e
    rw [← e]
  | cons a l ih =>
    intro out e
    simp only [insertionSortBy?] at e
    split at e
    · exact absurd e (by simp)
    · rename_i l1 hl1
      exact (perm_of_orderedInsert lessP a l1 out e).trans ((ih l1 hl1).cons a)

/-- Insertion sort ended by the first panic of `Less` meets the contract of `sort.Sort`
for a `Less` that can panic. -/
theorem insertionSortBy_panic_contract {α : Type} :
    PanicSortContract (insertionSortBy? (α := α)) := by
  intro less l
  refine ⟨perm_of_insertionSortBy less l, ?_⟩
  intro lessT sw hag
  exact ⟨insertionSortBy lessT l, insertionSortBy_agree less lessT l hag,
    (insertionSortBy_contract lessT l).2 sw⟩

/-! ## The in-memory engine: partitions, `Sort`, `NextToken` -/

theorem sortSplit_strictWeak (data : Bytes) : StrictWeak (sortSplit.lessBytes data) :=
  strictWeak_of_key (fun i : info => info.bytes data i)

theorem splitHeap_strictWeak (data : Bytes) : StrictWeak (splitHeap.lessBytes data) :=
  strictWeak_of_key (fun s : List info => splitHeap.headBytes data s)

/-- The slice expression of an entry within bounds returns the bytes it addresses. -/
theorem info.slice_of_inBounds (data : Bytes) (i : info) (h : info.inBounds data i) :
    info.slice data i = some (info.bytes data i) := by
  have h1 : info.offset i ≤ u32add (info.offset i) (info.len i) ∧
      u32add (info.offset i) (info.len i) ≤ data.length := h
  have h2 : info.slice data i =
      some ((data.take (u32add (info.offset i) (info.len i))).drop (info.offset i)) := by
    unfold info.slice sliceBytes
    rw [if_pos h1]
  unfold info.bytes
  rw [h2]
  rfl

/-- The slice expression of an entry out of bounds panics. -/
theorem info.slice_of_not_inBounds (data : Bytes) (i : info) (h : ¬ info.inBounds data i) :
    info.slice data i = none := by
  have h1 : ¬ (info.offset i ≤ u32add (info.offset i) (info.len i) ∧
      u32add (info.offset i) (info.len i) ≤ data.length) := h
  unfold info.slice sliceBytes
  rw [if_neg h1]

theorem info.inBounds_of_slice (data : Bytes) (i : info) (x : Bytes)
    (h : info.slice data i = some x) : info.inBounds data i ∧ info.bytes data i = x := by
  by_cases hb : info.inBounds data i
  · refine ⟨hb, ?_⟩
    unfold info.bytes
    rw [h]
    rfl
  · rw [info.slice_of_not_inBounds data i hb] at h
    exact absurd h (by simp)

/-- On entries within bounds `sortSplit.Less` does not panic and is the order of the
bytes addressed. -/
theorem sortSplit.Less_of_inBounds (data : Bytes) (i j : info)
    (hi : info.inBounds data i) (hj : info.inBounds data j) :
    sortSplit.Less data i j = some (sortSplit.lessBytes data i j) := by
  unfold sortSplit.Less sortSplit.lessBytes
  rw [info.slice_of_inBounds data i hi, info.slice_of_inBounds data j hj]

theorem splitHeap.headSlice_of_inBounds (data : Bytes) (part : List info) (hne : part ≠ [])
    (hb : ∀ e ∈ part, info.inBounds data e) :
    splitHeap.headSlice data part = some (splitHeap.headBytes data part) := by
  cases part with
  | nil => exact absurd rfl hne
  | cons i rest =>
    unfold splitHeap.headBytes
    simp only [splitHeap.headSlice]
    rw [info.slice_of_inBounds data i (hb i (List.mem_cons_self _ _))]
    rfl

/-- On partitions that are not empty and hold entries within bounds `splitHeap.Less`
does not panic and is the order of the bytes the head entries address. -/
theorem splitHeap.Less_agree (data : Bytes) (h : List (List info))
    (hparts : ∀ part ∈ h, part ≠ [] ∧ ∀ e ∈ part, info.inBounds data e) :
    ∀ a ∈ h, ∀ b ∈ h, splitHeap.Less data a b = some (splitHeap.lessBytes data a b) := by
  intro a ha b hb
  unfold splitHeap.Less splitHeap.lessBytes
  rw [splitHeap.headSlice_of_inBounds data a (hparts a ha).1 (hparts a ha).2,
    splitHeap.headSlice_of_inBounds data b (hparts b hb).1 (hparts b hb).2]

theorem buffer.reduceParallel_pos (len : Nat) (p : Nat) (hp : 1 ≤ p) :
    1 ≤ buffer.reduceParallel len p := by
  induction p with
  | zero => omega
  | succ p ih =>
    cases p with
    | zero => simp [buffer.reduceParallel]
    | succ p =>
      simp only [buffer.reduceParallel]
      split
      · exact ih (by omega)
      · omega

theorem buffer.parallelOf_pos (b : buffer) (parallel : Int) : 1 ≤ buffer.parallelOf b parallel := by
  unfold buffer.parallelOf
  apply buffer.reduceParallel_pos
  unfold minParallel maxParallel
  omega

/-- The partitions cut by `buffer.Sort` are not empty and their concatenation, in
order, is the index from the first entry cut. -/
theorem buffer.splitsLoop_spec (infos : List info) (parallel n : Nat) (k : Nat) :
    ∀ i, i + (k + 1) = parallel →
      (buffer.splitsLoop infos parallel n (k + 1) i).flatten = infos.drop (i * n) ∧
      ∀ s ∈ buffer.splitsLoop infos parallel n (k + 1) i, s ≠ [] := by
  induction k with
  | zero =>
    intro i hi
    have hlast : ¬ i < parallel - 1 := by omega
    simp only [buffer.splitsLoop, if_neg hlast]
    split
    · rename_i hlen
      refine ⟨by simp, ?_⟩
      intro s hs
      simp only [List.mem_singleton] at hs
      rw [hs]
      intro e
      rw [e] at hlen
      simp at hlen
    · rename_i hlen
      have : infos.drop (i * n) = [] := List.length_eq_zero.1 (by omega)
      simp [this]
  | succ k ih =>
    intro i hi
    have hnot : i < parallel - 1 := by omega
    obtain ⟨h1, h2⟩ := ih (i + 1) (by omega)
    rw [buffer.splitsLoop]
    simp only [if_pos hnot]
    have hcat : (infos.drop (i * n)).take n ++ infos.drop ((i + 1) * n) = infos.drop (i * n) := by
      have : infos.drop ((i + 1) * n) = (infos.drop (i * n)).drop n := by
        rw [List.drop_drop]
        congr 1
        ring
      rw [this, List.take_append_drop]
    split
    · rename_i hlen
      constructor
      · rw [List.flatten_cons, h1, hcat]
      · intro s hs
        rcases List.mem_cons.1 hs with e | e
        · rw [e]
          intro e2
          rw [e2] at hlen
          simp at hlen
        · exact h2 s e
    · rename_i hlen
      refine ⟨?_, h2⟩
      rw [h1, ← hcat]
      have : (infos.drop (i * n)).take n = [] := List.length_eq_zero.1 (by omega)
      rw [this, List.nil_append]

/-- The goroutines of `Sort`, when none of them panics, leave each partition
rearranged. -/
theorem buffer.perm_of_sortSplits
    (srt : (info → info → Option Bool) → List info → Option (List info))
    (hsrt : PanicSortContract srt) (data : Bytes) :
    ∀ splits sorted : List (List info), buffer.sortSplits srt data splits = some sorted →
      sorted.flatten.Perm splits.flatten ∧ sorted.length = splits.length ∧
      ∀ part ∈ sorted, ∃ s ∈ splits, part.Perm s := by
  intro splits
  induction splits with
  | nil =>
    intro sorted e
    simp only [buffer.sortSplits, Option.some.injEq] at e
    rw [← e]
    simp
  | cons s splits ih =>
    intro sorted e
    simp only [buffer.sortSplits] at e
    split at e
    · rename_i s1 splits1 hs1 hsplits1
      simp only [Option.some.injEq] at e
      obtain ⟨h1, h2, h3⟩ := ih splits1 hsplits1
      have hp := (hsrt (sortSplit.Less data) s).1 s1 hs1
      rw [← e]
      refine ⟨?_, ?_, ?_⟩
      · simp only [List.flatten_cons]
        exact hp.append h1
      · simp [h2]
      · intro part hpart
        rcases List.mem_cons.1 hpart with e1 | e1
        · exact ⟨s, List.mem_cons_self _ _, e1 ▸ hp⟩
        · obtain ⟨u, hu, hpu⟩ := h3 part e1
          exact ⟨u, List.mem_cons_of_mem _ hu, hpu⟩
    · exact absurd e (by simp)

/-- On partitions whose entries are within bounds no goroutine of `Sort` panics, and
each partition is left in the order of the bytes its entries address. -/
theorem buffer.sortSplits_spec
    (srt : (info → info → Option Bool) → List info → Option (List info))
    (hsrt : PanicSortContract srt) (data : Bytes) :
    ∀ splits : List (List info), (∀ s ∈ splits, ∀ e ∈ s, info.inBounds data e) →
      ∃ sorted, buffer.sortSplits srt data splits = some sorted ∧
        ∀ part ∈ sorted, SortedTokens (part.map (info.bytes data)) := by
  intro splits
  induction splits with
  | nil => intro _; exact ⟨[], rfl, by simp⟩
  | cons s splits ih =>
    intro hb
    obtain ⟨sorted, hs, hsorted⟩ := ih (fun u hu => hb u (List.mem_cons_of_mem _ hu))
    obtain ⟨s1, hs1, hpw⟩ := (hsrt (sortSplit.Less data) s).2 (sortSplit.lessBytes data)
      (sortSplit_strictWeak data)
      (fun a ha c hc => sortSplit.Less_of_inBounds data a c
        (hb s (List.mem_cons_self _ _) a ha) (hb s (List.mem_cons_self _ _) c hc))
    refine ⟨s1 :: sorted, ?_, ?_⟩
    · simp only [buffer.sortSplits, hs1, hs]
    · intro part hpart
      rcases List.mem_cons.1 hpart with e1 | e1
      · rw [e1]
        unfold SortedTokens
        rw [List.pairwise_map]
        refine hpw.imp ?_
        intro x y hxy
        unfold sortSplit.lessBytes at hxy
        simp only [decide_eq_false_iff_not, not_lt] at hxy
        rw [bytes.Compare_swap]
        omega
      · exact hsorted part e1

/-- A `Sort` that returns has put the index entries, rearranged, in as many partitions
as it cut. -/
theorem buffer.perm_of_Sort
    (srt : (info → info → Option Bool) → List info → Option (List info))
    (hsrt : PanicSortContract srt) (b : buffer) (parallel : Int) (h : splitHeap)
    (e : buffer.Sort srt b parallel = some h) :
    h.data = b.data ∧ h.heap.flatten.Perm b.infos ∧
      h.heap.length = (buffer.splits b parallel).length ∧
      ∀ part ∈ h.heap, ∃ s ∈ buffer.splits b parallel, part.Perm s := by
  obtain ⟨k, hk⟩ : ∃ k, buffer.parallelOf b parallel = k + 1 :=
    ⟨buffer.parallelOf b parallel - 1, by have := buffer.parallelOf_pos b parallel; omega⟩
  obtain ⟨hflat, _⟩ := buffer.splitsLoop_spec b.infos (buffer.parallelOf b parallel)
    (b.infos.length / buffer.parallelOf b parallel) k 0 (by omega)
  rw [← hk] at hflat
  simp only [Nat.zero_mul, List.drop_zero] at hflat
  unfold buffer.Sort at e
  simp only [] at e
  unfold buffer.splits
  simp only []
  generalize buffer.splitsLoop b.infos (buffer.parallelOf b parallel)
    (b.infos.length / buffer.parallelOf b parallel) (buffer.parallelOf b parallel) 0 = splits
    at hflat e
  split at e
  · exact absurd e (by simp)
  · rename_i sorted hsorted
    obtain ⟨h1, h2, h3⟩ := buffer.perm_of_sortSplits srt hsrt b.data splits sorted hsorted
    split at e
    · exact absurd e (by simp)
    · rename_i hp hinit
      simp only [Option.some.injEq] at e
      have hperm := heap.perm_of_Init _ _ _ hinit
      rw [← e]
      refine ⟨rfl, ?_, ?_, ?_⟩
      · have := hperm.flatMap_right id
        simp only [List.flatMap_id] at this
        rw [← hflat]
        exact this.trans h1
      · rw [hperm.length_eq, h2]
      · intro part hpart
        exact h3 part (hperm.subset hpart)

/-- What a call of `NextToken` does: it panics, or it finds the heap empty, or it takes
the head entry of one partition, whose slice expression does not panic, and leaves the
other entries in the heap. -/
theorem splitHeap.NextToken_cases (h : splitHeap) :
    splitHeap.NextToken h = .error .panic ∨
    (splitHeap.NextToken h = .ok none ∧ h.heap = []) ∨
    ∃ i rest heap1 token h1, splitHeap.NextToken h = .ok (some (token, h1)) ∧
      h1.data = h.data ∧ info.slice h.data i = some token ∧
      ((i :: rest) :: heap1).Perm h.heap ∧
      (h1.heap.Perm (rest :: heap1) ∨ (rest = [] ∧ h1.heap = heap1)) := by
  unfold splitHeap.NextToken
  by_cases hl : h.heap.length = 0
  · rw [if_pos hl]
    exact Or.inr (Or.inl ⟨rfl, List.length_eq_zero.1 hl⟩)
  · rw [if_neg hl]
    cases hpop : heap.Pop? (splitHeap.Less h.data) h.heap with
    | none => exact Or.inl rfl
    | some p =>
      obtain ⟨part, heap1⟩ := p
      have hperm := heap.perm_of_Pop _ _ _ _ hpop
      cases part with
      | nil => exact Or.inl rfl
      | cons i rest =>
        simp only []
        cases hsl : info.slice h.data i with
        | none => exact Or.inl rfl
        | some token =>
          simp only []
          by_cases hr : (i :: rest).length > 1
          · rw [if_pos hr]
            cases hpush : heap.Push? (splitHeap.Less h.data) heap1 rest with
            | none => exact Or.inl rfl
            | some heap2 =>
              exact Or.inr (Or.inr ⟨i, rest, heap1, token, _, rfl, rfl, hsl, hperm,
                Or.inl (heap.perm_of_Push _ _ _ _ hpush)⟩)
          · rw [if_neg hr]
            have hrnil : rest = [] := by
              cases rest with
              | nil => rfl
              | cons a r => simp at hr
            exact Or.inr (Or.inr ⟨i, rest, heap1, token, _, rfl, rfl, hsl, hperm,
              Or.inr ⟨hrnil, rfl⟩⟩)

/-- With fuel for every entry in the heap the drain loop does not run out of fuel: it
panics, or it ends, and then every entry that was in the heap is within bounds. -/
theorem drainLoop_cases (fuel : Nat) :
    ∀ h : splitHeap, (h.heap.map List.length).sum < fuel →
      drainLoop fuel h = .error .panic ∨
      ∃ out, drainLoop fuel h = .ok out ∧ ∀ e ∈ h.heap.flatten, info.inBounds h.data e := by
  induction fuel with
  | zero => intro h hf; omega
  | succ fuel ih =>
    intro h hf
    rcases splitHeap.NextToken_cases h with hp | ⟨hn, hnil⟩ |
      ⟨i, rest, heap1, token, h1, hnt, hdata, hslice, hperm, hnext⟩
    · left
      simp only [drainLoop, hp]
    · right
      refine ⟨[], by simp only [drainLoop, hn], ?_⟩
      rw [hnil]
      simp
    · have hsum : (h.heap.map List.length).sum =
          (rest.length + 1) + (heap1.map List.length).sum := by
        have := (hperm.map List.length).sum_eq
        simp only [List.map_cons, List.sum_cons, List.length_cons] at this
        omega
      have hflat : h.heap.flatten.Perm (i :: (rest ++ heap1.flatten)) := by
        have := hperm.flatMap_right id
        simp only [List.flatMap_id, List.flatten_cons, List.cons_append] at this
        exact this.symm
      have h1flat : h1.heap.flatten.Perm (rest ++ heap1.flatten) := by
        rcases hnext with hp1 | ⟨hr, hh1⟩
        · have := hp1.flatMap_right id
          simpa [List.flatMap_id] using this
        · rw [hr, hh1]
          simp
      have h1sum : (h1.heap.map List.length).sum < fuel := by
        have e1 : (h1.heap.map List.length).sum = rest.length + (heap1.map List.length).sum := by
          rcases hnext with hp1 | ⟨hr, hh1⟩
          · have := (hp1.map List.length).sum_eq
            simpa using this
          · rw [hr, hh1]
            simp
        omega
      rcases ih h1 h1sum with hp1 | ⟨out, ho, hb⟩
      · left
        simp only [drainLoop, hnt, hp1]
      · right
        refine ⟨token :: out, by simp only [drainLoop, hnt, ho], ?_⟩
        intro e he
        rcases List.mem_cons.1 (hflat.subset he) with e1 | e1
        · rw [e1]
          exact (info.inBounds_of_slice h.data i token hslice).1
        · rw [← hdata]
          exact hb e (h1flat.symm.subset e1)

/-- When an index entry is out of bounds, draining `Sort` panics, whatever `parallel`
is: in a `Less` of `sort.Sort` or of the heap, or at the latest in the slice expression
of `NextToken` for that entry. -/
theorem drainSort_panic
    (srt : (info → info → Option Bool) → List info → Option (List info))
    (hsrt : PanicSortContract srt) (b : buffer) (parallel : Int)
    (hbad : ∃ e ∈ b.infos, ¬ info.inBounds b.data e) :
    drainSort srt b parallel = .error .panic := by
  unfold drainSort
  cases hs : buffer.Sort srt b parallel with
  | none => rfl
  | some h =>
    simp only []
    obtain ⟨hdata, hperm, _, _⟩ := buffer.perm_of_Sort srt hsrt b parallel h hs
    have hf : (h.heap.map List.length).sum < b.infos.length + 1 := by
      have := hperm.length_eq
      rw [List.length_flatten] at this
      omega
    rcases drainLoop_cases _ h hf with hp | ⟨out, _, hb⟩
    · exact hp
    · obtain ⟨e, he, hne⟩ := hbad
      rw [hdata] at hb
      exact absurd (hb e (hperm.symm.subset he)) hne

/-- The call of `NextToken` on a heap in order whose partitions are not empty and hold
entries within bounds: it does not panic and returns the bytes of the head entry of a
least partition. -/
theorem splitHeap.NextToken_of_inBounds (data : Bytes) (h : List (List info)) (hne : h ≠ [])
    (hh : heap.IsHeap (splitHeap.lessBytes data) h)
    (hparts : ∀ part ∈ h, part ≠ [] ∧ ∀ e ∈ part, info.inBounds data e) :
    ∃ i rest h1, (i :: rest) ∈ h ∧ ((i :: rest) :: h1).Perm h ∧
      heap.IsHeap (splitHeap.lessBytes data) h1 ∧
      (∀ y ∈ h, splitHeap.lessBytes data y (i :: rest) = false) ∧
      splitHeap.NextToken { data := data, heap := h } =
        .ok (some (info.bytes data i, { data := data, heap :=
          if (i :: rest).length > 1 then heap.Push (splitHeap.lessBytes data) h1 rest
          else h1 })) := by
  obtain ⟨part, h1, hpop, hperm, hh1, hmin, hmem⟩ :=
    heap.Pop_spec (splitHeap_strictWeak data) h hne hh
  obtain ⟨hpne, hpb⟩ := hparts part hmem
  cases part with
  | nil => exact absurd rfl hpne
  | cons i rest =>
    refine ⟨i, rest, h1, hmem, hperm, hh1, hmin, ?_⟩
    have hlen : ¬ h.length = 0 := by
      intro e
      exact hne (List.length_eq_zero.1 e)
    unfold splitHeap.NextToken
    simp only []
    rw [if_neg hlen, heap.Pop_agree _ _ h (splitHeap.Less_agree data h hparts), hpop]
    simp only []
    rw [info.slice_of_inBounds data i (hpb i (List.mem_cons_self _ _))]
    simp only []
    by_cases hr : (i :: rest).length > 1
    · rw [if_pos hr, if_pos hr]
      have hrne : rest ≠ [] := by
        intro e; rw [e] at hr; simp at hr
      rw [heap.Push_agree _ (splitHeap.lessBytes data) h1 rest
        (splitHeap.Less_agree data (rest :: h1) (by
          intro s hs
          rcases List.mem_cons.1 hs with e | e
          · rw [e]
            exact ⟨hrne, fun x hx => hpb x (List.mem_cons_of_mem _ hx)⟩
          · exact hparts s (hperm.subset (List.mem_cons_of_mem _ e))))]
    · rw [if_neg hr, if_neg hr]

/-- A partition of the heap: not empty and its entries in order of the bytes they
address. -/
theorem drain_partition_tail (data : Bytes) (i : info) (rest : List info)
    (h : SortedTokens ((i :: rest).map (info.bytes data))) :
    SortedTokens (rest.map (info.bytes data)) ∧
      ∀ t ∈ rest.map (info.bytes data), bytes.Compare (info.bytes data i) t ≤ 0 := by
  simp only [List.map_cons] at h
  exact ⟨(List.pairwise_cons.1 h).2, (List.pairwise_cons.1 h).1⟩

theorem drainLoop_spec (data : Bytes) (fuel : Nat) :
    ∀ h : List (List info), heap.IsHeap (splitHeap.lessBytes data) h →
      (∀ part ∈ h, (part ≠ [] ∧ ∀ e ∈ part, info.inBounds data e) ∧
        SortedTokens (part.map (info.bytes data))) →
      (h.map List.length).sum < fuel →
      ∃ out, drainLoop fuel { data := data, heap := h } = .ok out ∧
        out.Perm (h.flatten.map (info.bytes data)) ∧ SortedTokens out := by
  induction fuel with
  | zero => intro h _ _ hf; omega
  | succ fuel ih =>
    intro h hh hparts hf
    by_cases hnil : h = []
    · subst hnil
      exact ⟨[], rfl, by simp, List.Pairwise.nil⟩
    · obtain ⟨i, rest, h1, hmem, hperm, hh1, hmin, hnt⟩ :=
        splitHeap.NextToken_of_inBounds data h hnil hh (fun part hp => (hparts part hp).1)
      obtain ⟨⟨hne, hpb⟩, hsorted⟩ := hparts (i :: rest) hmem
      obtain ⟨hrest, hle⟩ := drain_partition_tail data i rest hsorted
      have hsub1 : ∀ s ∈ h1, s ∈ h := fun s hs => hperm.subset (List.mem_cons_of_mem _ hs)
      have hsum : (h.map List.length).sum = (rest.length + 1) + (h1.map List.length).sum := by
        have := (hperm.map List.length).sum_eq
        simp only [List.map_cons, List.sum_cons, List.length_cons] at this
        omega
      have hflat : (h.flatten.map (info.bytes data)).Perm
          (info.bytes data i :: (rest.map (info.bytes data) ++
            h1.flatten.map (info.bytes data))) := by
        have := ((hperm.flatMap_right id).map (info.bytes data)).symm
        simpa [List.flatMap_id] using this
      -- the token popped is not above any token left in the heap
      have hother : ∀ t ∈ h1.flatten.map (info.bytes data),
          bytes.Compare (info.bytes data i) t ≤ 0 := by
        intro t ht
        obtain ⟨e, he, het⟩ := List.mem_map.1 ht
        obtain ⟨s, hs, hes⟩ := List.mem_flatten.1 he
        obtain ⟨⟨hsne, _⟩, hssorted⟩ := hparts s (hsub1 s hs)
        have hm := hmin s (hsub1 s hs)
        unfold splitHeap.lessBytes at hm
        simp only [decide_eq_false_iff_not, not_lt] at hm
        cases s with
        | nil => exact absurd rfl hsne
        | cons j srest =>
          have hhi : splitHeap.headBytes data (i :: rest) = info.bytes data i := rfl
          have hhj : splitHeap.headBytes data (j :: srest) = info.bytes data j := rfl
          rw [hhi, hhj] at hm
          have h1le : bytes.Compare (info.bytes data i) (info.bytes data j) ≤ 0 := by
            rw [bytes.Compare_swap]; omega
          rcases List.mem_cons.1 hes with e1 | e1
          · rw [← het, e1]; exact h1le
          · have := (drain_partition_tail data j srest hssorted).2 (info.bytes data e)
              (List.mem_map.2 ⟨e, e1, rfl⟩)
            rw [← het]
            exact bytes.Compare_le_trans h1le this
      have hfinish : ∀ (h2 : List (List info)) (out : List Bytes),
          out.Perm (h2.flatten.map (info.bytes data)) → SortedTokens out →
          (h2.flatten.map (info.bytes data)).Perm
            (rest.map (info.bytes data) ++ h1.flatten.map (info.bytes data)) →
          (info.bytes data i :: out).Perm (h.flatten.map (info.bytes data)) ∧
            SortedTokens (info.bytes data i :: out) := by
        intro h2 out hp hs h2p
        constructor
        · exact ((hp.trans h2p).cons _).trans hflat.symm
        · refine List.pairwise_cons.2 ⟨?_, hs⟩
          intro t ht
          rcases List.mem_append.1 ((hp.trans h2p).subset ht) with ht | ht
          · exact hle t ht
          · exact hother t ht
      by_cases hr : (i :: rest).length > 1
      · rw [if_pos hr] at hnt
        have hrne : rest ≠ [] := by
          intro e; rw [e] at hr; simp at hr
        have hp2 := heap.Push_perm (splitHeap.lessBytes data) h1 rest
        obtain ⟨out, ho, hop, hos⟩ := ih (heap.Push (splitHeap.lessBytes data) h1 rest)
          (heap.Push_isHeap (splitHeap_strictWeak data) h1 rest hh1)
          (by
            intro s hs
            rcases List.mem_cons.1 (hp2.subset hs) with e | e
            · rw [e]
              exact ⟨⟨hrne, fun x hx => hpb x (List.mem_cons_of_mem _ hx)⟩, hrest⟩
            · exact hparts s (hsub1 s e))
          (by
            have := (hp2.map List.length).sum_eq
            simp only [List.map_cons, List.sum_cons] at this
            omega)
        refine ⟨info.bytes data i :: out, by simp only [drainLoop, hnt, ho], ?_⟩
        apply hfinish _ out hop hos
        have := (hp2.flatMap_right id).map (info.bytes data)
        simpa [List.flatMap_id] using this
      · rw [if_neg hr] at hnt
        have hrnil : rest = [] := by
          cases rest with
          | nil => rfl
          | cons a r => simp at hr
        obtain ⟨out, ho, hop, hos⟩ := ih h1 hh1 (fun s hs => hparts s (hsub1 s hs))
          (by omega)
        refine ⟨info.bytes data i :: out, by simp only [drainLoop, hnt, ho], ?_⟩
        apply hfinish _ out hop hos
        rw [hrnil]
        simp

/-- On a buffer whose index entries are all within bounds `Sort` does not panic, for any
`parallel`: it returns the heap of the partitions, each in the order of the bytes its
entries address. -/
theorem buffer.Sort_spec
    (srt : (info → info → Option Bool) → List info → Option (List info))
    (hsrt : PanicSortContract srt) (b : buffer) (parallel : Int)
    (hb : ∀ e ∈ b.infos, info.inBounds b.data e) :
    ∃ sorted, buffer.Sort srt b parallel =
        some { data := b.data, heap := heap.Init (splitHeap.lessBytes b.data) sorted } ∧
      sorted.flatten.Perm b.infos ∧
      ∀ part ∈ sorted, (part ≠ [] ∧ ∀ e ∈ part, info.inBounds b.data e) ∧
        SortedTokens (part.map (info.bytes b.data)) := by
  obtain ⟨k, hk⟩ : ∃ k, buffer.parallelOf b parallel = k + 1 :=
    ⟨buffer.parallelOf b parallel - 1, by have := buffer.parallelOf_pos b parallel; omega⟩
  obtain ⟨hflat, hne⟩ := buffer.splitsLoop_spec b.infos (buffer.parallelOf b parallel)
    (b.infos.length / buffer.parallelOf b parallel) k 0 (by omega)
  rw [← hk] at hflat hne
  simp only [Nat.zero_mul, List.drop_zero] at hflat
  have hsplitsb : ∀ s ∈ buffer.splitsLoop b.infos (buffer.parallelOf b parallel)
      (b.infos.length / buffer.parallelOf b parallel) (buffer.parallelOf b parallel) 0,
      ∀ e ∈ s, info.inBounds b.data e := by
    intro s hs e he
    apply hb
    rw [← hflat]
    exact List.mem_flatten.2 ⟨s, hs, he⟩
  obtain ⟨sorted, hsorted, hord⟩ := buffer.sortSplits_spec srt hsrt b.data _ hsplitsb
  obtain ⟨hsflat, _, hsparts⟩ := buffer.perm_of_sortSplits srt hsrt b.data _ sorted hsorted
  have hgood : ∀ part ∈ sorted, part ≠ [] ∧ ∀ e ∈ part, info.inBounds b.data e := by
    intro part hpart
    obtain ⟨s, hs, hps⟩ := hsparts part hpart
    constructor
    · intro e
      rw [e] at hps
      exact hne s hs (List.perm_nil.1 hps.symm)
    · intro e he
      exact hsplitsb s hs e (hps.subset he)
  have hinit := heap.Init_agree (splitHeap.Less b.data) (splitHeap.lessBytes b.data) sorted
    (splitHeap.Less_agree b.data sorted hgood)
  refine ⟨sorted, ?_, ?_, fun part hpart => ⟨hgood part hpart, hord part hpart⟩⟩
  · unfold buffer.Sort
    simp only [hsorted, hinit]
  · rw [← hflat]
    exact hsflat

/-- Draining `Sort` on a buffer whose index entries are all within bounds does not
panic, for any `parallel`, and returns the bytes of all the index entries, in order;
these are the slices the entries address. -/
theorem drainSort_spec
    (srt : (info → info → Option Bool) → List info → Option (List info))
    (hsrt : PanicSortContract srt) (b : buffer) (parallel : Int)
    (hb : ∀ e ∈ b.infos, info.inBounds b.data e) :
    ∃ out, drainSort srt b parallel = .ok out ∧
      out.Perm (b.infos.map (info.bytes b.data)) ∧ SortedTokens out ∧
      (out.map some).Perm (b.infos.map (info.slice b.data)) := by
  obtain ⟨sorted, hsort, hsflat, hparts⟩ := buffer.Sort_spec srt hsrt b parallel hb
  have hiperm := heap.Init_perm (splitHeap.lessBytes b.data) sorted
  have hinitFlat : ((heap.Init (splitHeap.lessBytes b.data) sorted).flatten).Perm b.infos := by
    have := hiperm.flatMap_right id
    simp only [List.flatMap_id] at this
    exact this.trans hsflat
  obtain ⟨out, ho, hop, hos⟩ := drainLoop_spec b.data (b.infos.length + 1)
    (heap.Init (splitHeap.lessBytes b.data) sorted)
    (heap.Init_isHeap (splitHeap_strictWeak b.data) _)
    (fun part hpart => hparts part (hiperm.subset hpart))
    (by
      have h1 := hinitFlat.length_eq
      rw [List.length_flatten] at h1
      omega)
  have hop2 := hop.trans (hinitFlat.map _)
  refine ⟨out, ?_, hop2, hos, ?_⟩
  · unfold drainSort
    simp only [hsort]
    exact ho
  · have hmap : b.infos.map (info.slice b.data) =
        (b.infos.map (info.bytes b.data)).map some := by
      rw [List.map_map]
      apply List.map_congr_left
      intro e he
      exact info.slice_of_inBounds b.data e (hb e he)
    rw [hmap]
    exact hop2.map some

/-- Draining `Sort` ends in one of two ways, by the index alone: with every entry within
bounds it returns the slices of the entries in order, the same for every `parallel`
and every order of the index; with an entry out of bounds it panics. -/
theorem drainSort_eq
    (srt : (info → info → Option Bool) → List info → Option (List info))
    (hsrt : PanicSortContract srt) (b : buffer) (p q : Int)
    (infos : List info) (hperm : infos.Perm b.infos) :
    drainSort srt { data := b.data, infos := infos } q = drainSort srt b p := by
  by_cases hb : ∀ e ∈ b.infos, info.inBounds b.data e
  · obtain ⟨out1, ho1, hp1, hs1, _⟩ := drainSort_spec srt hsrt b p hb
    obtain ⟨out3, ho3, hp3, hs3, _⟩ :=
      drainSort_spec srt hsrt { data := b.data, infos := infos } q
        (fun e he => hb e (hperm.subset he))
    have h31 : out3.Perm out1 := hp3.trans ((hperm.map _).trans hp1.symm)
    rw [ho1, ho3, SortedTokens.eq_of_perm h31 hs3 hs1]
  · have hbad : ∃ e ∈ b.infos, ¬ info.inBounds b.data e := by
      by_contra hcon
      exact hb (fun e he => by
        by_contra hne
        exact hcon ⟨e, he, hne⟩)
    obtain ⟨e, he, hne⟩ := hbad
    rw [drainSort_panic srt hsrt b p ⟨e, he, hne⟩,
      drainSort_panic srt hsrt { data := b.data, infos := infos } q
        ⟨e, hperm.symm.subset he, hne⟩]

/-! ## The packed index entry -/

theorem info.len_eq (i : Nat) : info.len i = i % 2 ^ 32 := by
  unfold info.len u32 infoMask
  have : (0x0FFFFFFFF : Nat) = 2 ^ 32 - 1 := by norm_num
  rw [this, Nat.and_pow_two_sub_one_eq_mod]
  exact Nat.mod_mod _ _

theorem info.offset_eq (i : Nat) : info.offset i = (i / 2 ^ 32) % 2 ^ 32 := by
  unfold info.offset u32 infoMask
  have hc : (0xFFFFFFFFFFFFFFFF ^^^ 0x0FFFFFFFF : Nat) = (2 ^ 32 - 1) <<< 32 := by decide
  rw [hc, ← Nat.shiftRight_eq_div_pow]
  apply Nat.eq_of_testBit_eq
  intro j
  simp only [Nat.testBit_mod_two_pow, Nat.testBit_shiftRight, Nat.testBit_and,
    Nat.testBit_shiftLeft, Nat.testBit_two_pow_sub_one]
  by_cases hj : j < 32
  · simp [hj]
  · simp [hj]

theorem newInfo_eq (o l : Nat) (ho : o < 2 ^ 32) (hl : l < 2 ^ 32) :
    newInfo o l = o * 2 ^ 32 + l := by
  unfold newInfo
  rw [Nat.shiftLeft_eq, Nat.mul_comm, ← Nat.mul_add_lt_is_or hl]
  apply Nat.mod_eq_of_lt
  have : 2 ^ 64 = 2 ^ 32 * 2 ^ 32 := by norm_num
  nlinarith

theorem info.offset_newInfo (o l : Nat) (ho : o < 2 ^ 32) (hl : l < 2 ^ 32) :
    info.offset (newInfo o l) = o := by
  rw [info.offset_eq, newInfo_eq o l ho hl]
  omega

theorem info.len_newInfo (o l : Nat) (ho : o < 2 ^ 32) (hl : l < 2 ^ 32) :
    info.len (newInfo o l) = l := by
  rw [info.len_eq, newInfo_eq o l ho hl]
  omega

/-! ## `computeOffsets` and `trim` -/

theorem buffer.computeOffsetsLoop_token (t rest : Bytes) (ht : 10 ∉ t) :
    ∀ (i off : Nat) (infos : List info),
      buffer.computeOffsetsLoop i (t ++ 10 :: rest) off infos =
        buffer.computeOffsetsLoop (i + t.length + 1) rest (u32 (i + t.length + 1))
          (infos ++ [newInfo off (u32sub (u32add (u32 (i + t.length)) 1) off)]) := by
  induction t with
  | nil =>
    intro i off infos
    simp [buffer.computeOffsetsLoop, tokenDelim]
  | cons x t ih =>
    intro i off infos
    have hx : x ≠ 10 := fun e => ht (by simp [e])
    have ht2 : 10 ∉ t := fun e => ht (List.mem_cons_of_mem _ e)
    have e : (x :: t) ++ 10 :: rest = x :: (t ++ 10 :: rest) := rfl
    rw [e, buffer.computeOffsetsLoop, if_neg (by simpa [tokenDelim] using hx), ih ht2]
    have h1 : i + 1 + t.length = i + (x :: t).length := by simp; omega
    rw [h1]

theorem buffer.computeOffsetsLoop_tail (tail : Bytes) (ht : 10 ∉ tail) :
    ∀ (i off : Nat) (infos : List info),
      buffer.computeOffsetsLoop i tail off infos = infos := by
  induction tail with
  | nil => intro i off infos; rfl
  | cons x t ih =>
    intro i off infos
    have hx : x ≠ 10 := fun e => ht (by simp [e])
    have ht2 : 10 ∉ t := fun e => ht (List.mem_cons_of_mem _ e)
    rw [buffer.computeOffsetsLoop, if_neg (by simpa [tokenDelim] using hx), ih ht2]

theorem joinTokens_cons (t : Bytes) (ts : List Bytes) :
    joinTokens (t :: ts) = t ++ 10 :: joinTokens ts := by
  simp [joinTokens]

theorem joinTokens_length_cons (t : Bytes) (ts : List Bytes) :
    (joinTokens (t :: ts)).length = t.length + 1 + (joinTokens ts).length := by
  rw [joinTokens_cons]; simp; omega

/-- Below 4 GiB the index computed is the one that addresses the tokens one after the
other. -/
theorem buffer.computeOffsetsLoop_tokens (tail : Bytes) (htail : 10 ∉ tail) (toks : List Bytes) :
    ∀ (i : Nat) (infos : List info), (∀ t ∈ toks, 10 ∉ t) →
      i + (joinTokens toks).length < 2 ^ 32 →
      buffer.computeOffsetsLoop i (joinTokens toks ++ tail) i infos =
        infos ++ entriesFrom i toks := by
  induction toks with
  | nil =>
    intro i infos _ _
    simp [joinTokens, entriesFrom, buffer.computeOffsetsLoop_tail tail htail]
  | cons t ts ih =>
    intro i infos hno hlen
    rw [joinTokens_length_cons] at hlen
    rw [joinTokens_cons, List.append_assoc, List.cons_append,
      buffer.computeOffsetsLoop_token t _ (hno t (by simp))]
    have h1 : u32 (i + t.length + 1) = i + t.length + 1 := by unfold u32; omega
    have h2 : u32sub (u32add (u32 (i + t.length)) 1) i = t.length + 1 := by
      unfold u32sub u32add u32; omega
    rw [h1, h2, ih (i + t.length + 1) _ (fun u hu => hno u (List.mem_cons_of_mem _ hu))
      (by omega)]
    simp [entriesFrom]

/-- Below 4 GiB every entry of that index is within bounds and its slice expression
returns the token with its delimiter. -/
theorem entriesFrom_slice (toks : List Bytes) :
    ∀ (pre post : Bytes), pre.length + (joinTokens toks).length < 2 ^ 32 →
      (entriesFrom pre.length toks).map (info.slice (pre ++ joinTokens toks ++ post)) =
        toks.map (fun t => some (t ++ [10])) ∧
      ∀ e ∈ entriesFrom pre.length toks, info.inBounds (pre ++ joinTokens toks ++ post) e := by
  induction toks with
  | nil => intro pre post _; simp [entriesFrom]
  | cons t ts ih =>
    intro pre post hlen
    rw [joinTokens_length_cons] at hlen
    have ho : info.offset (newInfo pre.length (t.length + 1)) = pre.length :=
      info.offset_newInfo _ _ (by omega) (by omega)
    have hl : info.len (newInfo pre.length (t.length + 1)) = t.length + 1 :=
      info.len_newInfo _ _ (by omega) (by omega)
    have hsum : u32add pre.length (t.length + 1) = pre.length + t.length + 1 := by
      unfold u32add; omega
    have hdata : pre ++ joinTokens (t :: ts) ++ post =
        (pre ++ (t ++ [10])) ++ joinTokens ts ++ post := by
      rw [joinTokens_cons]; simp
    have hpl : (pre ++ (t ++ [10])).length = pre.length + t.length + 1 := by simp; omega
    obtain ⟨ih1, ih2⟩ := ih (pre ++ (t ++ [10])) post (by rw [hpl]; omega)
    rw [hpl] at ih1 ih2
    have hslice : info.slice (pre ++ joinTokens (t :: ts) ++ post)
        (newInfo pre.length (t.length + 1)) = some (t ++ [10]) := by
      unfold info.slice sliceBytes
      rw [ho, hl, hsum, hdata, if_pos ⟨by omega, by simp; omega⟩,
        List.append_assoc (pre ++ (t ++ [10])), List.take_left' hpl, List.drop_left]
    constructor
    · simp only [entriesFrom, List.map_cons]
      rw [hslice, hdata, ih1]
    · intro e he
      simp only [entriesFrom] at he
      rcases List.mem_cons.1 he with e1 | e1
      · rw [e1]
        unfold info.inBounds
        rw [ho, hl, hsum]
        refine ⟨by omega, ?_⟩
        rw [hdata]
        simp
        omega
      · rw [hdata]
        exact ih2 e e1

/-- Below 4 GiB the bytes the entries of that index address are the tokens with their
delimiters. -/
theorem entriesFrom_bytes (toks : List Bytes) (pre post : Bytes)
    (h : pre.length + (joinTokens toks).length < 2 ^ 32) :
    (entriesFrom pre.length toks).map (info.bytes (pre ++ joinTokens toks ++ post)) =
      toks.map (fun t => t ++ [10]) := by
  have h1 := congrArg (List.map (fun o : Option Bytes => o.getD []))
    (entriesFrom_slice toks pre post h).1
  simp only [List.map_map] at h1
  exact h1

theorem buffer.trimLoop_none (data : Bytes) (h : 10 ∉ data) :
    ∀ k, buffer.trimLoop data k = none := by
  intro k
  induction k with
  | zero => rfl
  | succ k ih =>
    rw [buffer.trimLoop, if_neg, ih]
    intro e
    exact h (by rw [tokenDelim] at e; exact List.getElem?_mem e)

theorem buffer.trimLoop_some (pre tail : Bytes) (htail : 10 ∉ tail) :
    ∀ m, m ≤ tail.length →
      buffer.trimLoop (pre ++ 10 :: tail) (pre.length + 1 + m) = some pre.length := by
  intro m
  induction m with
  | zero =>
    intro _
    rw [Nat.add_zero, buffer.trimLoop, if_pos]
    rw [List.getElem?_append_right (le_refl _)]
    simp [tokenDelim]
  | succ m ih =>
    intro hm
    rw [show pre.length + 1 + (m + 1) = (pre.length + 1 + m) + 1 by omega, buffer.trimLoop,
      if_neg, ih (by omega)]
    rw [List.getElem?_append_right (by omega)]
    rw [show pre.length + 1 + m - pre.length = m + 1 by omega]
    simp only [List.getElem?_cons_succ]
    intro e
    exact htail (by rw [tokenDelim] at e; exact List.getElem?_mem e)

/-- Every stream is a sequence of newline-terminated tokens followed by a rest
without newline. -/
theorem exists_joinTokens (l : Bytes) :
    ∃ toks tail, l = joinTokens toks ++ tail ∧ (∀ t ∈ toks, 10 ∉ t) ∧ 10 ∉ tail := by
  induction l with
  | nil => exact ⟨[], [], rfl, by simp, by simp⟩
  | cons x l ih =>
    obtain ⟨toks, tail, hl, hno, htail⟩ := ih
    by_cases hx : x = 10
    · refine ⟨[] :: toks, tail, ?_, ?_, htail⟩
      · rw [joinTokens_cons, hl, hx]; rfl
      · intro t ht
        rcases List.mem_cons.1 ht with e | e
        · rw [e]; simp
        · exact hno t e
    · cases toks with
      | nil =>
        refine ⟨[], x :: tail, ?_, by simp, ?_⟩
        · rw [hl]; rfl
        · intro e
          rcases List.mem_cons.1 e with e | e
          · exact hx e.symm
          · exact htail e
      | cons t ts =>
        refine ⟨(x :: t) :: ts, tail, ?_, ?_, htail⟩
        · rw [hl, joinTokens_cons, joinTokens_cons]; rfl
        · intro u hu
          rcases List.mem_cons.1 hu with e | e
          · rw [e]
            intro e2
            rcases List.mem_cons.1 e2 with e3 | e3
            · exact hx e3.symm
            · exact hno t (by simp) e3
          · exact hno u (List.mem_cons_of_mem _ e)

theorem joinTokens_concat (toks : List Bytes) (t : Bytes) :
    joinTokens (toks ++ [t]) = joinTokens toks ++ t ++ [10] := by
  simp [joinTokens]

theorem no_delim_joinTokens_nil (tail : Bytes) (htail : 10 ∉ tail) :
    10 ∉ joinTokens [] ++ tail := by
  simpa [joinTokens] using htail

/-- What `NewBuffer` returns when it returns a buffer. -/
theorem NewBuffer_spec (r : Bytes) (size : Int) (b : buffer) (trimmed : Bytes)
    (h : NewBuffer r size = .ok (b, trimmed)) :
    0 ≤ size ∧ size ≤ 4294967296 ∧
    ∃ toks, toks ≠ [] ∧ (∀ t ∈ toks, 10 ∉ t) ∧ 10 ∉ trimmed ∧
      r.take size.toNat = joinTokens toks ++ trimmed ∧ b.data = joinTokens toks ∧
      b.infos = buffer.computeOffsetsLoop 0 (r.take size.toNat) 0 [] := by
  unfold NewBuffer at h
  split at h
  · simp at h
  · rename_i h1
    split at h
    · simp at h
    · rename_i h2
      refine ⟨by omega, by unfold maxBufferSize at h1; omega, ?_⟩
      simp only [buffer.computeOffsets, buffer.trim] at h
      obtain ⟨toks, tail, hfill, hno, htail⟩ := exists_joinTokens (r.take size.toNat)
      rcases List.eq_nil_or_concat toks with hnil | ⟨ts, t, hts⟩
      on_goal 2 => rw [List.concat_eq_append] at hts
      · rw [hfill, hnil, buffer.trimLoop_none _ (no_delim_joinTokens_nil tail htail)] at h
        simp at h
      · have hdata : r.take size.toNat = (joinTokens ts ++ t) ++ 10 :: tail := by
          rw [hfill, hts, joinTokens_concat]; simp
        have hloop := buffer.trimLoop_some (joinTokens ts ++ t) tail htail tail.length (le_refl _)
        have hlen : (List.take size.toNat r).length = (joinTokens ts ++ t).length + 1 + tail.length := by
          rw [hdata]; simp; omega
        rw [hlen, hdata, hloop] at h
        simp only [Except.ok.injEq, Prod.mk.injEq] at h
        obtain ⟨hb, htr⟩ := h
        have htake : List.take ((joinTokens ts ++ t).length + 1) ((joinTokens ts ++ t) ++ 10 :: tail)
            = joinTokens toks := by
          rw [hts, joinTokens_concat]
          have : (joinTokens ts ++ t) ++ 10 :: tail = (joinTokens ts ++ t ++ [10]) ++ tail := by simp
          rw [this, List.take_left' (by simp [Nat.add_assoc])]
        have hdrop : List.drop ((joinTokens ts ++ t).length + 1) ((joinTokens ts ++ t) ++ 10 :: tail)
            = tail := by
          have : (joinTokens ts ++ t) ++ 10 :: tail = (joinTokens ts ++ t ++ [10]) ++ tail := by simp
          rw [this, List.drop_left' (by simp [Nat.add_assoc])]
        rw [hdrop] at htr
        subst htr
        refine ⟨toks, by rw [hts]; simp, hno, htail, ?_, ?_, ?_⟩
        · rw [← hfill, hdata]
        · rw [← hb]; exact htake
        · rw [← hb, hdata]

/-! ## `NewBuffer`, `Sort` and the drain together -/

theorem splitTokens_joinTokens (toks : List Bytes) (h : ∀ t ∈ toks, 10 ∉ t) :
    splitTokens (joinTokens toks) = toks :=
  splitTokens_writeRun toks h

theorem count_joinTokens (toks : List Bytes) (tail : Bytes) (h : ∀ t ∈ toks, 10 ∉ t)
    (htail : 10 ∉ tail) : (joinTokens toks ++ tail).count 10 = toks.length := by
  induction toks with
  | nil => simpa [joinTokens] using List.count_eq_zero_of_not_mem htail
  | cons t ts ih =>
    rw [joinTokens_cons, List.append_assoc, List.count_append, List.cons_append,
      List.count_cons_self, ih (fun u hu => h u (List.mem_cons_of_mem _ hu)),
      List.count_eq_zero_of_not_mem (h t (by simp))]
    simp

theorem entriesFrom_length (toks : List Bytes) : ∀ start, (entriesFrom start toks).length = toks.length := by
  induction toks with
  | nil => intro start; rfl
  | cons t ts ih => intro start; simp [entriesFrom, ih]

/-- Below 4 GiB, draining `Sort` returns the newline-terminated tokens of the populated
part of the buffer, each once, and the index is within bounds. -/
theorem drainSort_tokens
    (srt : (info → info → Option Bool) → List info → Option (List info))
    (hsrt : PanicSortContract srt) (r : Bytes) (size parallel : Int) (b : buffer)
    (trimmed : Bytes)
    (h : NewBuffer r size = .ok (b, trimmed)) (hfill : (r.take size.toNat).length < 2 ^ 32) :
    ∃ out, drainSort srt b parallel = .ok out ∧
      out.Perm ((splitTokens b.data).map (fun t => t ++ [10])) ∧
      out.length = (r.take size.toNat).count 10 ∧
      b.data ++ trimmed = r.take size.toNat ∧ 10 ∉ trimmed ∧
      (∀ e ∈ b.infos, info.inBounds b.data e) := by
  obtain ⟨_, _, toks, _, hno, htail, hfilleq, hdata, hinfos⟩ := NewBuffer_spec r size b trimmed h
  have hjl : (joinTokens toks).length < 2 ^ 32 := by
    rw [hfilleq] at hfill
    simp at hfill
    omega
  have hentries : b.infos = entriesFrom 0 toks := by
    rw [hinfos, hfilleq]
    simpa using buffer.computeOffsetsLoop_tokens trimmed htail toks 0 [] hno (by omega)
  obtain ⟨_, hs2⟩ := entriesFrom_slice toks [] [] (by simpa using hjl)
  have hs1 := entriesFrom_bytes toks [] [] (by simpa using hjl)
  simp only [List.nil_append, List.append_nil, List.length_nil] at hs1 hs2
  obtain ⟨out, ho, hop, _⟩ := drainSort_spec srt hsrt b parallel
    (by rw [hentries, hdata]; exact hs2)
  rw [hentries, hdata, hs1] at hop
  refine ⟨out, ho, ?_, ?_, ?_, htail, ?_⟩
  · rw [hdata, splitTokens_joinTokens toks hno]
    exact hop
  · rw [hop.length_eq, hfilleq, count_joinTokens toks trimmed hno htail]
    simp
  · rw [hdata, hfilleq]
  · rw [hentries, hdata]
    exact hs2

/-- At 4 GiB: a buffer filled by one token of exactly 4 GiB gets the index entry
`(0, 0)`, and the drain returns one empty slice. -/
theorem drainSort_at_max_size
    (srt : (info → info → Option Bool) → List info → Option (List info))
    (hsrt : PanicSortContract srt) (t : Bytes) (ht : 10 ∉ t) (hlen : t.length = 4294967295)
    (parallel : Int) :
    NewBuffer (t ++ [10]) 4294967296 = .ok ({ data := t ++ [10], infos := [0] }, []) ∧
    drainSort srt { data := t ++ [10], infos := [0] } parallel = .ok [[]] ∧
    (splitTokens (t ++ [10])).map (fun u => u ++ [10]) = [t ++ [10]] := by
  refine ⟨?_, ?_, ?_⟩
  · unfold NewBuffer
    rw [if_neg (by decide), if_neg (by decide)]
    have htake : List.take (4294967296 : Int).toNat (t ++ [10]) = t ++ [10] :=
      List.take_of_length_le (by simp [hlen])
    simp only [htake, buffer.computeOffsets, buffer.trim]
    have hloop := buffer.trimLoop_some t [] (by simp) 0 (le_refl _)
    have hl : (t ++ [10]).length = t.length + 1 + 0 := by simp
    rw [hl, hloop]
    have hinfos : buffer.computeOffsetsLoop 0 (t ++ [10]) 0 [] = [0] := by
      rw [buffer.computeOffsetsLoop_token t [] ht, buffer.computeOffsetsLoop]
      rw [hlen]
      decide
    simp only [hinfos]
    rw [List.take_of_length_le (by simp), List.drop_of_length_le (by simp)]
  · have hslice : info.slice (t ++ [10]) 0 = some [] := by
      unfold info.slice sliceBytes
      rw [info.offset_eq, info.len_eq]
      simp [u32add]
    have hin : info.inBounds (t ++ [10]) 0 := (info.inBounds_of_slice _ _ _ hslice).1
    have hbytes : info.bytes (t ++ [10]) 0 = [] := (info.inBounds_of_slice _ _ _ hslice).2
    obtain ⟨out, ho, hop, _⟩ :=
      drainSort_spec srt hsrt { data := t ++ [10], infos := [0] } parallel
        (by
          intro e he
          simp only [List.mem_singleton] at he
          rw [he]
          exact hin)
    simp only [List.map_cons, List.map_nil, hbytes] at hop
    rw [ho, List.perm_singleton.1 hop]
  · have : t ++ [10] = t ++ 10 :: [] := rfl
    rw [this, splitTokens_line t [] ht]
    simp [splitTokens]

/-! ## The slice expressions of a buffer built by `NewBuffer` -/

/-- The end `o + n` (a `uint32` sum) of every index entry written by `computeOffsets` is
at most the position after the newline of its token. -/
theorem buffer.computeOffsetsLoop_end (tail : Bytes) (htail : 10 ∉ tail) (toks : List Bytes) :
    ∀ (i off : Nat) (infos : List info), (∀ t ∈ toks, 10 ∉ t) → off < 2 ^ 32 →
      i + (joinTokens toks).length ≤ 2 ^ 32 →
      ∀ e ∈ buffer.computeOffsetsLoop i (joinTokens toks ++ tail) off infos,
        e ∈ infos ∨
          u32add (info.offset e) (info.len e) ≤ i + (joinTokens toks).length := by
  induction toks with
  | nil =>
    intro i off infos _ _ _ e he
    rw [buffer.computeOffsetsLoop_tail _ (no_delim_joinTokens_nil tail htail)] at he
    exact Or.inl he
  | cons t ts ih =>
    intro i off infos hno hoff hlen e he
    rw [joinTokens_length_cons] at hlen ⊢
    rw [joinTokens_cons, List.append_assoc, List.cons_append,
      buffer.computeOffsetsLoop_token t _ (hno t (by simp))] at he
    have hlt : u32sub (u32add (u32 (i + t.length)) 1) off < 2 ^ 32 := by
      unfold u32sub; omega
    rcases ih (i + t.length + 1) (u32 (i + t.length + 1)) _
        (fun u hu => hno u (List.mem_cons_of_mem _ hu)) (by unfold u32; omega) (by omega)
        e he with h1 | h1
    · rcases List.mem_append.1 h1 with h2 | h2
      · exact Or.inl h2
      · right
        simp only [List.mem_singleton] at h2
        rw [h2, info.offset_newInfo _ _ hoff hlt, info.len_newInfo _ _ hoff hlt]
        unfold u32sub u32add u32
        omega
    · right
      omega

/-- In a buffer built by `NewBuffer` the end of every index entry is within the length
of the data: a slice expression of the engine panics only when its end is below its
start, whatever the capacity of the data is. -/
theorem NewBuffer_entry_end (r : Bytes) (size : Int) (b : buffer) (trimmed : Bytes)
    (h : NewBuffer r size = .ok (b, trimmed)) :
    ∀ e ∈ b.infos, u32add (info.offset e) (info.len e) ≤ b.data.length := by
  obtain ⟨h0, hmax, toks, _, hno, htail, hfilleq, hdata, hinfos⟩ :=
    NewBuffer_spec r size b trimmed h
  have hlen : (joinTokens toks).length ≤ 2 ^ 32 := by
    have h1 : (r.take size.toNat).length ≤ size.toNat := List.length_take_le _ _
    rw [hfilleq, List.length_append] at h1
    omega
  intro e he
  rw [hinfos, hfilleq] at he
  rcases buffer.computeOffsetsLoop_end trimmed htail toks 0 0 [] hno (by norm_num)
      (by omega) e he with h1 | h1
  · simp at h1
  · rw [hdata]
    omega

/-- A buffer of exactly 4 GiB that holds two tokens and ends with a newline: `NewBuffer`
returns it with the second entry `(offset 2, length 4294967294)`, whose end wraps to 0,
and draining `Sort` panics for every `parallel`. -/
theorem drainSort_panic_at_max_size
    (srt : (info → info → Option Bool) → List info → Option (List info))
    (hsrt : PanicSortContract srt) (t : Bytes) (ht : 10 ∉ t) (hlen : t.length = 4294967293)
    (parallel : Int) :
    NewBuffer ([98] ++ 10 :: (t ++ [10])) 4294967296 =
      .ok ({ data := [98] ++ 10 :: (t ++ [10]), infos := [2, 12884901886] }, []) ∧
    info.offset 12884901886 = 2 ∧ info.len 12884901886 = 4294967294 ∧
    u32add 2 4294967294 = 0 ∧
    info.slice ([98] ++ 10 :: (t ++ [10])) 12884901886 = none ∧
    drainSort srt { data := [98] ++ 10 :: (t ++ [10]), infos := [2, 12884901886] } parallel =
      .error .panic := by
  have ho : info.offset 12884901886 = 2 := by rw [info.offset_eq]; norm_num
  have hl : info.len 12884901886 = 4294967294 := by rw [info.len_eq]; norm_num
  have hw : u32add 2 4294967294 = 0 := by decide
  have hsl : info.slice ([98] ++ 10 :: (t ++ [10])) 12884901886 = none := by
    unfold info.slice sliceBytes
    rw [ho, hl, hw, if_neg (fun h => absurd h.1 (by decide))]
  refine ⟨?_, ho, hl, hw, hsl, ?_⟩
  · unfold NewBuffer
    rw [if_neg (by decide), if_neg (by decide)]
    have htake : List.take (4294967296 : Int).toNat ([98] ++ 10 :: (t ++ [10])) =
        [98] ++ 10 :: (t ++ [10]) :=
      List.take_of_length_le (by simp [hlen])
    simp only [htake, buffer.computeOffsets, buffer.trim]
    have hd : [98] ++ 10 :: (t ++ [10]) = ([98] ++ 10 :: t) ++ 10 :: [] := by simp
    have hloop := buffer.trimLoop_some ([98] ++ 10 :: t) [] (by simp) 0 (le_refl _)
    have hl2 : ([98] ++ 10 :: (t ++ [10])).length = ([98] ++ 10 :: t).length + 1 + 0 := by simp
    have hinfos : buffer.computeOffsetsLoop 0 ([98] ++ 10 :: (t ++ [10])) 0 [] =
        [2, 12884901886] := by
      have e1 : t ++ [10] = t ++ 10 :: [] := rfl
      rw [buffer.computeOffsetsLoop_token [98] _ (by decide), e1,
        buffer.computeOffsetsLoop_token t [] ht, buffer.computeOffsetsLoop]
      rw [hlen]
      decide
    rw [← hd] at hloop
    rw [hl2, hloop]
    simp only [hinfos]
    rw [List.take_of_length_le (by simp), List.drop_of_length_le (by simp)]
  · apply drainSort_panic srt hsrt
    refine ⟨12884901886, by simp, ?_⟩
    intro hb
    rw [info.slice_of_inBounds _ _ hb] at hsl
    exact absurd hsl (by simp)

theorem joinTokens_replicate_nil (n : Nat) :
    joinTokens (List.replicate n []) = List.replicate n 10 := by
  induction n with
  | zero => rfl
  | succ n ih =>
    rw [List.replicate_succ, joinTokens_cons, ih, List.nil_append, ← List.replicate_succ]

/-- The buffer `NewBuffer` builds from `m` empty lines, with a size that holds them. -/
theorem NewBuffer_empty_lines (m : Nat) (hm : 0 < m) (hlt : m < 2 ^ 32) (size : Int)
    (hsz : (m : Int) ≤ size) (hmax : size ≤ 4294967296) :
    NewBuffer (List.replicate m 10) size =
      .ok ({ data := List.replicate m 10, infos := entriesFrom 0 (List.replicate m []) }, []) := by
  obtain ⟨n, rfl⟩ : ∃ n, m = n + 1 := ⟨m - 1, by omega⟩
  unfold NewBuffer
  rw [if_neg (by unfold maxBufferSize; omega), if_neg (by omega)]
  have htake : List.take size.toNat (List.replicate (n + 1) 10) = List.replicate (n + 1) 10 :=
    List.take_of_length_le (by rw [List.length_replicate]; omega)
  have hinfos : buffer.computeOffsetsLoop 0 (List.replicate (n + 1) 10) 0 [] =
      entriesFrom 0 (List.replicate (n + 1) []) := by
    have := buffer.computeOffsetsLoop_tokens [] (by simp) (List.replicate (n + 1) []) 0 []
      (fun t ht => by rw [List.eq_of_mem_replicate ht]; simp)
      (by rw [joinTokens_replicate_nil, List.length_replicate]; omega)
    rw [joinTokens_replicate_nil, List.append_nil, List.nil_append] at this
    exact this
  have hloop : buffer.trimLoop (List.replicate (n + 1) 10) (List.replicate (n + 1) 10).length =
      some n := by
    rw [List.length_replicate, buffer.trimLoop, if_pos]
    rw [List.getElem?_replicate, if_pos (by omega)]
    rfl
  simp only [htake, buffer.computeOffsets, buffer.trim, hloop, hinfos]
  rw [List.take_of_length_le (by simp), List.drop_of_length_le (by simp)]

/-- The index of a buffer of 2049 empty lines is cut in two by `Sort(2)`. -/
theorem buffer.parallelOf_two :
    buffer.parallelOf
      { data := List.replicate 2049 10, infos := entriesFrom 0 (List.replicate 2049 []) } 2 = 2 := by
  unfold buffer.parallelOf
  simp only []
  rw [entriesFrom_length, List.length_replicate]
  decide

/-- The index entries of the buffer of 2049 empty lines are within bounds. -/
theorem buffer.inBounds_empty_lines :
    ∀ e ∈ ({ data := List.replicate 2049 10, infos := entriesFrom 0 (List.replicate 2049 []) } : buffer).infos,
      info.inBounds
        ({ data := List.replicate 2049 10, infos := entriesFrom 0 (List.replicate 2049 []) } : buffer).data e := by
  obtain ⟨_, _, _, _, _, _, hb⟩ := drainSort_tokens insertionSortBy?
    insertionSortBy_panic_contract (List.replicate 2049 10) 2049 2
    { data := List.replicate 2049 10, infos := entriesFrom 0 (List.replicate 2049 []) } []
    (NewBuffer_empty_lines 2049 (by decide) (by decide) 2049 (by decide) (by decide))
    (by rw [List.length_take, List.length_replicate]; decide)
  exact hb

/-! ## The claims -/

/-- C1 (the code at the failing input): `NewBuffer` accepts `size = 4294967296`; for an
input of 4294967295 bytes `a` and one newline it returns a buffer whose only index
entry is `(offset 0, length 0)`, and draining `Sort(1)` returns one empty slice
instead of the one newline-terminated token of the buffer. -/
theorem C1_drain_at_max_size :
    NewBuffer (List.replicate 4294967295 97 ++ [10]) 4294967296 =
      .ok ({ data := List.replicate 4294967295 97 ++ [10], infos := [0] }, []) ∧
    drainSort insertionSortBy?
      { data := List.replicate 4294967295 97 ++ [10], infos := [0] } 1 = .ok [[]] ∧
    (splitTokens (List.replicate 4294967295 97 ++ [10])).map (fun u => u ++ [10]) =
      [List.replicate 4294967295 97 ++ [10]] :=
  drainSort_at_max_size insertionSortBy? insertionSortBy_panic_contract
    (List.replicate 4294967295 97)
    (fun h => absurd (List.eq_of_mem_replicate h) (by decide)) (List.length_replicate _ _) 1

/-- C2: for every buffer built by `NewBuffer` and every `parallel`, whenever the
successive `NextToken` calls on `Sort(parallel)` run to the end, the slices they have
returned (token and trailing `0x0A`) are in non-decreasing order of `bytes.Compare`,
and they are the slices of the index entries, each once. They run to the end when
every index entry is within bounds, which is so while the fill is shorter than
4 GiB. When an index entry is out of bounds, `Sort` or a `NextToken` panics, and no
sequence is returned. -/
theorem C2_drain_sorted
    (srt : (info → info → Option Bool) → List info → Option (List info))
    (hsrt : PanicSortContract srt) (r : Bytes) (size parallel : Int) (b : buffer)
    (trimmed : Bytes) (h : NewBuffer r size = .ok (b, trimmed)) :
    (∀ out, drainSort srt b parallel = .ok out →
      SortedTokens out ∧ (out.map some).Perm (b.infos.map (info.slice b.data))) ∧
    ((∀ e ∈ b.infos, info.inBounds b.data e) → ∃ out, drainSort srt b parallel = .ok out) ∧
    ((r.take size.toNat).length < 2 ^ 32 → ∀ e ∈ b.infos, info.inBounds b.data e) ∧
    ((∃ e ∈ b.infos, ¬ info.inBounds b.data e) → drainSort srt b parallel = .error .panic) ∧
    drainSort srt b parallel ≠ .error .outOfFuel := by
  have hpanic := drainSort_panic srt hsrt b parallel
  refine ⟨?_, ?_, ?_, hpanic, ?_⟩
  · intro out ho
    by_cases hb : ∀ e ∈ b.infos, info.inBounds b.data e
    · obtain ⟨out1, ho1, _, hs1, hp1⟩ := drainSort_spec srt hsrt b parallel hb
      rw [ho1] at ho
      injection ho with ho
      rw [← ho]
      exact ⟨hs1, hp1⟩
    · have hbad : ∃ e ∈ b.infos, ¬ info.inBounds b.data e := by
        by_contra hcon
        exact hb (fun e he => by
          by_contra hne
          exact hcon ⟨e, he, hne⟩)
      rw [hpanic hbad] at ho
      exact absurd ho (by simp)
  · intro hb
    obtain ⟨out, ho, _⟩ := drainSort_spec srt hsrt b parallel hb
    exact ⟨out, ho⟩
  · intro hfill
    obtain ⟨_, _, _, _, _, _, hb⟩ := drainSort_tokens srt hsrt r size parallel b trimmed h hfill
    exact hb
  · by_cases hb : ∀ e ∈ b.infos, info.inBounds b.data e
    · obtain ⟨out, ho, _⟩ := drainSort_spec srt hsrt b parallel hb
      rw [ho]
      simp
    · have hbad : ∃ e ∈ b.infos, ¬ info.inBounds b.data e := by
        by_contra hcon
        exact hb (fun e he => by
          by_contra hne
          exact hcon ⟨e, he, hne⟩)
      rw [hpanic hbad]
      simp

/-- C2 (witness): the buffer `NewBuffer` builds from 2049 empty lines, with `Sort(2)`
under insertion sort: `Sort` works with two partitions, and the drain runs to the end
and returns its slices in order. -/
theorem C2_drain_sorted_witness :
    buffer.parallelOf { data := List.replicate 2049 10, infos := entriesFrom 0 (List.replicate 2049 []) } 2 = 2 ∧
    ∃ out, drainSort insertionSortBy? { data := List.replicate 2049 10, infos := entriesFrom 0 (List.replicate 2049 []) } 2 = .ok out ∧ SortedTokens out ∧
      (out.map some).Perm
        (({ data := List.replicate 2049 10, infos := entriesFrom 0 (List.replicate 2049 []) } : buffer).infos.map
          (info.slice ({ data := List.replicate 2049 10, infos := entriesFrom 0 (List.replicate 2049 []) } : buffer).data)) :=
  ⟨buffer.parallelOf_two,
    ((C2_drain_sorted insertionSortBy? insertionSortBy_panic_contract
        (List.replicate 2049 10) 2049 2 { data := List.replicate 2049 10, infos := entriesFrom 0 (List.replicate 2049 []) } []
        (NewBuffer_empty_lines 2049 (by decide) (by decide) 2049 (by decide) (by decide))).2.1
      ((C2_drain_sorted insertionSortBy? insertionSortBy_panic_contract
        (List.replicate 2049 10) 2049 2 { data := List.replicate 2049 10, infos := entriesFrom 0 (List.replicate 2049 []) } []
        (NewBuffer_empty_lines 2049 (by decide) (by decide) 2049 (by decide) (by decide))).2.2.1
        (by rw [List.length_take, List.length_replicate]; decide))).elim
      (fun out ho => ⟨out, ho,
        (C2_drain_sorted insertionSortBy? insertionSortBy_panic_contract
          (List.replicate 2049 10) 2049 2 { data := List.replicate 2049 10, infos := entriesFrom 0 (List.replicate 2049 []) } []
          (NewBuffer_empty_lines 2049 (by decide) (by decide) 2049 (by decide) (by decide))).1
          out ho⟩)⟩

/-- C3 (counterexample): the payloads `"a"` and `"a\t"` contain no `0x0A`; as payloads
`"a"` orders first, with the delimiter `"a\t\n"` orders first, so the run sorter
and the in-memory engine order this pair differently. -/
theorem C3_counterexample :
    10 ∉ [97] ∧ 10 ∉ [97, 9] ∧ bytes.Compare [97] [97, 9] < 0 ∧
    0 < bytes.Compare ([97] ++ [10]) ([97, 9] ++ [10]) ∧
    NewSorter.less [97] [97, 9] = true ∧
    mergeHeap.Less { srcIdx := 0, token := [97] } { srcIdx := 1, token := [97, 9] } = true ∧
    info.slice [97, 10, 97, 9, 10] (newInfo 0 2) = some ([97] ++ [10]) ∧
    info.slice [97, 10, 97, 9, 10] (newInfo 2 3) = some ([97, 9] ++ [10]) ∧
    sortSplit.Less [97, 10, 97, 9, 10] (newInfo 0 2) (newInfo 2 3) = some false ∧
    sortSplit.Less [97, 10, 97, 9, 10] (newInfo 2 3) (newInfo 0 2) = some true := by
  decide

/-- C3 (amended): for payloads `a` and `b` whose bytes are all greater than `0x0A`,
comparing with the trailing delimiter gives the same result as comparing the
payloads, and `sortSplit.Less` / `splitHeap.Less` on index entries that address
the two tokens agree with the comparator of the run sorter and with
`mergeHeap.Less` on the payloads. -/
theorem C3_delimiter_comparison (a b : Bytes) (ha : ∀ x ∈ a, 10 < x) (hb : ∀ x ∈ b, 10 < x)
    (data : Bytes) (iInfo jInfo : info) (iRest jRest : List info) (iSrc jSrc : Nat)
    (hi : info.slice data iInfo = some (a ++ [10]))
    (hj : info.slice data jInfo = some (b ++ [10])) :
    bytes.Compare (a ++ [10]) (b ++ [10]) = bytes.Compare a b ∧
    sortSplit.Less data iInfo jInfo = some (NewSorter.less a b) ∧
    splitHeap.Less data (iInfo :: iRest) (jInfo :: jRest) =
      some (mergeHeap.Less { srcIdx := iSrc, token := a } { srcIdx := jSrc, token := b }) := by
  have hc := bytes.Compare_append_delim a b ha hb
  refine ⟨hc, ?_, ?_⟩
  · unfold sortSplit.Less NewSorter.less
    rw [hi, hj]
    simp only [hc]
  · simp only [splitHeap.Less, splitHeap.headSlice, mergeHeap.Less, hi, hj, hc]

/-- C3 (witness): the payloads `"a"` and `"ab"` in the buffer `"a\nab\n"`. -/
theorem C3_delimiter_comparison_witness :
    bytes.Compare ([97] ++ [10]) ([97, 98] ++ [10]) = bytes.Compare [97] [97, 98] ∧
    sortSplit.Less [97, 10, 97, 98, 10] (newInfo 0 2) (newInfo 2 3) =
      some (NewSorter.less [97] [97, 98]) ∧
    splitHeap.Less [97, 10, 97, 98, 10] [newInfo 0 2] [newInfo 2 3] =
      some (mergeHeap.Less { srcIdx := 0, token := [97] }
        { srcIdx := 1, token := [97, 98] }) :=
  C3_delimiter_comparison [97] [97, 98] (by decide) (by decide) [97, 10, 97, 98, 10]
    (newInfo 0 2) (newInfo 2 3) [] [] 0 1 (by decide) (by decide)

/-- C4: for every buffer built by `NewBuffer` and all integers `p` and `q`, draining
`Sort(p)` and draining `Sort(q)` end alike: both return the same sequence of slices,
or both panic; this also holds when the second `Sort` finds the index in another
order `infos`, as an earlier `Sort` on the same buffer leaves it. Both return when
every index entry is within bounds, which is so while the fill is shorter than
4 GiB; with an index entry out of bounds both panic. -/
theorem C4_parallel_independent
    (srt : (info → info → Option Bool) → List info → Option (List info))
    (hsrt : PanicSortContract srt) (r : Bytes) (size : Int) (b : buffer) (trimmed : Bytes)
    (h : NewBuffer r size = .ok (b, trimmed)) (p q : Int)
    (infos : List info) (hperm : infos.Perm b.infos) :
    drainSort srt b p = drainSort srt b q ∧
    drainSort srt { data := b.data, infos := infos } q = drainSort srt b p ∧
    ((∀ e ∈ b.infos, info.inBounds b.data e) →
      ∃ out, drainSort srt b p = .ok out ∧ drainSort srt b q = .ok out ∧
        drainSort srt { data := b.data, infos := infos } q = .ok out) ∧
    ((r.take size.toNat).length < 2 ^ 32 → ∀ e ∈ b.infos, info.inBounds b.data e) ∧
    ((∃ e ∈ b.infos, ¬ info.inBounds b.data e) →
      drainSort srt b p = .error .panic ∧ drainSort srt b q = .error .panic) := by
  have h1 : drainSort srt b p = drainSort srt b q :=
    drainSort_eq srt hsrt b q p b.infos (List.Perm.refl _)
  have h2 := drainSort_eq srt hsrt b p q infos hperm
  refine ⟨h1, h2, ?_, ?_, ?_⟩
  · intro hb
    obtain ⟨out, ho, _⟩ := drainSort_spec srt hsrt b p hb
    exact ⟨out, ho, by rw [← h1, ho], by rw [h2, ho]⟩
  · intro hfill
    obtain ⟨_, _, _, _, _, _, hb⟩ := drainSort_tokens srt hsrt r size p b trimmed h hfill
    exact hb
  · intro hbad
    exact ⟨drainSort_panic srt hsrt b p hbad, drainSort_panic srt hsrt b q hbad⟩

/-- C4 (witness): the buffer `NewBuffer` builds from 2049 empty lines: `Sort(2)` works
with two partitions, `Sort(1)` with one, the second `Sort` also on the index in reverse
order; the three drains return the same slices. -/
theorem C4_parallel_independent_witness :
    buffer.parallelOf { data := List.replicate 2049 10, infos := entriesFrom 0 (List.replicate 2049 []) } 2 = 2 ∧
    drainSort insertionSortBy? { data := List.replicate 2049 10, infos := entriesFrom 0 (List.replicate 2049 []) } 1 = drainSort insertionSortBy? { data := List.replicate 2049 10, infos := entriesFrom 0 (List.replicate 2049 []) } 2 ∧
    drainSort insertionSortBy?
      { data := ({ data := List.replicate 2049 10, infos := entriesFrom 0 (List.replicate 2049 []) } : buffer).data,
        infos := ({ data := List.replicate 2049 10, infos := entriesFrom 0 (List.replicate 2049 []) } : buffer).infos.reverse } 2 =
      drainSort insertionSortBy? { data := List.replicate 2049 10, infos := entriesFrom 0 (List.replicate 2049 []) } 1 ∧
    ∃ out, drainSort insertionSortBy? { data := List.replicate 2049 10, infos := entriesFrom 0 (List.replicate 2049 []) } 1 = .ok out ∧
      drainSort insertionSortBy? { data := List.replicate 2049 10, infos := entriesFrom 0 (List.replicate 2049 []) } 2 = .ok out ∧
      drainSort insertionSortBy?
        { data := ({ data := List.replicate 2049 10, infos := entriesFrom 0 (List.replicate 2049 []) } : buffer).data,
          infos := ({ data := List.replicate 2049 10, infos := entriesFrom 0 (List.replicate 2049 []) } : buffer).infos.reverse } 2 = .ok out :=
  ⟨buffer.parallelOf_two,
    (C4_parallel_independent insertionSortBy? insertionSortBy_panic_contract
      (List.replicate 2049 10) 2049 { data := List.replicate 2049 10, infos := entriesFrom 0 (List.replicate 2049 []) } []
      (NewBuffer_empty_lines 2049 (by decide) (by decide) 2049 (by decide) (by decide)) 1 2
      ({ data := List.replicate 2049 10, infos := entriesFrom 0 (List.replicate 2049 []) } : buffer).infos.reverse (List.reverse_perm _)).1,
    (C4_parallel_independent insertionSortBy? insertionSortBy_panic_contract
      (List.replicate 2049 10) 2049 { data := List.replicate 2049 10, infos := entriesFrom 0 (List.replicate 2049 []) } []
      (NewBuffer_empty_lines 2049 (by decide) (by decide) 2049 (by decide) (by decide)) 1 2
      ({ data := List.replicate 2049 10, infos := entriesFrom 0 (List.replicate 2049 []) } : buffer).infos.reverse (List.reverse_perm _)).2.1,
    (C4_parallel_independent insertionSortBy? insertionSortBy_panic_contract
      (List.replicate 2049 10) 2049 { data := List.replicate 2049 10, infos := entriesFrom 0 (List.replicate 2049 []) } []
      (NewBuffer_empty_lines 2049 (by decide) (by decide) 2049 (by decide) (by decide)) 1 2
      ({ data := List.replicate 2049 10, infos := entriesFrom 0 (List.replicate 2049 []) } : buffer).infos.reverse (List.reverse_perm _)).2.2.1
      ((C4_parallel_independent insertionSortBy? insertionSortBy_panic_contract
        (List.replicate 2049 10) 2049 { data := List.replicate 2049 10, infos := entriesFrom 0 (List.replicate 2049 []) } []
        (NewBuffer_empty_lines 2049 (by decide) (by decide) 2049 (by decide) (by decide)) 1 2
        ({ data := List.replicate 2049 10, infos := entriesFrom 0 (List.replicate 2049 []) } : buffer).infos.reverse (List.reverse_perm _)).2.2.2.1
        (by rw [List.length_take, List.length_replicate]; decide))⟩

/-- C5 (the code at the failing input): the input `"a\r\n"` has the one token `"a\r"`,
which fits the chunk size 10; chunker, run sorter and `Merge` write `"a\n"`, whose
one token `"a"` is not the token of the input. -/
theorem C5_trailing_cr_dropped :
    splitTokens [97, 13, 10] = [[97, 13]] ∧
    (∀ t ∈ splitTokens [97, 13, 10], t.length ≤ 10) ∧
    runSort.pipeline insertionSortBy id 10 1 [97, 13, 10] =
      some { written := [97, 10], err := none } ∧
    splitTokens [97, 10] = [[97]] := by
  decide

/-- C6 (the code at the failing input): the one source `"a\r\n"` has the token sequence
`["a\r"]`, which is in order; `Merge` returns no error and writes `"a\n"`, not
`"a\r\n"`. -/
theorem C6_trailing_cr_dropped :
    splitTokens [97, 13, 10] = [[97, 13]] ∧ SortedTokens (splitTokens [97, 13, 10]) ∧
    Merge [[97, 13, 10]] = some { written := [97, 10], err := none } ∧
    joinTokens (splitTokens [97, 13, 10]) = [97, 13, 10] := by
  decide

/-- C7: when no token scanned from the readers is longer than `chunk_size`, the chunks
sent, concatenated in the order sent, are exactly the tokens scanned, reader after
reader and in stream order, and no error is sent. (What a scanner returns for a
stream, a last token without newline and empty tokens included, is stated by
`bufio.NewScanner_eq_splitTokens`.) -/
theorem C7_chunks_concat (chunkSize bufferSize : Nat) (readers : List Bytes)
    (hfit : ∀ r ∈ readers, ∀ t ∈ bufio.NewScanner r, t.length ≤ chunkSize) :
    (NewChunker chunkSize bufferSize readers).out.flatten = readers.flatMap bufio.NewScanner ∧
    (NewChunker chunkSize bufferSize readers).errs = [] := by
  unfold NewChunker
  rcases (NewChunker.readersLoop_spec chunkSize readers).2 with
    ⟨_, h2, h3⟩ | ⟨⟨t, ht, hbig⟩, _⟩
  · exact ⟨h3, h2⟩
  · obtain ⟨r, hr, htr⟩ := List.mem_flatMap.1 ht
    exact absurd (hfit r hr t htr) (by omega)

/-- C7 (witness): the readers `"l\n\nmn"`, `""` and `"o"` with chunk size 2: an empty
token, last tokens without newline, an empty reader. -/
theorem C7_chunks_concat_witness :
    (NewChunker 2 1 [[108, 10, 10, 109, 110], [], [111]]).out.flatten =
      [[108], [], [109, 110], [111]] ∧
    (NewChunker 2 1 [[108, 10, 10, 109, 110], [], [111]]).errs = [] :=
  ⟨(C7_chunks_concat 2 1 [[108, 10, 10, 109, 110], [], [111]] (by decide)).1.trans (by decide),
    (C7_chunks_concat 2 1 [[108, 10, 10, 109, 110], [], [111]] (by decide)).2⟩

/-- C8: every chunk the chunker sends has a payload (the sum of the lengths of its
tokens) of at most `chunk_size`, for every input and every chunk size. -/
theorem C8_chunk_payload_bound (chunkSize bufferSize : Nat) (readers : List Bytes) :
    ∀ c ∈ (NewChunker chunkSize bufferSize readers).out, (c.map List.length).sum ≤ chunkSize :=
  NewChunker.readersLoop_size chunkSize readers

/-- C8 (witness): the first chunk sent for the reader `"lm\n\nn"` with chunk size 2. -/
theorem C8_chunk_payload_bound_witness :
    (([[108, 109], []] : List Bytes).map List.length).sum ≤ 2 :=
  C8_chunk_payload_bound 2 1 [[108, 109, 10, 10, 110]] [[108, 109], []] (by decide)

/-- C9 (counterexample): the reader `"ab\nabc"` with chunk size 2. The token `"ab"` has
the length of the chunk size and is accepted into the pending chunk; the token `"abc"`
is too long, the chunker sends its error and returns, and the pending chunk is never
sent: the token `"ab"` is in no chunk. -/
theorem C9_counterexample :
    bufio.NewScanner [97, 98, 10, 97, 98, 99] = [[97, 98], [97, 98, 99]] ∧
    ([97, 98] : Bytes).length = 2 ∧
    NewChunker 2 1 [[97, 98, 10, 97, 98, 99]] =
      { out := [], errs := [ChunkerError.tokenSizeGreaterThanChunkSize] } ∧
    ¬ ∃ chunk ∈ (NewChunker 2 1 [[97, 98, 10, 97, 98, 99]]).out, [97, 98] ∈ chunk := by
  decide

/-- C9 (amended): the chunker sends its error exactly when some scanned token is longer
than `chunk_size` and sends no error exactly when every token fits (a token of
length `chunk_size` fits and raises no error); when no token is too long every token
is sent in a chunk; the chunks sent never reach the first token that is too long. -/
theorem C9_token_too_large (chunkSize bufferSize : Nat) (readers : List Bytes) :
    ((NewChunker chunkSize bufferSize readers).errs =
        [ChunkerError.tokenSizeGreaterThanChunkSize] ↔
      ∃ t ∈ readers.flatMap bufio.NewScanner, chunkSize < t.length) ∧
    ((NewChunker chunkSize bufferSize readers).errs = [] ↔
      ∀ t ∈ readers.flatMap bufio.NewScanner, t.length ≤ chunkSize) ∧
    ((∀ t ∈ readers.flatMap bufio.NewScanner, t.length ≤ chunkSize) →
      (NewChunker chunkSize bufferSize readers).out.flatten =
        readers.flatMap bufio.NewScanner) ∧
    ((NewChunker chunkSize bufferSize readers).out.flatten <+:
      (readers.flatMap bufio.NewScanner).takeWhile
        (fun t => decide (t.length ≤ chunkSize))) := by
  unfold NewChunker
  obtain ⟨hpre, hcase⟩ := NewChunker.readersLoop_spec chunkSize readers
  rcases hcase with ⟨h1, h2, h3⟩ | ⟨⟨t, ht, hbig⟩, h2⟩
  · refine ⟨?_, ?_, fun _ => h3, hpre⟩
    · rw [h2]
      constructor
      · intro e; simp at e
      · rintro ⟨t, ht, hbig⟩
        exact absurd (h1 t ht) (by omega)
    · rw [h2]
      exact ⟨fun _ => h1, fun _ => rfl⟩
  · refine ⟨?_, ?_, ?_, hpre⟩
    · rw [h2]
      exact ⟨fun _ => ⟨t, ht, hbig⟩, fun _ => rfl⟩
    · rw [h2]
      constructor
      · intro e; simp at e
      · intro hall
        exact absurd (hall t ht) (by omega)
    · intro hall
      exact absurd (hall t ht) (by omega)

/-- C9 (witness): with chunk size 5, `"lineA\nlineB"` goes through without error and
`"l\nlineAB\nm"` raises the error. -/
theorem C9_token_too_large_witness :
    (NewChunker 5 1 [[108, 105, 110, 101, 65, 10, 108, 105, 110, 101, 66]]).errs = [] ∧
    (NewChunker 5 1 [[108, 105, 110, 101, 65, 10, 108, 105, 110, 101, 66]]).out.flatten =
      List.flatMap [[108, 105, 110, 101, 65, 10, 108, 105, 110, 101, 66]] bufio.NewScanner ∧
    (NewChunker 5 1 [[108, 10, 108, 105, 110, 101, 65, 66, 10, 109]]).errs =
      [ChunkerError.tokenSizeGreaterThanChunkSize] :=
  ⟨(C9_token_too_large 5 1 [[108, 105, 110, 101, 65, 10, 108, 105, 110, 101, 66]]).2.1.2
      (by decide),
    (C9_token_too_large 5 1 [[108, 105, 110, 101, 65, 10, 108, 105, 110, 101, 66]]).2.2.1
      (by decide),
    (C9_token_too_large 5 1 [[108, 10, 108, 105, 110, 101, 65, 66, 10, 109]]).1.2
      ⟨[108, 105, 110, 101, 65, 66], by decide, by decide⟩⟩

/-- C10: absent I/O failure the run sorter produces one run per chunk, and the run of
a chunk holds exactly the tokens of the chunk, in non-decreasing order, each
followed by one `0x0A`. -/
theorem C10_run_sorted (slc : (Bytes → Bytes → Bool) → List Bytes → List Bytes)
    (hslc : SortContract slc) (chunks : List (List Bytes)) :
    List.Forall₂ (fun chunk run => ∃ toks, run = joinTokens toks ∧ toks.Perm chunk ∧
      SortedTokens toks) chunks (NewSorter slc chunks) := by
  induction chunks with
  | nil => exact List.Forall₂.nil
  | cons c cs ih => exact List.Forall₂.cons (NewSorter.worker_spec slc hslc c) ih

/-- C10 (witness): the chunks `["b", "a"]` and `["c"]` under insertion sort. -/
theorem C10_run_sorted_witness :
    List.Forall₂ (fun chunk run => ∃ toks, run = joinTokens toks ∧ toks.Perm chunk ∧
      SortedTokens toks) [[[98], [97]], [[99]]] (NewSorter insertionSortBy [[[98], [97]], [[99]]]) :=
  C10_run_sorted insertionSortBy insertionSortBy_contract [[[98], [97]], [[99]]]

/-! ## `NewBuffer`: which result for which fill -/

/-- A stream that holds a newline is cut at its last newline. -/
theorem exists_last_delim (l : Bytes) (h : 10 ∈ l) :
    ∃ pre tail, l = pre ++ 10 :: tail ∧ 10 ∉ tail := by
  obtain ⟨toks, tail, hl, _, htail⟩ := exists_joinTokens l
  rcases List.eq_nil_or_concat toks with hnil | ⟨ts, t, hts⟩
  · rw [hnil] at hl
    exact absurd (hl ▸ h) (no_delim_joinTokens_nil tail htail)
  · rw [List.concat_eq_append] at hts
    refine ⟨joinTokens ts ++ t, tail, ?_, htail⟩
    rw [hl, hts, joinTokens_concat]
    simp

/-- The two results of `buffer.trim`. -/
theorem buffer.trim_spec (data : Bytes) (infos : List info) :
    (10 ∉ data ∧
      buffer.trim { data := data, infos := infos } = .error .ErrorTokenDelimiterNotFound) ∨
    ∃ pre tail, data = pre ++ 10 :: tail ∧ 10 ∉ tail ∧
      buffer.trim { data := data, infos := infos } =
        .ok ({ data := pre ++ [10], infos := infos }, tail) := by
  by_cases h : 10 ∈ data
  · right
    obtain ⟨pre, tail, hd, htail⟩ := exists_last_delim data h
    refine ⟨pre, tail, hd, htail, ?_⟩
    have hloop := buffer.trimLoop_some pre tail htail tail.length (le_refl _)
    have hlen : data.length = pre.length + 1 + tail.length := by
      rw [hd]; simp; omega
    have h1 : pre ++ 10 :: tail = (pre ++ [10]) ++ tail := by simp
    have htake : List.take (pre.length + 1) (pre ++ 10 :: tail) = pre ++ [10] := by
      rw [h1, List.take_left' (by simp)]
    have hdrop : List.drop (pre.length + 1) (pre ++ 10 :: tail) = tail := by
      rw [h1, List.drop_left' (by simp)]
    unfold buffer.trim
    simp only []
    rw [hlen, hd, hloop]
    simp only [htake, hdrop]
  · left
    refine ⟨h, ?_⟩
    unfold buffer.trim
    simp only []
    rw [buffer.trimLoop_none data h]

/-- The results of `NewBuffer` for a size it accepts. -/
theorem NewBuffer_cases (r : Bytes) (size : Int) (h0 : 0 ≤ size) (hmax : size ≤ maxBufferSize) :
    (10 ∉ r.take size.toNat ∧ NewBuffer r size = .error .ErrorTokenDelimiterNotFound) ∨
    ∃ pre tail, r.take size.toNat = pre ++ 10 :: tail ∧ 10 ∉ tail ∧
      NewBuffer r size =
        .ok ({ data := pre ++ [10],
               infos := buffer.computeOffsetsLoop 0 (r.take size.toNat) 0 [] }, tail) := by
  unfold NewBuffer
  rw [if_neg (by omega), if_neg (by omega)]
  simp only [buffer.computeOffsets]
  exact buffer.trim_spec _ _

/-! ## The index tiles the populated prefix (below 4 GiB) -/

/-- Consecutive entries: each starts where the one before it ends, the first at
`start`. -/
theorem entriesFrom_chain (toks : List Bytes) :
    ∀ start, start + (joinTokens toks).length < 2 ^ 32 →
      List.Chain' (fun e f => info.offset f = u32add (info.offset e) (info.len e))
        (entriesFrom start toks) ∧
      ∀ e ∈ (entriesFrom start toks).head?, info.offset e = start := by
  induction toks with
  | nil =>
    intro start _
    simp [entriesFrom]
  | cons t ts ih =>
    intro start hlen
    rw [joinTokens_length_cons] at hlen
    have ho : info.offset (newInfo start (t.length + 1)) = start :=
      info.offset_newInfo _ _ (by omega) (by omega)
    have hl : info.len (newInfo start (t.length + 1)) = t.length + 1 :=
      info.len_newInfo _ _ (by omega) (by omega)
    obtain ⟨ih1, ih2⟩ := ih (start + t.length + 1) (by omega)
    simp only [entriesFrom]
    refine ⟨List.chain'_cons'.2 ⟨?_, ih1⟩, ?_⟩
    · intro f hf
      rw [ih2 f hf, ho, hl]
      unfold u32add
      omega
    · intro e he
      simp only [List.head?_cons, Option.mem_def, Option.some.injEq] at he
      rw [← he, ho]

theorem flatten_map_append_delim (toks : List Bytes) :
    (toks.map (fun t => t ++ [10])).flatten = joinTokens toks := by
  unfold joinTokens
  induction toks with
  | nil => rfl
  | cons t ts ih => simp [ih]

/-- The index `NewBuffer` returns with a populated prefix shorter than 4 GiB: the
entries address the newline-terminated tokens of the prefix one after the other, and
no slice expression on them panics. -/
theorem NewBuffer_index (r : Bytes) (size : Int) (b : buffer) (trimmed : Bytes)
    (h : NewBuffer r size = .ok (b, trimmed)) (hlen : b.data.length < 2 ^ 32) :
    ∃ toks, toks ≠ [] ∧ (∀ t ∈ toks, 10 ∉ t) ∧ b.data = joinTokens toks ∧
      b.infos = entriesFrom 0 toks ∧
      b.infos.map (info.slice b.data) = toks.map (fun t => some (t ++ [10])) ∧
      (∀ e ∈ b.infos, info.inBounds b.data e) ∧
      b.infos.map (info.bytes b.data) = toks.map (fun t => t ++ [10]) := by
  obtain ⟨_, _, toks, hne, hno, htail, hfilleq, hdata, hinfos⟩ := NewBuffer_spec r size b trimmed h
  rw [hdata] at hlen
  have hentries : b.infos = entriesFrom 0 toks := by
    rw [hinfos, hfilleq]
    simpa using buffer.computeOffsetsLoop_tokens trimmed htail toks 0 [] hno (by omega)
  obtain ⟨hs1, hs2⟩ := entriesFrom_slice toks [] [] (by simpa using hlen)
  have hs3 := entriesFrom_bytes toks [] [] (by simpa using hlen)
  simp only [List.nil_append, List.append_nil, List.length_nil] at hs1 hs2 hs3
  refine ⟨toks, hne, hno, hdata, hentries, ?_, ?_, ?_⟩
  · rw [hentries, hdata]; exact hs1
  · rw [hentries, hdata]; exact hs2
  · rw [hentries, hdata]; exact hs3

/-- With a populated prefix shorter than 4 GiB the index tiles it: the first entry has
offset 0, each next entry starts where the one before it ends, every entry is within
bounds, its slice expression returns a slice whose last byte is `0x0A`, and the slices
of the entries, concatenated in order, are the populated prefix. -/
theorem NewBuffer_tiles (r : Bytes) (size : Int) (b : buffer) (trimmed : Bytes)
    (h : NewBuffer r size = .ok (b, trimmed)) (hlen : b.data.length < 2 ^ 32) :
    (∃ e rest, b.infos = e :: rest ∧ info.offset e = 0) ∧
    List.Chain' (fun e f => info.offset f = u32add (info.offset e) (info.len e)) b.infos ∧
    (∀ e ∈ b.infos, info.inBounds b.data e ∧
      ∃ x, info.slice b.data e = some x ∧ x.getLast? = some 10) ∧
    ∃ slices : List Bytes,
      b.infos.map (info.slice b.data) = slices.map some ∧ slices.flatten = b.data := by
  obtain ⟨toks, hne, _, hdata, hentries, hslices, hin, _⟩ :=
    NewBuffer_index r size b trimmed h hlen
  obtain ⟨hc1, hc2⟩ := entriesFrom_chain toks 0 (by rw [← hdata]; omega)
  rw [← hentries] at hc1 hc2
  refine ⟨?_, hc1, ?_, ?_⟩
  · cases hi : b.infos with
    | nil =>
      have := congrArg List.length hentries
      rw [hi, entriesFrom_length] at this
      exact absurd (List.length_eq_zero.1 this.symm) hne
    | cons e rest =>
      refine ⟨e, rest, rfl, hc2 e ?_⟩
      rw [hi]
      rfl
  · intro e he
    refine ⟨hin e he, ?_⟩
    have hm : info.slice b.data e ∈ toks.map (fun t => some (t ++ [10])) := by
      rw [← hslices]
      exact List.mem_map_of_mem _ he
    obtain ⟨t, _, ht⟩ := List.mem_map.1 hm
    exact ⟨t ++ [10], ht.symm, by simp⟩
  · refine ⟨toks.map (fun t => t ++ [10]), ?_, ?_⟩
    · rw [hslices, List.map_map]
      rfl
    · rw [flatten_map_append_delim, hdata]

/-- The entry `(offset 0, length 0)` addresses no byte: its slice expression returns the
empty slice. -/
theorem info.slice_zero (data : Bytes) :
    info.offset 0 = 0 ∧ info.len 0 = 0 ∧ info.slice data 0 = some [] := by
  have ho : info.offset 0 = 0 := by rw [info.offset_eq]; norm_num
  have hl : info.len 0 = 0 := by rw [info.len_eq]; norm_num
  refine ⟨ho, hl, ?_⟩
  unfold info.slice sliceBytes
  rw [ho, hl]
  simp [u32add]

/-! ## Sorting what is already in order -/

/-- `NewBuffer` on an input that ends with a newline and fits the size: the whole input
is the populated prefix and nothing is trimmed. -/
theorem NewBuffer_terminated (r : Bytes) (size : Int) (hlen : (r.length : Int) ≤ size)
    (hmax : size ≤ maxBufferSize) (hend : r.getLast? = some 10) :
    ∃ b, NewBuffer r size = .ok (b, []) ∧ b.data = r := by
  have htake : r.take size.toNat = r := List.take_of_length_le (by omega)
  rcases NewBuffer_cases r size (by omega) hmax with ⟨hno, _⟩ | ⟨pre, tail, hfill, htail, hok⟩
  · rw [htake] at hno
    exact absurd (List.mem_of_getLast?_eq_some hend) hno
  · rw [htake] at hfill
    have ht : tail = [] := by
      by_contra hne
      obtain ⟨x, xs, hx⟩ := List.exists_cons_of_ne_nil hne
      rw [hfill, List.getLast?_append_cons, hx, List.getLast?_cons_cons, ← hx] at hend
      exact htail (List.mem_of_getLast?_eq_some hend)
    subst ht
    exact ⟨_, hok, by rw [hfill]⟩

/-- Draining `Sort` on a buffer with a populated prefix shorter than 4 GiB returns the
newline-terminated tokens of the prefix, each once, in order. -/
theorem drainSort_prefix 
    (srt : (info → info → Option Bool) → List info → Option (List info))
    (hsrt : PanicSortContract srt) (r : Bytes) (size parallel : Int) (b : buffer) (trimmed : Bytes)
    (h : NewBuffer r size = .ok (b, trimmed)) (hlen : b.data.length < 2 ^ 32) :
    ∃ out, drainSort srt b parallel = .ok out ∧
      out.Perm ((splitTokens b.data).map (fun t => t ++ [10])) ∧ SortedTokens out ∧
      splitTokens b.data ≠ [] ∧ joinTokens (splitTokens b.data) = b.data := by
  obtain ⟨toks, hne, hno, hdata, _, _, hin, hslices⟩ := NewBuffer_index r size b trimmed h hlen
  obtain ⟨out, ho, hop, hos, _⟩ := drainSort_spec srt hsrt b parallel hin
  have hsp : splitTokens b.data = toks := by rw [hdata, splitTokens_joinTokens toks hno]
  refine ⟨out, ho, ?_, hos, ?_, ?_⟩
  · rw [hsp, ← hslices]; exact hop
  · rw [hsp]; exact hne
  · rw [hsp, hdata]

/-- A buffer whose tokens are in order as the engine compares them (delimiter
included) is drained in the order it is in, and the slices returned make up the
populated prefix. -/
theorem drainSort_of_sorted 
    (srt : (info → info → Option Bool) → List info → Option (List info))
    (hsrt : PanicSortContract srt) (r : Bytes) (size parallel : Int) (b : buffer) (trimmed : Bytes)
    (h : NewBuffer r size = .ok (b, trimmed)) (hlen : b.data.length < 2 ^ 32)
    (hs : SortedTokens ((splitTokens b.data).map (fun t => t ++ [10]))) :
    drainSort srt b parallel = .ok ((splitTokens b.data).map (fun t => t ++ [10])) ∧
    ((splitTokens b.data).map (fun t => t ++ [10])).flatten = b.data := by
  obtain ⟨out, ho, hop, hos, _, hj⟩ := drainSort_prefix srt hsrt r size parallel b trimmed h hlen
  refine ⟨?_, ?_⟩
  · rw [ho, SortedTokens.eq_of_perm hop hos hs]
  · rw [flatten_map_append_delim, hj]

/-- Tokens that hold no byte below `0x0B` and are in order as payloads are in order with
the delimiter appended. -/
theorem SortedTokens_append_delim (toks : List Bytes) (hbytes : ∀ t ∈ toks, ∀ x ∈ t, 10 < x)
    (hs : SortedTokens toks) : SortedTokens (toks.map (fun t => t ++ [10])) := by
  unfold SortedTokens at hs ⊢
  rw [List.pairwise_map]
  refine List.Pairwise.imp_of_mem ?_ hs
  intro a b ha hb hab
  rw [bytes.Compare_append_delim a b (hbytes a ha) (hbytes b hb)]
  exact hab

/-- A stream that ends with a newline is its tokens, each followed by a newline. -/
theorem joinTokens_splitTokens (input : Bytes) (hend : input.getLast? = some 10) :
    joinTokens (splitTokens input) = input := by
  obtain ⟨toks, tail, hl, hno, htail⟩ := exists_joinTokens input
  have ht : tail = [] := by
    by_contra hne
    rw [hl, List.getLast?_append_of_ne_nil _ hne] at hend
    exact htail (List.mem_of_getLast?_eq_some hend)
  subst ht
  rw [List.append_nil] at hl
  rw [hl, splitTokens_joinTokens toks hno]

theorem joinTokens_getLast? (toks : List Bytes) (hne : toks ≠ []) :
    (joinTokens toks).getLast? = some 10 := by
  rcases List.eq_nil_or_concat toks with hnil | ⟨ts, t, hts⟩
  · exact absurd hnil hne
  · rw [List.concat_eq_append] at hts
    rw [hts, joinTokens_concat, List.getLast?_concat]

/-- No buffer is built from the empty input. -/
theorem NewBuffer_nil (size : Int) (b : buffer) (trimmed : Bytes) :
    NewBuffer [] size ≠ .ok (b, trimmed) := by
  intro h
  obtain ⟨_, _, toks, hne, _, _, hfill, _⟩ := NewBuffer_spec [] size b trimmed h
  rw [List.take_nil] at hfill
  have h1 := (List.append_eq_nil.1 hfill.symm).1
  cases toks with
  | nil => exact hne rfl
  | cons t ts =>
    rw [joinTokens_cons] at h1
    simp at h1

/-- Below 4 GiB, sorting what a sort has written changes nothing: the slices drained
from a buffer, written one after the other, make an input from which `NewBuffer`
(with a size that holds it, within the maximum) builds a buffer with nothing
trimmed, and draining that buffer returns the same slices. -/
theorem drainSort_twice 
    (srt : (info → info → Option Bool) → List info → Option (List info))
    (hsrt : PanicSortContract srt) (r : Bytes) (size p : Int) (b : buffer) (trimmed : Bytes)
    (h : NewBuffer r size = .ok (b, trimmed)) (hlen : b.data.length < 2 ^ 32) :
    ∃ out, drainSort srt b p = .ok out ∧ out.flatten.length = b.data.length ∧
      ∀ (size2 q : Int), (out.flatten.length : Int) ≤ size2 → size2 ≤ maxBufferSize →
        ∃ b2, NewBuffer out.flatten size2 = .ok (b2, []) ∧ b2.data = out.flatten ∧
          drainSort srt b2 q = .ok out := by
  obtain ⟨out, ho, hop, hos, hne, hj⟩ := drainSort_prefix srt hsrt r size p b trimmed h hlen
  have hel : ∀ s ∈ out, ∃ t, 10 ∉ t ∧ s = t ++ [10] := by
    intro s hs
    obtain ⟨t, ht, hts⟩ := List.mem_map.1 (hop.subset hs)
    exact ⟨t, splitTokens_no_delim b.data t ht, hts.symm⟩
  have hout : out = (out.map List.dropLast).map (fun t => t ++ [10]) := by
    rw [List.map_map]
    conv_lhs => rw [← List.map_id out]
    apply List.map_congr_left
    intro s hs
    obtain ⟨t, _, hts⟩ := hel s hs
    simp [hts]
  have hno1 : ∀ t ∈ out.map List.dropLast, 10 ∉ t := by
    intro t ht
    obtain ⟨s, hs, hst⟩ := List.mem_map.1 ht
    obtain ⟨u, hu, hsu⟩ := hel s hs
    rw [← hst, hsu]
    simpa using hu
  have hflat : out.flatten = joinTokens (out.map List.dropLast) := by
    conv_lhs => rw [hout]
    exact flatten_map_append_delim _
  have hne1 : out.map List.dropLast ≠ [] := by
    intro e
    have h1 := hop.length_eq
    rw [List.map_eq_nil_iff.1 e] at h1
    simp only [List.length_nil, List.length_map] at h1
    exact hne (List.length_eq_zero.1 h1.symm)
  have hlen1 : out.flatten.length = b.data.length := by
    rw [hop.flatten.length_eq, flatten_map_append_delim, hj]
  refine ⟨out, ho, hlen1, ?_⟩
  intro size2 q hsz hmax
  obtain ⟨b2, hb2, hd2⟩ := NewBuffer_terminated out.flatten size2 hsz hmax
    (by rw [hflat]; exact joinTokens_getLast? _ hne1)
  have hsp : splitTokens b2.data = out.map List.dropLast := by
    rw [hd2, hflat, splitTokens_joinTokens _ hno1]
  have hs2 : SortedTokens ((splitTokens b2.data).map (fun t => t ++ [10])) := by
    rw [hsp, ← hout]
    exact hos
  have := (drainSort_of_sorted srt hsrt out.flatten size2 q b2 [] hb2
    (by rw [hd2, hlen1]; exact hlen) hs2).1
  rw [hsp, ← hout] at this
  exact ⟨b2, hb2, hd2, this⟩

/-! ## The error of the line scanner -/

theorem bufio.errLoop_fuel_succ (fuel : Nat) :
    ∀ rest : Bytes, rest.length < fuel →
      bufio.errLoop (fuel + 1) rest = bufio.errLoop fuel rest := by
  induction fuel with
  | zero => intro rest h; omega
  | succ fuel ih =>
    intro rest h
    rw [bufio.errLoop]
    conv_rhs => rw [bufio.errLoop]
    cases hs : bufio.Scan rest with
    | none => rfl
    | some p =>
      obtain ⟨token, rest1⟩ := p
      simp only []
      have := bufio.Scan_length rest token rest1 hs
      rw [ih rest1 (by omega)]

theorem bufio.errLoop_fuel (fuel : Nat) (rest : Bytes) (h : rest.length < fuel) :
    bufio.errLoop fuel rest = bufio.errLoop (rest.length + 1) rest := by
  induction fuel with
  | zero => omega
  | succ fuel ih =>
    by_cases he : rest.length = fuel
    · rw [he]
    · rw [bufio.errLoop_fuel_succ fuel rest (by omega)]
      exact ih (by omega)

/-- The fuel of `bufio.Scanner.Err` is enough: the error is the one left by the first
`Scan` that returns false. -/
theorem bufio.Scanner.Err_eq (rest : Bytes) :
    bufio.Scanner.Err rest =
      match bufio.Scan rest with
      | some (_, rest1) => bufio.Scanner.Err rest1
      | none => bufio.scanErr rest := by
  unfold bufio.Scanner.Err
  rw [bufio.errLoop]
  cases hs : bufio.Scan rest with
  | none => rfl
  | some p =>
    obtain ⟨token, rest1⟩ := p
    simp only []
    have := bufio.Scan_length rest token rest1 hs
    exact bufio.errLoop_fuel rest.length rest1 this

/-- A line that fills the scanner's buffer without a newline: `Scan` returns false. -/
theorem bufio.Scan_too_long (line tail : Bytes) (hline : line.length = bufio.MaxScanTokenSize)
    (hno : 10 ∉ line) : bufio.Scan (line ++ tail) = none := by
  unfold bufio.Scan bufio.ScanLines
  rw [List.take_left' hline, bytes.IndexByte_none line 10 hno]
  have h1 : ¬ line.length + tail.length < bufio.MaxScanTokenSize := by omega
  have h2 : line.length ≠ 0 := by rw [hline]; decide
  simp [h1, h2]

/-- A reader that starts with such a line: the scanner returns no token and ends with
`ErrTooLong`, and the chunker sends neither a chunk nor an error for it, as it
does for an empty reader. -/
theorem NewChunker.too_long (line tail : Bytes) (hline : line.length = bufio.MaxScanTokenSize)
    (hno : 10 ∉ line) (chunkSize bufferSize : Nat) :
    bufio.NewScanner (line ++ tail) = [] ∧
    bufio.Scanner.Err (line ++ tail) = some .ErrTooLong ∧
    NewChunker chunkSize bufferSize [line ++ tail] = { out := [], errs := [] } := by
  have hs := bufio.Scan_too_long line tail hline hno
  have hn : bufio.NewScanner (line ++ tail) = [] := by
    rw [bufio.NewScanner_eq, hs]
  refine ⟨hn, ?_, ?_⟩
  · rw [bufio.Scanner.Err_eq, hs]
    unfold bufio.scanErr
    rw [if_neg (by rw [List.length_append]; omega)]
  · unfold NewChunker
    rw [NewChunker.readersLoop, hn]
    rfl

/-! ## The claims on the index, on `NewBuffer` and on the line scanner -/

/-- C11: for a 32-bit offset `o` and a 32-bit length `l`, `newInfo(o, l)` is the word
`(o << 32) | l`, it fits 64 bits, and `offset()` and `len()` give back `o` and `l`. -/
theorem C11_info_round_trip (o l : Nat) (ho : o < 2 ^ 32) (hl : l < 2 ^ 32) :
    newInfo o l = (o <<< 32) ||| l ∧ newInfo o l < 2 ^ 64 ∧
    info.offset (newInfo o l) = o ∧ info.len (newInfo o l) = l := by
  have hlt : newInfo o l < 2 ^ 64 := Nat.mod_lt _ (by norm_num)
  refine ⟨?_, hlt, info.offset_newInfo o l ho hl, info.len_newInfo o l ho hl⟩
  have h1 := newInfo_eq o l ho hl
  rw [h1, Nat.shiftLeft_eq, Nat.mul_comm, ← Nat.mul_add_lt_is_or hl]

/-- C11 (witness): the largest offset and the largest length. -/
theorem C11_info_round_trip_witness :
    newInfo 4294967295 4294967295 = (4294967295 <<< 32) ||| 4294967295 ∧
    newInfo 4294967295 4294967295 < 2 ^ 64 ∧
    info.offset (newInfo 4294967295 4294967295) = 4294967295 ∧
    info.len (newInfo 4294967295 4294967295) = 4294967295 :=
  C11_info_round_trip 4294967295 4294967295 (by norm_num) (by norm_num)

/-- C12 (the code at the failing input): for `size = 4294967296` and an input of
4294967295 bytes `a` and one newline, `NewBuffer` returns a buffer whose populated
prefix is the whole input and whose only index entry has offset 0 and length 0: its
slice is empty, so it has no last byte `0x0A`, and the slices of the index do not
make up the populated prefix. -/
theorem C12_index_at_max_size :
    NewBuffer (List.replicate 4294967295 97 ++ [10]) 4294967296 =
      .ok ({ data := List.replicate 4294967295 97 ++ [10], infos := [0] }, []) ∧
    info.offset 0 = 0 ∧ info.len 0 = 0 ∧
    info.slice (List.replicate 4294967295 97 ++ [10]) 0 = some [] ∧
    ([0] : List info).map (info.slice (List.replicate 4294967295 97 ++ [10])) =
      ([[]] : List Bytes).map some ∧
    ([[]] : List Bytes).flatten ≠ List.replicate 4294967295 97 ++ [10] := by
  obtain ⟨ho, hl, hslice⟩ := info.slice_zero (List.replicate 4294967295 97 ++ [10])
  refine ⟨(drainSort_at_max_size insertionSortBy? insertionSortBy_panic_contract
      (List.replicate 4294967295 97)
      (fun h => absurd (List.eq_of_mem_replicate h) (by decide)) (List.length_replicate _ _) 1).1,
    ho, hl, hslice, ?_, ?_⟩
  · rw [List.map_cons, List.map_nil, hslice]
    rfl
  · exact fun h => List.append_ne_nil_of_right_ne_nil _ (List.cons_ne_nil 10 []) h.symm

/-- C13: when `NewBuffer` succeeds, the fill (the first `min(size, len(input))` bytes of
the input) is the populated prefix followed by `trimmed`; the populated prefix ends
with `0x0A` and `trimmed` holds no `0x0A`, so `trimmed` is what follows the last
`0x0A` of the fill, and it is the empty slice when the fill ends with `0x0A`. -/
theorem C13_trimmed_after_last_delim (r : Bytes) (size : Int) (b : buffer) (trimmed : Bytes)
    (h : NewBuffer r size = .ok (b, trimmed)) :
    (r.take size.toNat).length = min size.toNat r.length ∧
    (∃ pre, r.take size.toNat = pre ++ 10 :: trimmed ∧ b.data = pre ++ [10]) ∧
    10 ∉ trimmed ∧ b.data.getLast? = some 10 ∧ b.data ++ trimmed = r.take size.toNat ∧
    ((r.take size.toNat).getLast? = some 10 → trimmed = []) := by
  obtain ⟨h0, hmax, _⟩ := NewBuffer_spec r size b trimmed h
  rcases NewBuffer_cases r size h0 (by unfold maxBufferSize; omega) with ⟨_, he⟩ | ⟨pre, tail, hfill, htail, hok⟩
  · rw [he] at h
    simp at h
  · rw [hok] at h
    simp only [Except.ok.injEq, Prod.mk.injEq] at h
    obtain ⟨hb, ht⟩ := h
    subst ht
    subst hb
    refine ⟨List.length_take _ _, ⟨pre, hfill, rfl⟩, htail, by simp, by simp [hfill], ?_⟩
    intro hlast
    by_contra hne
    obtain ⟨x, xs, hx⟩ := List.exists_cons_of_ne_nil hne
    rw [hfill, List.getLast?_append_cons, hx, List.getLast?_cons_cons, ← hx] at hlast
    exact htail (List.mem_of_getLast?_eq_some hlast)

/-- C13 (witness): the fill `"a\nb\nc\n123..."` of the test `partial_token_read`. -/
theorem C13_trimmed_after_last_delim_witness :
    (List.take (12 : Int).toNat [97, 10, 98, 10, 99, 10, 49, 50, 51, 46, 46, 46]).length =
      min (12 : Int).toNat [97, 10, 98, 10, 99, 10, 49, 50, 51, 46, 46, 46].length ∧
    (∃ pre, List.take (12 : Int).toNat [97, 10, 98, 10, 99, 10, 49, 50, 51, 46, 46, 46] =
        pre ++ 10 :: [49, 50, 51, 46, 46, 46] ∧
      ({ data := [97, 10, 98, 10, 99, 10],
         infos := [newInfo 0 2, newInfo 2 2, newInfo 4 2] } : buffer).data = pre ++ [10]) ∧
    10 ∉ [49, 50, 51, 46, 46, 46] ∧
    ({ data := [97, 10, 98, 10, 99, 10],
       infos := [newInfo 0 2, newInfo 2 2, newInfo 4 2] } : buffer).data.getLast? = some 10 ∧
    ({ data := [97, 10, 98, 10, 99, 10],
       infos := [newInfo 0 2, newInfo 2 2, newInfo 4 2] } : buffer).data ++
        [49, 50, 51, 46, 46, 46] =
      List.take (12 : Int).toNat [97, 10, 98, 10, 99, 10, 49, 50, 51, 46, 46, 46] ∧
    ((List.take (12 : Int).toNat [97, 10, 98, 10, 99, 10, 49, 50, 51, 46, 46, 46]).getLast? =
        some 10 → [49, 50, 51, 46, 46, 46] = ([] : Bytes)) :=
  C13_trimmed_after_last_delim [97, 10, 98, 10, 99, 10, 49, 50, 51, 46, 46, 46] 12
    { data := [97, 10, 98, 10, 99, 10], infos := [newInfo 0 2, newInfo 2 2, newInfo 4 2] }
    [49, 50, 51, 46, 46, 46] rfl

/-- C14: for a size from 0 to the maximum `NewBuffer` allows, `NewBuffer` fails with
`ErrorTokenDelimiterNotFound` exactly when the fill (the first `min(size, len(input))`
bytes of the input) holds no `0x0A`; the failure carries neither buffer nor trimmed
bytes, and a fill that holds a `0x0A` gives a buffer. -/
theorem C14_delimiter_not_found (r : Bytes) (size : Int) (h0 : 0 ≤ size)
    (hmax : size ≤ maxBufferSize) :
    (NewBuffer r size = .error .ErrorTokenDelimiterNotFound ↔ 10 ∉ r.take size.toNat) ∧
    (10 ∈ r.take size.toNat ↔ ∃ b trimmed, NewBuffer r size = .ok (b, trimmed)) ∧
    (r.take size.toNat).length = min size.toNat r.length := by
  refine ⟨?_, ?_, List.length_take _ _⟩
  · rcases NewBuffer_cases r size h0 hmax with ⟨hno, he⟩ | ⟨pre, tail, hfill, _, hok⟩
    · exact ⟨fun _ => hno, fun _ => he⟩
    · constructor
      · intro he
        rw [hok] at he
        simp at he
      · intro hno
        exact absurd (by rw [hfill]; simp) hno
  · rcases NewBuffer_cases r size h0 hmax with ⟨hno, he⟩ | ⟨pre, tail, hfill, _, hok⟩
    · constructor
      · intro hin
        exact absurd hin hno
      · rintro ⟨b, trimmed, hok⟩
        rw [he] at hok
        simp at hok
    · exact ⟨fun _ => ⟨_, _, hok⟩, fun _ => by rw [hfill]; simp⟩

/-- C14 (witness): the input `"0123456789..."` with `size = 6` of the test
`no_token_delimiter`. -/
theorem C14_delimiter_not_found_witness :
    (NewBuffer [48, 49, 50, 51, 52, 53, 54, 55, 56, 57, 46, 46, 46] 6 =
        .error .ErrorTokenDelimiterNotFound ↔
      10 ∉ List.take (6 : Int).toNat [48, 49, 50, 51, 52, 53, 54, 55, 56, 57, 46, 46, 46]) ∧
    (10 ∈ List.take (6 : Int).toNat [48, 49, 50, 51, 52, 53, 54, 55, 56, 57, 46, 46, 46] ↔
      ∃ b trimmed, NewBuffer [48, 49, 50, 51, 52, 53, 54, 55, 56, 57, 46, 46, 46] 6 =
        .ok (b, trimmed)) ∧
    (List.take (6 : Int).toNat [48, 49, 50, 51, 52, 53, 54, 55, 56, 57, 46, 46, 46]).length =
      min (6 : Int).toNat [48, 49, 50, 51, 52, 53, 54, 55, 56, 57, 46, 46, 46].length :=
  C14_delimiter_not_found [48, 49, 50, 51, 52, 53, 54, 55, 56, 57, 46, 46, 46] 6
    (by decide) (by decide)

/-- C15 (the code at the failing input): on the empty input `NewBuffer` returns
`ErrorTokenDelimiterNotFound` for `size = 1024`, and no size gives a buffer; the
external path on the same input sends no chunk and no error, and `Merge` over no
run writes nothing and returns nil. -/
theorem C15_empty_input_rejected :
    NewBuffer [] 1024 = .error .ErrorTokenDelimiterNotFound ∧
    (∀ (size : Int) (b : buffer) (trimmed : Bytes), NewBuffer [] size ≠ .ok (b, trimmed)) ∧
    NewChunker 10 1 [[]] = { out := [], errs := [] } ∧
    runSort.pipeline insertionSortBy id 10 1 [] = some { written := [], err := none } := by
  exact ⟨rfl, fun size b trimmed => NewBuffer_nil size b trimmed, by decide, by decide⟩

/-- C16 (the code at the failing input): `NewBuffer` returns `ErrorBufferSizeTooBig`
exactly for the sizes above 4294967296, so `size = 4294967296` is accepted: on the
input `"a\n"` it returns a buffer. -/
theorem C16_max_size_accepted :
    (∀ (r : Bytes) (size : Int),
      NewBuffer r size = .error .ErrorBufferSizeTooBig ↔ 4294967296 < size) ∧
    NewBuffer [97, 10] 4294967296 = .ok ({ data := [97, 10], infos := [newInfo 0 2] }, []) := by
  constructor
  · intro r size
    constructor
    · intro h
      by_contra hle
      by_cases h0 : 0 ≤ size
      · rcases NewBuffer_cases r size h0 (by unfold maxBufferSize; omega) with
          ⟨_, he⟩ | ⟨_, _, _, _, hok⟩
        · rw [he] at h
          simp at h
        · rw [hok] at h
          simp at h
      · unfold NewBuffer at h
        rw [if_neg (by unfold maxBufferSize; omega), if_pos (by omega)] at h
        simp at h
    · intro h
      unfold NewBuffer
      rw [if_pos (by unfold maxBufferSize; omega)]
  · rfl

/-- C17 (the code at the failing input): the input `"a\r\n"` has the one token `"a\r"`;
the scanner of the chunker and of `Merge` returns `"a"`, so the chunk sent is
`["a"]` and the step `Merge` writes holds `"a"`. -/
theorem C17_cr_stripped :
    splitTokens [97, 13, 10] = [[97, 13]] ∧
    bufio.NewScanner [97, 13, 10] = [[97]] ∧
    NewChunker 10 1 [[97, 13, 10]] = { out := [[[97]]], errs := [] } ∧
    Merge.steps [[97, 13, 10]] = some [{ srcIdx := 0, token := [97] }] := by
  decide

/-- C18 (the code at the failing input): for `size = 4294967296` the fill of 4294967295
bytes `a` and one newline ends with `0x0A` and gives a buffer; draining its `Sort`
returns one empty slice, so what the first sort writes is empty, and from the empty
input `NewBuffer` builds no buffer, whatever the size. -/
theorem C18_second_sort_at_max_size :
    NewBuffer (List.replicate 4294967295 97 ++ [10]) 4294967296 =
      .ok ({ data := List.replicate 4294967295 97 ++ [10], infos := [0] }, []) ∧
    (List.replicate 4294967295 97 ++ [10]).getLast? = some 10 ∧
    drainSort insertionSortBy?
      { data := List.replicate 4294967295 97 ++ [10], infos := [0] } 1 = .ok [[]] ∧
    ∀ (size2 : Int) (b2 : buffer) (trimmed2 : Bytes),
      NewBuffer ([[]] : List Bytes).flatten size2 ≠ .ok (b2, trimmed2) := by
  obtain ⟨h1, h2, _⟩ := drainSort_at_max_size insertionSortBy? insertionSortBy_panic_contract
    (List.replicate 4294967295 97)
    (fun h => absurd (List.eq_of_mem_replicate h) (by decide)) (List.length_replicate _ _) 1
  exact ⟨h1, List.getLast?_concat _, h2, fun size2 b2 trimmed2 => NewBuffer_nil size2 b2 trimmed2⟩

/-- C19 (counterexample): the input `"a\na\t\n"` ends with a newline and its payloads
`"a"`, `"a\t"` are in non-decreasing order; `NewBuffer` with the size of the input
and `Sort(1)` drain `"a\t\n"` before `"a\n"`, which is not the input. -/
theorem C19_counterexample :
    ([97, 10, 97, 9, 10] : Bytes).getLast? = some 10 ∧
    splitTokens [97, 10, 97, 9, 10] = [[97], [97, 9]] ∧
    SortedTokens (splitTokens [97, 10, 97, 9, 10]) ∧
    NewBuffer [97, 10, 97, 9, 10] 5 =
      .ok ({ data := [97, 10, 97, 9, 10], infos := [newInfo 0 2, newInfo 2 3] }, []) ∧
    drainSort insertionSortBy?
      { data := [97, 10, 97, 9, 10], infos := [newInfo 0 2, newInfo 2 3] } 1 =
      .ok [[97, 9, 10], [97, 10]] ∧
    ([[97, 9, 10], [97, 10]] : List Bytes).flatten ≠ [97, 10, 97, 9, 10] :=
  ⟨by decide, by decide, by decide, rfl, rfl, by decide⟩

/-- C19 (amended): for every input shorter than 4 GiB that ends with a newline and
whose tokens are in non-decreasing byte-wise order when compared with their
trailing `0x0A` included (as they are when the payloads are in non-decreasing order
and hold no byte below `0x0B`), and for every `parallel`,
`NewBuffer(input, len(input))` gives a buffer with nothing trimmed, and the slices
drained from its `Sort(parallel)`, one after the other, are the input byte for
byte. -/
theorem C19_sorted_input_unchanged
    (srt : (info → info → Option Bool) → List info → Option (List info))
    (hsrt : PanicSortContract srt) (input : Bytes) (parallel : Int)
    (hend : input.getLast? = some 10) (hlen : input.length < 2 ^ 32)
    (hsorted : SortedTokens ((splitTokens input).map (fun t => t ++ [10])) ∨
      (SortedTokens (splitTokens input) ∧ ∀ t ∈ splitTokens input, ∀ x ∈ t, 10 < x)) :
    ∃ b out, NewBuffer input input.length = .ok (b, []) ∧
      drainSort srt b parallel = .ok out ∧ out.flatten = input := by
  obtain ⟨b, hb, hd⟩ := NewBuffer_terminated input input.length (le_refl _)
    (by unfold maxBufferSize; omega) hend
  have hs : SortedTokens ((splitTokens b.data).map (fun t => t ++ [10])) := by
    rw [hd]
    rcases hsorted with h1 | ⟨h1, h2⟩
    · exact h1
    · exact SortedTokens_append_delim _ h2 h1
  obtain ⟨h1, h2⟩ := drainSort_of_sorted srt hsrt input input.length parallel b [] hb
    (by rw [hd]; exact hlen) hs
  exact ⟨b, _, hb, h1, by rw [h2, hd]⟩

/-- C19 (witness): the input `"a\t\na\nab\n"`, in order with the delimiter included,
with `Sort(2)`. -/
theorem C19_sorted_input_unchanged_witness :
    ∃ b out, NewBuffer [97, 9, 10, 97, 10, 97, 98, 10]
        (([97, 9, 10, 97, 10, 97, 98, 10] : Bytes).length : Int) = .ok (b, []) ∧
      drainSort insertionSortBy? b 2 = .ok out ∧
      out.flatten = [97, 9, 10, 97, 10, 97, 98, 10] :=
  C19_sorted_input_unchanged insertionSortBy? insertionSortBy_panic_contract
    [97, 9, 10, 97, 10, 97, 98, 10] 2 (by decide) (by decide) (Or.inl (by decide))

/-- C20 (the code at the failing input): the reader delivers a line of 65536 bytes `a`,
a newline and the line `"b"`. The line scanner ends with `ErrTooLong` before it has
returned a token; the chunker sends no chunk and no error, for any chunk size,
which is what it sends for an empty reader. -/
theorem C20_scan_error_not_sent :
    bufio.Scanner.Err (List.replicate 65536 97 ++ [10, 98, 10]) = some .ErrTooLong ∧
    (∀ chunkSize bufferSize : Nat,
      NewChunker chunkSize bufferSize [List.replicate 65536 97 ++ [10, 98, 10]] =
        { out := [], errs := [] }) ∧
    (∀ chunkSize bufferSize : Nat,
      NewChunker chunkSize bufferSize [[]] = { out := [], errs := [] }) ∧
    bufio.Scanner.Err [] = none := by
  have hno : 10 ∉ List.replicate 65536 97 :=
    fun h => absurd (List.eq_of_mem_replicate h) (by decide)
  have hlen : (List.replicate 65536 97).length = bufio.MaxScanTokenSize :=
    List.length_replicate _ _
  exact ⟨(NewChunker.too_long _ [10, 98, 10] hlen hno 0 0).2.1,
    fun chunkSize bufferSize => (NewChunker.too_long _ [10, 98, 10] hlen hno chunkSize bufferSize).2.2,
    fun _ _ => rfl, rfl⟩

/-! ## `Merge` on a source whose scanner fails -/

/-- A source with the line `"a"` and then a line that fills the scanner's buffer: the
scanner returns `"a"` and ends with `ErrTooLong`; `Merge` writes `"a\n"` and returns
nil. -/
theorem Merge.source_too_long (line tail : Bytes) (hline : line.length = bufio.MaxScanTokenSize)
    (hno : 10 ∉ line) :
    bufio.NewScanner (97 :: 10 :: (line ++ tail)) = [[97]] ∧
    bufio.Scanner.Err (97 :: 10 :: (line ++ tail)) = some .ErrTooLong ∧
    Merge [97 :: 10 :: (line ++ tail)] = some { written := [97, 10], err := none } := by
  have hs : bufio.Scan (97 :: 10 :: (line ++ tail)) = some ([97], line ++ tail) :=
    bufio.Scan_line [97] (line ++ tail) (by decide) (by decide)
  obtain ⟨hn0, he0, _⟩ := NewChunker.too_long line tail hline hno 0 0
  have hn : bufio.NewScanner (97 :: 10 :: (line ++ tail)) = [[97]] := by
    rw [bufio.NewScanner_eq, hs]
    simp only [hn0]
  refine ⟨hn, ?_, ?_⟩
  · rw [bufio.Scanner.Err_eq, hs]
    exact he0
  · unfold Merge Merge.steps
    simp only [List.map_cons, List.map_nil, hn]
    decide

/-! ## The sizing arithmetic of the driver -/

/-- With at least two bytes of buffer per sorter the sizing arithmetic is well defined:
no division by zero, no wrap of the subtraction, and the chunks held by the channel
and by the sorters fit the buffer. With less, the second division divides by
zero. -/
theorem runSort.sizing_spec (bufferSize numSorters : Nat) (hn : 1 ≤ numSorters)
    (hb : bufferSize < 2 ^ 64) :
    (bufferSize < 2 * numSorters → runSort.sizing bufferSize numSorters = none) ∧
    (2 * numSorters ≤ bufferSize →
      ∃ chunkSize totalChunks channelBufferSize,
        runSort.sizing bufferSize numSorters = some (chunkSize, totalChunks, channelBufferSize) ∧
        chunkSize = bufferSize / numSorters / 2 ∧ 1 ≤ chunkSize ∧
        totalChunks = bufferSize / chunkSize ∧ 2 * numSorters ≤ totalChunks ∧
        channelBufferSize + numSorters = totalChunks ∧
        chunkSize * (channelBufferSize + numSorters) ≤ bufferSize) := by
  have hdiv : bufferSize / numSorters / 2 = bufferSize / (2 * numSorters) := by
    rw [Nat.div_div_eq_div_mul, Nat.mul_comm]
  constructor
  · intro hlt
    unfold runSort.sizing
    rw [if_neg (by omega)]
    simp only []
    rw [if_pos (by rw [hdiv]; exact Nat.div_eq_of_lt hlt)]
  · intro hge
    have hc1 : 1 ≤ bufferSize / numSorters / 2 := by
      rw [hdiv]
      exact (Nat.le_div_iff_mul_le (by omega)).2 (by omega)
    have hcle : bufferSize / numSorters / 2 * (2 * numSorters) ≤ bufferSize := by
      rw [hdiv]
      exact Nat.div_mul_le_self _ _
    have ht : 2 * numSorters ≤ bufferSize / (bufferSize / numSorters / 2) := by
      apply (Nat.le_div_iff_mul_le (by omega)).2
      rw [Nat.mul_comm]
      exact hcle
    have htb : bufferSize / (bufferSize / numSorters / 2) ≤ bufferSize := Nat.div_le_self _ _
    refine ⟨bufferSize / numSorters / 2, bufferSize / (bufferSize / numSorters / 2),
      (bufferSize / (bufferSize / numSorters / 2) + 2 ^ 64 - numSorters % 2 ^ 64) % 2 ^ 64,
      ?_, rfl, hc1, rfl, ht, ?_, ?_⟩
    · unfold runSort.sizing
      rw [if_neg (by omega)]
      simp only []
      rw [if_neg (by omega)]
    · omega
    · have : (bufferSize / (bufferSize / numSorters / 2) + 2 ^ 64 - numSorters % 2 ^ 64) % 2 ^ 64 +
          numSorters = bufferSize / (bufferSize / numSorters / 2) := by omega
      rw [this]
      exact Nat.mul_div_le _ _

/-! ## The partitions of `Sort` -/

/-- The partitions `Sort` hands to its goroutines and then to `heap.Init` are those of
`buffer.splits`. -/
theorem buffer.Sort_eq
    (srt : (info → info → Option Bool) → List info → Option (List info))
    (b : buffer) (parallel : Int) :
    buffer.Sort srt b parallel =
      match buffer.sortSplits srt b.data (buffer.splits b parallel) with
      | none => none
      | some splits =>
        match heap.Init? (splitHeap.Less b.data) splits with
        | none => none
        | some hp => some { data := b.data, heap := hp } :=
  rfl

/-- The reduction loop stops at the largest count, from the clamped one down, that
leaves `minSplitSize` entries to a partition, or at 1. -/
theorem buffer.reduceParallel_spec (len : Nat) :
    ∀ c, 1 ≤ c →
      buffer.reduceParallel len c ≤ c ∧
      (1 < buffer.reduceParallel len c → minSplitSize ≤ len / buffer.reduceParallel len c) ∧
      ∀ q, buffer.reduceParallel len c < q → q ≤ c → len / q < minSplitSize := by
  intro c
  induction c with
  | zero => intro h; omega
  | succ c ih =>
    intro _
    cases c with
    | zero =>
      simp only [buffer.reduceParallel]
      refine ⟨le_refl _, fun h => absurd h (by omega), fun q h1 h2 => by omega⟩
    | succ c =>
      simp only [buffer.reduceParallel]
      split
      · rename_i hlt
        obtain ⟨h1, h2, h3⟩ := ih (by omega)
        refine ⟨by omega, h2, ?_⟩
        intro q hq hqc
        by_cases hqe : q = c + 2
        · rw [hqe]; exact hlt
        · exact h3 q hq (by omega)
      · rename_i hge
        refine ⟨le_refl _, fun _ => by omega, fun q h1 h2 => by omega⟩

/-- The partitions cut by the loop, position by position: `n` entries each, and the
last one everything from `(parallel - 1) * n` on. -/
theorem buffer.splitsLoop_getElem? (infos : List info) (parallel n : Nat) (hn : 1 ≤ n)
    (hlen : parallel * n ≤ infos.length) (k : Nat) :
    ∀ i, i + (k + 1) = parallel → ∀ m,
      (buffer.splitsLoop infos parallel n (k + 1) i)[m]? =
        if m < k then some ((infos.drop ((i + m) * n)).take n)
        else if m = k then some (infos.drop ((parallel - 1) * n)) else none := by
  induction k with
  | zero =>
    intro i hi m
    have hlast : ¬ i < parallel - 1 := by omega
    have hi1 : i = parallel - 1 := by omega
    have hle : (parallel - 1) * n + n ≤ infos.length := by
      have : (parallel - 1) * n + n = parallel * n := by
        rw [← Nat.succ_mul]; congr 1; omega
      omega
    simp only [buffer.splitsLoop, if_neg hlast]
    rw [if_pos (by rw [List.length_drop, hi1]; omega)]
    cases m with
    | zero => simp [hi1]
    | succ m => simp
  | succ k ih =>
    intro i hi m
    have hfirst : i < parallel - 1 := by omega
    have hle : i * n + n ≤ infos.length := by
      have h1 : (i + 1) * n ≤ parallel * n := Nat.mul_le_mul_right n (by omega)
      rw [Nat.succ_mul] at h1
      omega
    have hl : ((infos.drop (i * n)).take n).length = n := by
      rw [List.length_take, List.length_drop]; omega
    have hpos : ((infos.drop (i * n)).take n).length > 0 := by rw [hl]; omega
    rw [buffer.splitsLoop]
    simp only [if_pos hfirst]
    rw [if_pos hpos]
    cases m with
    | zero => simp
    | succ m =>
      rw [List.getElem?_cons_succ, ih (i + 1) (by omega) m]
      have e : i + 1 + m = i + (m + 1) := by omega
      rw [e]
      simp only [Nat.add_lt_add_iff_right, Nat.add_right_cancel_iff]

theorem buffer.parallelOf_spec (b : buffer) (parallel : Int) :
    1 ≤ buffer.parallelOf b parallel ∧
    (buffer.parallelOf b parallel : Int) ≤ min 8 (max 1 parallel) ∧
    (1 < buffer.parallelOf b parallel →
      1024 ≤ b.infos.length / buffer.parallelOf b parallel) ∧
    ∀ q : Nat, buffer.parallelOf b parallel < q → (q : Int) ≤ min 8 (max 1 parallel) →
      b.infos.length / q < 1024 := by
  have hc : 1 ≤ (max minParallel (min maxParallel parallel)).toNat := by
    unfold minParallel maxParallel; omega
  obtain ⟨h1, h2, h3⟩ := buffer.reduceParallel_spec b.infos.length _ hc
  refine ⟨buffer.parallelOf_pos b parallel, ?_, h2, ?_⟩
  · unfold buffer.parallelOf
    unfold minParallel maxParallel at h1 ⊢
    omega
  · intro q hq hqc
    apply h3 q hq
    unfold minParallel maxParallel
    omega

/-- The partitions of a non-empty index: as many as the partition count, the first ones
of `n = len / count` entries each, the last one with all the entries from
`(count - 1) * n` on. -/
theorem buffer.splits_spec (b : buffer) (parallel : Int) (hne : b.infos ≠ []) :
    1 ≤ b.infos.length / buffer.parallelOf b parallel ∧
    (buffer.splits b parallel).length = buffer.parallelOf b parallel ∧
    (∀ m, (buffer.splits b parallel)[m]? =
      if m < buffer.parallelOf b parallel - 1 then
        some ((b.infos.drop (m * (b.infos.length / buffer.parallelOf b parallel))).take
          (b.infos.length / buffer.parallelOf b parallel))
      else if m = buffer.parallelOf b parallel - 1 then
        some (b.infos.drop ((buffer.parallelOf b parallel - 1) *
          (b.infos.length / buffer.parallelOf b parallel)))
      else none) ∧
    (b.infos.drop ((buffer.parallelOf b parallel - 1) *
        (b.infos.length / buffer.parallelOf b parallel))).length =
      b.infos.length / buffer.parallelOf b parallel +
        b.infos.length % buffer.parallelOf b parallel ∧
    ∀ s ∈ buffer.splits b parallel,
      b.infos.length / buffer.parallelOf b parallel ≤ s.length := by
  obtain ⟨hP, _, hbig, _⟩ := buffer.parallelOf_spec b parallel
  generalize hPd : buffer.parallelOf b parallel = P at hP hbig ⊢
  have hlen0 : 0 < b.infos.length := List.length_pos.2 hne
  have hn : 1 ≤ b.infos.length / P := by
    by_cases h1 : P = 1
    · rw [h1, Nat.div_one]; omega
    · have := hbig (by omega); omega
  have hmul : P * (b.infos.length / P) ≤ b.infos.length := Nat.mul_div_le _ _
  have hk : P - 1 + 1 = P := by omega
  have hget : ∀ m, (buffer.splits b parallel)[m]? =
      if m < P - 1 then some ((b.infos.drop (m * (b.infos.length / P))).take (b.infos.length / P))
      else if m = P - 1 then some (b.infos.drop ((P - 1) * (b.infos.length / P)))
      else none := by
    intro m
    have := buffer.splitsLoop_getElem? b.infos P (b.infos.length / P) hn hmul (P - 1) 0
      (by omega) m
    rw [hk, Nat.zero_add] at this
    unfold buffer.splits
    simp only [hPd]
    exact this
  have hlast : (b.infos.drop ((P - 1) * (b.infos.length / P))).length =
      b.infos.length / P + b.infos.length % P := by
    rw [List.length_drop]
    have h1 : (P - 1) * (b.infos.length / P) + b.infos.length / P = P * (b.infos.length / P) := by
      rw [← Nat.succ_mul]; congr 1
    have h2 := Nat.div_add_mod b.infos.length P
    omega
  refine ⟨hn, ?_, hget, hlast, ?_⟩
  · have h1 := hget P
    rw [if_neg (by omega), if_neg (by omega)] at h1
    have h2 := hget (P - 1)
    rw [if_neg (by omega), if_pos rfl] at h2
    have h3 := List.getElem?_eq_none_iff.1 h1
    have h4 : P - 1 < (buffer.splits b parallel).length := by
      by_contra hc
      rw [List.getElem?_eq_none (by omega)] at h2
      simp at h2
    omega
  · intro s hs
    obtain ⟨m, hm⟩ := List.mem_iff_getElem?.1 hs
    rw [hget m] at hm
    split at hm
    · rename_i hlt
      simp only [Option.some.injEq] at hm
      rw [← hm, List.length_take, List.length_drop]
      have h1 : (m + 1) * (b.infos.length / P) ≤ P * (b.infos.length / P) :=
        Nat.mul_le_mul_right _ (by omega)
      rw [Nat.succ_mul] at h1
      omega
    · split at hm
      · simp only [Option.some.injEq] at hm
        rw [← hm, hlast]
        omega
      · simp at hm

theorem buffer.splits_flatten (b : buffer) (parallel : Int) :
    (buffer.splits b parallel).flatten = b.infos ∧ ∀ s ∈ buffer.splits b parallel, s ≠ [] := by
  obtain ⟨k, hk⟩ : ∃ k, buffer.parallelOf b parallel = k + 1 :=
    ⟨buffer.parallelOf b parallel - 1, by have := buffer.parallelOf_pos b parallel; omega⟩
  obtain ⟨hflat, hne⟩ := buffer.splitsLoop_spec b.infos (buffer.parallelOf b parallel)
    (b.infos.length / buffer.parallelOf b parallel) k 0 (by omega)
  rw [← hk] at hflat hne
  simp only [Nat.zero_mul, List.drop_zero] at hflat
  exact ⟨hflat, hne⟩

/-! ## The grouping of the chunker is greedy -/

/-- The scan loop: of the chunks it sends and the chunk it holds at the end, in this
order, each starts with the token that did not fit the one before; the first of
them starts with the chunk held at the start; the chunks sent are not empty. -/
theorem NewChunker.scanLoop_greedy (chunkSize : Nat) (scanner : List Bytes) :
    ∀ (chunk : List Bytes) (currentSize : Nat),
      (chunk.map List.length).sum = currentSize →
      List.Chain' (NewChunker.Overflows chunkSize)
        ((NewChunker.scanLoop chunkSize scanner chunk currentSize).1 ++
          ((NewChunker.scanLoop chunkSize scanner chunk currentSize).2).toList) ∧
      (∀ e ∈ ((NewChunker.scanLoop chunkSize scanner chunk currentSize).1 ++
          ((NewChunker.scanLoop chunkSize scanner chunk currentSize).2).toList).head?,
        ∃ more, e = chunk ++ more) ∧
      ∀ c ∈ (NewChunker.scanLoop chunkSize scanner chunk currentSize).1, c ≠ [] := by
  induction scanner with
  | nil =>
    intro chunk currentSize _
    simp only [NewChunker.scanLoop]
    refine ⟨by simp, ?_, by simp⟩
    intro e he
    simp only [List.nil_append, Option.toList_some, List.head?_cons, Option.mem_def,
      Option.some.injEq] at he
    exact ⟨[], by rw [← he]; simp⟩
  | cons token scanner ih =>
    intro chunk currentSize hsum
    simp only [NewChunker.scanLoop]
    by_cases h1 : token.length > chunkSize
    · rw [if_pos h1]
      simp
    · rw [if_neg h1]
      by_cases h2 : currentSize + token.length ≤ chunkSize
      · rw [if_pos h2]
        obtain ⟨i1, i2, i3⟩ := ih (chunk ++ [token]) (currentSize + token.length)
          (by simp [hsum])
        refine ⟨i1, ?_, i3⟩
        intro e he
        obtain ⟨more, hm⟩ := i2 e he
        exact ⟨token :: more, by rw [hm]; simp⟩
      · rw [if_neg h2]
        obtain ⟨i1, i2, i3⟩ := ih [token] token.length (by simp)
        have hne : chunk ≠ [] := by
          intro e
          rw [e] at hsum
          simp at hsum
          omega
        refine ⟨?_, ?_, ?_⟩
        · simp only [List.cons_append]
          refine List.chain'_cons'.2 ⟨?_, i1⟩
          intro e he
          obtain ⟨more, hm⟩ := i2 e he
          exact ⟨token, more, by rw [hm]; rfl, by omega⟩
        · intro e he
          simp only [List.cons_append, List.head?_cons, Option.mem_def,
            Option.some.injEq] at he
          exact ⟨[], by rw [← he]; simp⟩
        · intro c hc
          rcases List.mem_cons.1 hc with rfl | hc
          · exact hne
          · exact i3 c hc

/-- What the producer sends for the readers is what it sends for each reader on its own,
reader after reader, up to some reader (all of them when no error is sent). -/
theorem NewChunker.readersLoop_parts (chunkSize : Nat) (readers : List Bytes) :
    ∃ k, (NewChunker.readersLoop chunkSize readers).out =
      ((readers.take k).map (fun r => (NewChunker.readersLoop chunkSize [r]).out)).flatten := by
  induction readers with
  | nil => exact ⟨0, by simp [NewChunker.readersLoop]⟩
  | cons reader readers ih =>
    obtain ⟨k, hk⟩ := ih
    cases hs : NewChunker.scanLoop chunkSize (bufio.NewScanner reader) [] 0 with
    | mk sent last =>
      cases last with
      | none =>
        refine ⟨1, ?_⟩
        simp [NewChunker.readersLoop, hs]
      | some chunk =>
        refine ⟨k + 1, ?_⟩
        simp only [NewChunker.readersLoop, hs, List.take_succ_cons, List.map_cons,
          List.flatten_cons, List.append_nil]
        rw [hk]
        simp [NewChunker.readersLoop]

/-- The chunks sent for one reader: each starts with the token that did not fit the one
before, and none is empty. -/
theorem NewChunker.reader_greedy (chunkSize : Nat) (reader : Bytes) :
    List.Chain' (NewChunker.Overflows chunkSize) (NewChunker.readersLoop chunkSize [reader]).out ∧
    ∀ c ∈ (NewChunker.readersLoop chunkSize [reader]).out, c ≠ [] := by
  obtain ⟨g1, _, g3⟩ := NewChunker.scanLoop_greedy chunkSize (bufio.NewScanner reader) [] 0 rfl
  cases hs : NewChunker.scanLoop chunkSize (bufio.NewScanner reader) [] 0 with
  | mk sent last =>
    rw [hs] at g1 g3
    cases last with
    | none =>
      simp only [NewChunker.readersLoop, hs]
      simp only [Option.toList_none, List.append_nil] at g1
      exact ⟨g1, g3⟩
    | some chunk =>
      simp only [NewChunker.readersLoop, hs, List.append_nil]
      simp only [Option.toList_some] at g1
      by_cases hl : chunk.length > 0
      · rw [if_pos hl]
        refine ⟨g1, ?_⟩
        intro c hc
        rcases List.mem_append.1 hc with hc | hc
        · exact g3 c hc
        · simp only [List.mem_singleton] at hc
          rw [hc]
          exact List.length_pos.1 hl
      · rw [if_neg hl]
        exact ⟨g1.left_of_append, g3⟩

/-! ## `Merge` keeps the order of each source -/

theorem Merge.fromSource_cons (i : Nat) (s : mergeStep) (w : List mergeStep) :
    Merge.fromSource i (s :: w) =
      if s.srcIdx = i then s.token :: Merge.fromSource i w else Merge.fromSource i w := by
  unfold Merge.fromSource
  by_cases h : s.srcIdx = i
  · rw [if_pos h, List.filter_cons_of_pos (by simpa using h), List.map_cons]
  · rw [if_neg h, List.filter_cons_of_neg (by simpa using h)]

theorem Merge.fromSource_perm (i : Nat) {h1 h2 : List mergeStep} (hp : h1.Perm h2) :
    (Merge.fromSource i h1).Perm (Merge.fromSource i h2) :=
  (hp.filter _).map _

/-- A heap with at most one step of the source: its rearrangements hold the same tokens
of the source in the same order. -/
theorem Merge.fromSource_eq_of_perm (i : Nat) {h1 h2 : List mergeStep} (hp : h1.Perm h2)
    (hle : (Merge.fromSource i h1).length ≤ 1) :
    Merge.fromSource i h1 = Merge.fromSource i h2 := by
  have hq := Merge.fromSource_perm i hp
  cases hl : Merge.fromSource i h1 with
  | nil =>
    rw [hl] at hq
    exact hq.nil_eq
  | cons a l =>
    rw [hl] at hle hq
    have : l = [] := List.length_eq_zero.1 (by rw [List.length_cons] at hle; omega)
    subst this
    exact List.singleton_perm.1 hq

theorem Merge.fromSource_nil_of_lt (idx : Nat) (h : List mergeStep)
    (hlt : ∀ s ∈ h, s.srcIdx < idx) : Merge.fromSource idx h = [] := by
  unfold Merge.fromSource
  rw [List.map_eq_nil_iff, List.filter_eq_nil_iff]
  intro s hs
  have := hlt s hs
  simp only [decide_eq_true_eq]
  omega

/-- Pushing the step of the next token of a source that has no step in the heap. -/
theorem Merge.push_sources (h1 h2 : List mergeStep) (sc : List (List Bytes)) (idx : Nat)
    (token : Bytes) (rest : List Bytes) (hi : sc[idx]? = some (token :: rest))
    (hperm : h2.Perm ({ srcIdx := idx, token := token } :: h1))
    (hnone : Merge.fromSource idx h1 = [])
    (hU : ∀ i, (Merge.fromSource i h1).length ≤ 1) :
    (∀ i, (Merge.fromSource i h2).length ≤ 1) ∧
    ∀ i, Merge.fromSource i h2 ++ ((sc.set idx rest)[i]?).getD [] =
      Merge.fromSource i h1 ++ (sc[i]?).getD [] := by
  have hlen : ∀ i, (Merge.fromSource i h2).length =
      (Merge.fromSource i ({ srcIdx := idx, token := token } :: h1)).length :=
    fun i => (Merge.fromSource_perm i hperm).length_eq
  have hU2 : ∀ i, (Merge.fromSource i h2).length ≤ 1 := by
    intro i
    rw [hlen i, Merge.fromSource_cons]
    by_cases hii : idx = i
    · subst hii
      simp [hnone]
    · simp only [if_neg hii]
      exact hU i
  refine ⟨hU2, ?_⟩
  intro i
  rw [Merge.fromSource_eq_of_perm i hperm (hU2 i), Merge.fromSource_cons]
  have hilt : idx < sc.length := by
    by_contra hc
    rw [List.getElem?_eq_none (by omega)] at hi
    simp at hi
  by_cases hii : idx = i
  · subst hii
    simp [hnone, hi, List.getElem?_set_self hilt]
  · simp only [if_neg hii]
    rw [List.getElem?_set_ne hii]

/-- The first loop of `Merge`: the heap gets at most one step per source, and the step
of a source together with the tokens its scanner still returns are the tokens of
the source. -/
theorem Merge.fillLoop_sources (k : Nat) :
    ∀ (idx : Nat) (h : List mergeStep) (sc : List (List Bytes)),
      (∀ s ∈ h, s.srcIdx < idx) → (∀ i, (Merge.fromSource i h).length ≤ 1) →
      (∀ s ∈ (Merge.fillLoop k idx h sc).1, s.srcIdx < idx + k) ∧
      (∀ i, (Merge.fromSource i (Merge.fillLoop k idx h sc).1).length ≤ 1) ∧
      ∀ i, Merge.fromSource i (Merge.fillLoop k idx h sc).1 ++
          (((Merge.fillLoop k idx h sc).2)[i]?).getD [] =
        Merge.fromSource i h ++ (sc[i]?).getD [] := by
  induction k with
  | zero =>
    intro idx h sc hlt hU
    exact ⟨hlt, hU, fun _ => rfl⟩
  | succ k ih =>
    intro idx h sc hlt hU
    simp only [Merge.fillLoop]
    have hskip := ih (idx + 1) h sc (fun s hs => by have := hlt s hs; omega) hU
    rw [show idx + (k + 1) = idx + 1 + k by omega]
    cases hget : sc[idx]? with
    | none => exact hskip
    | some toks =>
      cases toks with
      | nil => exact hskip
      | cons token rest =>
        simp only []
        have hp := heap.Push_perm mergeHeap.Less h { srcIdx := idx, token := token }
        obtain ⟨p1, p2⟩ := Merge.push_sources h _ sc idx token rest hget hp
          (Merge.fromSource_nil_of_lt idx h hlt) hU
        obtain ⟨i1, i2, i3⟩ := ih (idx + 1) _ (sc.set idx rest)
          (by
            intro s hs
            rcases List.mem_cons.1 (hp.subset hs) with rfl | hs
            · simp
            · have := hlt s hs; omega)
          p1
        exact ⟨i1, i2, fun i => (i3 i).trans (p2 i)⟩

/-- The second loop of `Merge`: the steps written for a source are the step of the
source in the heap, if any, and then the tokens its scanner still returns, in
order. -/
theorem Merge.mainLoop_sources (fuel : Nat) :
    ∀ (h : List mergeStep) (sc : List (List Bytes)),
      heap.IsHeap mergeHeap.Less h → Merge.Covered sc.length h sc →
      (∀ i, (Merge.fromSource i h).length ≤ 1) →
      ∀ w, Merge.mainLoop fuel h sc = some w →
        ∀ i, Merge.fromSource i w = Merge.fromSource i h ++ (sc[i]?).getD [] := by
  induction fuel with
  | zero =>
    intro h sc _ _ _ w hw
    simp [Merge.mainLoop] at hw
  | succ fuel ih =>
    intro h sc hh hc hU w hw i
    simp only [Merge.mainLoop] at hw
    by_cases hlen : h.length > 0
    · rw [if_pos hlen] at hw
      obtain ⟨step, h1, hpop, hperm, hh1, _, _⟩ :=
        heap.Pop_spec mergeHeap_strictWeak h (by intro e; rw [e] at hlen; simp at hlen) hh
      rw [hpop] at hw
      simp only [] at hw
      have hsub : ∀ s ∈ h, s = step ∨ s ∈ h1 := fun s hs =>
        List.mem_cons.1 (hperm.symm.subset hs)
      have hUc : ∀ j, (Merge.fromSource j (step :: h1)).length ≤ 1 := by
        intro j
        rw [(Merge.fromSource_perm j hperm).length_eq]
        exact hU j
      have hh_eq : ∀ j, Merge.fromSource j h = Merge.fromSource j (step :: h1) :=
        fun j => (Merge.fromSource_eq_of_perm j hperm (hUc j)).symm
      have hU1 : ∀ j, (Merge.fromSource j h1).length ≤ 1 := by
        intro j
        have := hUc j
        rw [Merge.fromSource_cons] at this
        split at this
        · rw [List.length_cons] at this; omega
        · exact this
      have hnone1 : Merge.fromSource step.srcIdx h1 = [] := by
        have := hUc step.srcIdx
        rw [Merge.fromSource_cons, if_pos rfl, List.length_cons] at this
        exact List.length_eq_zero.1 (by omega)
      have hskip : (∀ token rest, sc[step.srcIdx]? ≠ some (token :: rest)) →
          ∀ w1, Merge.mainLoop fuel h1 sc = some w1 →
            Merge.fromSource i (step :: w1) = Merge.fromSource i h ++ (sc[i]?).getD [] := by
        intro hx w1 hw1
        have hc1 : Merge.Covered sc.length h1 sc := by
          intro j toks hj hget hne
          obtain ⟨s, hs, hsj⟩ := hc j toks hj hget hne
          rcases hsub s hs with rfl | hs1
          · cases toks with
            | nil => exact absurd rfl hne
            | cons t r => rw [← hsj] at hget; exact absurd hget (hx t r)
          · exact ⟨s, hs1, hsj⟩
        have := ih h1 sc hh1 hc1 hU1 w1 hw1 i
        rw [hh_eq i, Merge.fromSource_cons, Merge.fromSource_cons, this]
        split
        · rfl
        · rfl
      cases hget : sc[step.srcIdx]? with
      | none =>
        rw [hget] at hw
        simp only [Option.map_eq_some'] at hw
        obtain ⟨w1, hw1, rfl⟩ := hw
        exact hskip (by intro t r; rw [hget]; simp) w1 hw1
      | some toks =>
        cases toks with
        | nil =>
          rw [hget] at hw
          simp only [Option.map_eq_some'] at hw
          obtain ⟨w1, hw1, rfl⟩ := hw
          exact hskip (by intro t r; rw [hget]; simp) w1 hw1
        | cons token rest =>
          rw [hget] at hw
          simp only [Option.map_eq_some'] at hw
          obtain ⟨w1, hw1, rfl⟩ := hw
          have hp := heap.Push_perm mergeHeap.Less h1 { step with token := token }
          obtain ⟨a1, _, _, _⟩ := Merge.advance sc.length h1 _ sc step.srcIdx token rest hget hp
            (by
              intro j toks hj hji hg hne
              obtain ⟨s, hs, hsj⟩ := hc j toks hj hg hne
              rcases hsub s hs with rfl | hs1
              · exact absurd hsj (Ne.symm hji)
              · exact ⟨s, hs1, hsj⟩)
          obtain ⟨p1, p2⟩ := Merge.push_sources h1 _ sc step.srcIdx token rest hget hp hnone1 hU1
          have := ih _ _ (heap.Push_isHeap mergeHeap_strictWeak h1 _ hh1)
            (by rw [List.length_set]; exact a1) p1 w1 hw1 i
          rw [hh_eq i, Merge.fromSource_cons, Merge.fromSource_cons, this, p2 i]
          split
          · rfl
          · rfl
    · rw [if_neg hlen] at hw
      have hnil : h = [] := List.length_eq_zero.1 (by omega)
      subst hnil
      simp only [Option.some.injEq] at hw
      subst hw
      have hempty : (sc[i]?).getD [] = [] := by
        cases hget : sc[i]? with
        | none => rfl
        | some toks =>
          have hi : i < sc.length := by
            by_contra hge
            rw [List.getElem?_eq_none (by omega)] at hget
            simp at hget
          simp only [Option.getD_some]
          by_contra hne
          obtain ⟨s, hs, _⟩ := hc i toks hi hget hne
          simp at hs
      rw [hempty]
      rfl

/-- The steps `Merge` writes, source by source: those of source `i` carry the tokens its
scanner returns, in the order it returns them. -/
theorem Merge.steps_sources (readers : List Bytes) (w : List mergeStep)
    (hw : Merge.steps readers = some w) (i : Nat) :
    Merge.fromSource i w = (((readers.map bufio.NewScanner))[i]?).getD [] := by
  unfold Merge.steps at hw
  simp only [] at hw
  obtain ⟨b1, b2, _, _, _, b6⟩ := Merge.fillLoop_spec (readers.map bufio.NewScanner).length 0 []
    (readers.map bufio.NewScanner) (heap.isHeap_nil _) (by intro i toks hi; omega)
  obtain ⟨_, f2, f3⟩ := Merge.fillLoop_sources (readers.map bufio.NewScanner).length 0 []
    (readers.map bufio.NewScanner) (by intro s hs; simp at hs)
    (by intro j; simp [Merge.fromSource])
  have := Merge.mainLoop_sources _ _ _ b1 (by rw [b6]; simpa using b2) f2 w hw i
  rw [this, f3 i]
  simp [Merge.fromSource]

/-! ## The tokens of the line scanner hold no newline -/

theorem bytes.IndexByte_take (l : Bytes) (c : Nat) :
    ∀ i, bytes.IndexByte l c = some i → c ∉ l.take i := by
  induction l with
  | nil => intro i h; simp [bytes.IndexByte] at h
  | cons x l ih =>
    intro i h
    simp only [bytes.IndexByte] at h
    by_cases hx : x = c
    · rw [if_pos hx] at h
      simp only [Option.some.injEq] at h
      rw [← h]
      simp
    · rw [if_neg hx] at h
      cases hl : bytes.IndexByte l c with
      | none => rw [hl] at h; simp at h
      | some j =>
        rw [hl] at h
        simp only [Option.map_some', Option.some.injEq] at h
        rw [← h, List.take_succ_cons]
        intro hm
        rcases List.mem_cons.1 hm with e | e
        · exact hx e.symm
        · exact ih j hl e

theorem bytes.IndexByte_eq_none (l : Bytes) (c : Nat) (h : bytes.IndexByte l c = none) :
    c ∉ l := by
  induction l with
  | nil => simp
  | cons x l ih =>
    simp only [bytes.IndexByte] at h
    by_cases hx : x = c
    · rw [if_pos hx] at h
      simp at h
    · rw [if_neg hx] at h
      intro hm
      rcases List.mem_cons.1 hm with e | e
      · exact hx e.symm
      · exact ih (by simpa using h) e

theorem bufio.dropCR_subset (t : Bytes) : ∀ x ∈ bufio.dropCR t, x ∈ t := by
  intro x hx
  unfold bufio.dropCR at hx
  split at hx
  · exact List.mem_of_mem_dropLast hx
  · exact hx

theorem bufio.Scan_no_delim (rest token rest1 : Bytes)
    (h : bufio.Scan rest = some (token, rest1)) : 10 ∉ token := by
  unfold bufio.Scan bufio.ScanLines at h
  split at h
  · rename_i advance tok heq
    simp only [Option.some.injEq, Prod.mk.injEq] at h
    rw [← h.1]
    split at heq
    · simp at heq
    · split at heq
      · rename_i i hi
        simp only [Prod.mk.injEq, Option.some.injEq] at heq
        rw [← heq.2]
        exact fun hm => bytes.IndexByte_take _ 10 i hi (bufio.dropCR_subset _ 10 hm)
      · rename_i hi
        split at heq
        · simp only [Prod.mk.injEq, Option.some.injEq] at heq
          rw [← heq.2]
          exact fun hm => bytes.IndexByte_eq_none _ 10 hi (bufio.dropCR_subset _ 10 hm)
        · simp at heq
  · simp at h

theorem bufio.NewScanner_no_delim (n : Nat) :
    ∀ r : Bytes, r.length ≤ n → ∀ t ∈ bufio.NewScanner r, 10 ∉ t := by
  induction n with
  | zero =>
    intro r hr t ht
    have : r = [] := List.length_eq_zero.1 (by omega)
    subst this
    rw [bufio.NewScanner_eq, bufio.Scan_nil] at ht
    simp at ht
  | succ n ih =>
    intro r hr t ht
    rw [bufio.NewScanner_eq] at ht
    cases hs : bufio.Scan r with
    | none => rw [hs] at ht; simp at ht
    | some p =>
      obtain ⟨token, rest1⟩ := p
      rw [hs] at ht
      simp only [List.mem_cons] at ht
      rcases ht with e | e
      · rw [e]; exact bufio.Scan_no_delim r token rest1 hs
      · have := bufio.Scan_length r token rest1 hs
        exact ih rest1 (by omega) t e

/-! ## The claims on the partitions, on the grouping of the chunker, on `Merge` and on the driver -/

/-- C21 (the code at the failing input): the one source delivers the line `"a"`, a line
of 65536 bytes `b` and the line `"c"`. Its scanner returns `"a"` and then ends with
`ErrTooLong`; `Merge` writes `"a\n"` and returns nil, exactly as for the source
`"a\n"`. -/
theorem C21_scan_error_returns_nil :
    bufio.Scanner.Err (97 :: 10 :: (List.replicate 65536 98 ++ [10, 99, 10])) =
      some .ErrTooLong ∧
    Merge [97 :: 10 :: (List.replicate 65536 98 ++ [10, 99, 10])] =
      some { written := [97, 10], err := none } ∧
    Merge [[97, 10]] = some { written := [97, 10], err := none } ∧
    bufio.Scanner.Err [97, 10] = none := by
  have hno : 10 ∉ List.replicate 65536 98 :=
    fun h => absurd (List.eq_of_mem_replicate h) (by decide)
  have hlen : (List.replicate 65536 98).length = bufio.MaxScanTokenSize :=
    List.length_replicate _ _
  obtain ⟨_, h2, h3⟩ := Merge.source_too_long _ [10, 99, 10] hlen hno
  exact ⟨h2, h3, by decide, by decide⟩

/-- C22: with `p` the partition count after clamp and reduction and `n = ⌊len/p⌋`, the
partitions `Sort` cuts are consecutive ranges of the index whose concatenation, in
order, is the whole index, and none of them is empty. For a non-empty index there
are exactly `p` of them (none is dropped): partition `i` for `i < p - 1` is the `n`
entries from position `i * n` on, and the last one is everything from position
`(p - 1) * n` on, `n + len mod p` entries. For an empty index the one partition is
empty and dropped. -/
theorem C22_partitions (b : buffer) (parallel : Int) :
    (buffer.splits b parallel).flatten = b.infos ∧
    (∀ s ∈ buffer.splits b parallel, s ≠ []) ∧
    (b.infos = [] → buffer.splits b parallel = [] ∧ buffer.parallelOf b parallel = 1) ∧
    (b.infos ≠ [] →
      (buffer.splits b parallel).length = buffer.parallelOf b parallel ∧
      (∀ i, i + 1 < buffer.parallelOf b parallel →
        (buffer.splits b parallel)[i]? =
          some ((b.infos.drop (i * (b.infos.length / buffer.parallelOf b parallel))).take
            (b.infos.length / buffer.parallelOf b parallel)) ∧
        ((b.infos.drop (i * (b.infos.length / buffer.parallelOf b parallel))).take
            (b.infos.length / buffer.parallelOf b parallel)).length =
          b.infos.length / buffer.parallelOf b parallel) ∧
      (buffer.splits b parallel)[buffer.parallelOf b parallel - 1]? =
        some (b.infos.drop ((buffer.parallelOf b parallel - 1) *
          (b.infos.length / buffer.parallelOf b parallel))) ∧
      (b.infos.drop ((buffer.parallelOf b parallel - 1) *
          (b.infos.length / buffer.parallelOf b parallel))).length =
        b.infos.length / buffer.parallelOf b parallel +
          b.infos.length % buffer.parallelOf b parallel) := by
  obtain ⟨hflat, hnonempty⟩ := buffer.splits_flatten b parallel
  refine ⟨hflat, hnonempty, ?_, ?_⟩
  · intro he
    constructor
    · cases hs : buffer.splits b parallel with
      | nil => rfl
      | cons s rest =>
        rw [hs, he] at hflat
        have : s = [] := by
          rw [List.flatten_cons] at hflat
          exact (List.append_eq_nil.1 hflat).1
        exact absurd this (hnonempty s (by rw [hs]; simp))
    · obtain ⟨h1, _, h2, _⟩ := buffer.parallelOf_spec b parallel
      by_contra hc
      have := h2 (by omega)
      rw [he] at this
      simp at this
  · intro hne
    obtain ⟨_, hlen, hget, hlast, hmin⟩ := buffer.splits_spec b parallel hne
    refine ⟨hlen, ?_, ?_, hlast⟩
    · intro i hi
      have h1 := hget i
      rw [if_pos (by omega)] at h1
      refine ⟨h1, ?_⟩
      have h2 := hmin _ (List.mem_iff_getElem?.2 ⟨i, h1⟩)
      have h3 : ((b.infos.drop (i * (b.infos.length / buffer.parallelOf b parallel))).take
          (b.infos.length / buffer.parallelOf b parallel)).length ≤
          b.infos.length / buffer.parallelOf b parallel := by
        rw [List.length_take]; exact Nat.min_le_left _ _
      omega
    · have h1 := hget (buffer.parallelOf b parallel - 1)
      rw [if_neg (by omega), if_pos rfl] at h1
      exact h1

/-- C22 (witness): the buffer of 2049 empty lines and `Sort(2)`: the partition count is
2, there are two partitions, the first holds the entries from position 0 on and the
second all the entries after them. -/
theorem C22_partitions_witness :
    buffer.parallelOf
      { data := List.replicate 2049 10, infos := entriesFrom 0 (List.replicate 2049 []) } 2 = 2 ∧
    (buffer.splits
      { data := List.replicate 2049 10, infos := entriesFrom 0 (List.replicate 2049 []) } 2).length =
      buffer.parallelOf
      { data := List.replicate 2049 10, infos := entriesFrom 0 (List.replicate 2049 []) } 2 ∧
    ((buffer.splits
      { data := List.replicate 2049 10, infos := entriesFrom 0 (List.replicate 2049 []) } 2)[0]? =
      some ((({ data := List.replicate 2049 10, infos := entriesFrom 0 (List.replicate 2049 []) } : buffer).infos.drop
        (0 * (({ data := List.replicate 2049 10, infos := entriesFrom 0 (List.replicate 2049 []) } : buffer).infos.length /
          buffer.parallelOf
      { data := List.replicate 2049 10, infos := entriesFrom 0 (List.replicate 2049 []) } 2))).take
        (({ data := List.replicate 2049 10, infos := entriesFrom 0 (List.replicate 2049 []) } : buffer).infos.length /
          buffer.parallelOf
      { data := List.replicate 2049 10, infos := entriesFrom 0 (List.replicate 2049 []) } 2)) ∧
      ((({ data := List.replicate 2049 10, infos := entriesFrom 0 (List.replicate 2049 []) } : buffer).infos.drop
        (0 * (({ data := List.replicate 2049 10, infos := entriesFrom 0 (List.replicate 2049 []) } : buffer).infos.length /
          buffer.parallelOf
      { data := List.replicate 2049 10, infos := entriesFrom 0 (List.replicate 2049 []) } 2))).take
        (({ data := List.replicate 2049 10, infos := entriesFrom 0 (List.replicate 2049 []) } : buffer).infos.length /
          buffer.parallelOf
      { data := List.replicate 2049 10, infos := entriesFrom 0 (List.replicate 2049 []) } 2)).length =
        ({ data := List.replicate 2049 10, infos := entriesFrom 0 (List.replicate 2049 []) } : buffer).infos.length /
          buffer.parallelOf
      { data := List.replicate 2049 10, infos := entriesFrom 0 (List.replicate 2049 []) } 2) ∧
    (buffer.splits
      { data := List.replicate 2049 10, infos := entriesFrom 0 (List.replicate 2049 []) } 2)[buffer.parallelOf
      { data := List.replicate 2049 10, infos := entriesFrom 0 (List.replicate 2049 []) } 2 - 1]? =
      some (({ data := List.replicate 2049 10, infos := entriesFrom 0 (List.replicate 2049 []) } : buffer).infos.drop
        ((buffer.parallelOf
      { data := List.replicate 2049 10, infos := entriesFrom 0 (List.replicate 2049 []) } 2 - 1) *
          (({ data := List.replicate 2049 10, infos := entriesFrom 0 (List.replicate 2049 []) } : buffer).infos.length /
            buffer.parallelOf
      { data := List.replicate 2049 10, infos := entriesFrom 0 (List.replicate 2049 []) } 2))) :=
  ⟨buffer.parallelOf_two,
    ((C22_partitions
      { data := List.replicate 2049 10, infos := entriesFrom 0 (List.replicate 2049 []) } 2).2.2.2
      (by decide)).1,
    ((C22_partitions
      { data := List.replicate 2049 10, infos := entriesFrom 0 (List.replicate 2049 []) } 2).2.2.2
      (by decide)).2.1 0 (by rw [buffer.parallelOf_two]; decide),
    ((C22_partitions
      { data := List.replicate 2049 10, infos := entriesFrom 0 (List.replicate 2049 []) } 2).2.2.2
      (by decide)).2.2.1⟩

/-- C23: the number of partitions `Sort` cuts, sorts and puts in the heap it returns is
at most 8 and at most `max(1, parallel)`; it is 0 for an empty index and otherwise the
partition count `p` left by the clamp and the reduction loop; when it is greater than 1
every partition holds at least 1024 entries. The heap of a `Sort` that returns holds
these partitions, each rearranged, and `Sort` returns when every index entry is within
bounds. The count `p` is at least 1 and at most `min(8, max(1, parallel))`; when `p > 1`
then `⌊len/p⌋ ≥ 1024`, and every greater count `q` up to `min(8, max(1, parallel))` has
`⌊len/q⌋ < 1024`: `p` is the largest count within the clamp that leaves 1024 entries to
a partition, or 1 when there is none above 1. -/
theorem C23_partition_count
    (srt : (info → info → Option Bool) → List info → Option (List info))
    (hsrt : PanicSortContract srt) (b : buffer) (parallel : Int) :
    (∀ h, buffer.Sort srt b parallel = some h →
      h.heap.length = (buffer.splits b parallel).length ∧
      h.heap.length ≤ 8 ∧ (h.heap.length : Int) ≤ max 1 parallel ∧
      (1 < h.heap.length → ∀ s ∈ h.heap, 1024 ≤ s.length) ∧
      (b.infos = [] → h.heap.length = 0) ∧
      (b.infos ≠ [] → h.heap.length = buffer.parallelOf b parallel)) ∧
    ((∀ e ∈ b.infos, info.inBounds b.data e) → ∃ h, buffer.Sort srt b parallel = some h) ∧
    (buffer.splits b parallel).length ≤ 8 ∧
    ((buffer.splits b parallel).length : Int) ≤ max 1 parallel ∧
    (1 < (buffer.splits b parallel).length →
      ∀ s ∈ buffer.splits b parallel, 1024 ≤ s.length) ∧
    (b.infos = [] → (buffer.splits b parallel).length = 0) ∧
    (b.infos ≠ [] → (buffer.splits b parallel).length = buffer.parallelOf b parallel) ∧
    1 ≤ buffer.parallelOf b parallel ∧
    (buffer.parallelOf b parallel : Int) ≤ min 8 (max 1 parallel) ∧
    (1 < buffer.parallelOf b parallel →
      1024 ≤ b.infos.length / buffer.parallelOf b parallel) ∧
    (∀ q : Nat, buffer.parallelOf b parallel < q → (q : Int) ≤ min 8 (max 1 parallel) →
      b.infos.length / q < 1024) := by
  obtain ⟨hP1, hPc, hPbig, hPmax⟩ := buffer.parallelOf_spec b parallel
  have hempty : b.infos = [] → (buffer.splits b parallel).length = 0 := by
    intro he
    obtain ⟨hflat, hne⟩ := buffer.splits_flatten b parallel
    cases hs : buffer.splits b parallel with
    | nil => rfl
    | cons s rest =>
      rw [hs, he, List.flatten_cons] at hflat
      exact absurd (List.append_eq_nil.1 hflat).1 (hne s (by rw [hs]; simp))
  have hcount : (buffer.splits b parallel).length ≤ buffer.parallelOf b parallel := by
    by_cases he : b.infos = []
    · rw [hempty he]; omega
    · rw [(buffer.splits_spec b parallel he).2.1]
  have hbig : 1 < (buffer.splits b parallel).length →
      ∀ s ∈ buffer.splits b parallel, 1024 ≤ s.length := by
    intro hgt s hs
    have hne : b.infos ≠ [] := by
      intro he
      rw [hempty he] at hgt
      omega
    obtain ⟨_, hl, _, _, hmin⟩ := buffer.splits_spec b parallel hne
    have h1 := hmin s hs
    have h3 := hPbig (by rw [hl] at hgt; exact hgt)
    omega
  have hfull : b.infos ≠ [] → (buffer.splits b parallel).length = buffer.parallelOf b parallel :=
    fun hne => (buffer.splits_spec b parallel hne).2.1
  refine ⟨?_, ?_, by omega, by omega, hbig, hempty, hfull, hP1, hPc, hPbig, hPmax⟩
  · intro h hsort
    obtain ⟨_, _, hlen, hparts⟩ := buffer.perm_of_Sort srt hsrt b parallel h hsort
    refine ⟨hlen, by omega, by omega, ?_, fun he => by rw [hlen, hempty he],
      fun hne => by rw [hlen, hfull hne]⟩
    intro hgt s hs
    obtain ⟨s0, hs0, hperm⟩ := hparts s hs
    rw [hperm.length_eq]
    exact hbig (by rw [← hlen]; exact hgt) s0 hs0
  · intro hb
    obtain ⟨sorted, hsort, _⟩ := buffer.Sort_spec srt hsrt b parallel hb
    exact ⟨_, hsort⟩

/-- C23 (witness): the buffer of 2049 empty lines with `Sort(2)` under insertion sort:
two partitions are cut, and `Sort` returns a heap of two partitions. -/
theorem C23_partition_count_witness :
    (buffer.splits { data := List.replicate 2049 10, infos := entriesFrom 0 (List.replicate 2049 []) } 2).length = buffer.parallelOf { data := List.replicate 2049 10, infos := entriesFrom 0 (List.replicate 2049 []) } 2 ∧
    buffer.parallelOf { data := List.replicate 2049 10, infos := entriesFrom 0 (List.replicate 2049 []) } 2 = 2 ∧
    (buffer.splits { data := List.replicate 2049 10, infos := entriesFrom 0 (List.replicate 2049 []) } 2).length ≤ 8 ∧
    ∃ h, buffer.Sort insertionSortBy? { data := List.replicate 2049 10, infos := entriesFrom 0 (List.replicate 2049 []) } 2 = some h ∧ h.heap.length = 2 :=
  ⟨(C23_partition_count insertionSortBy? insertionSortBy_panic_contract { data := List.replicate 2049 10, infos := entriesFrom 0 (List.replicate 2049 []) }
      2).2.2.2.2.2.2.1 (by decide),
    buffer.parallelOf_two,
    (C23_partition_count insertionSortBy? insertionSortBy_panic_contract { data := List.replicate 2049 10, infos := entriesFrom 0 (List.replicate 2049 []) } 2).2.2.1,
    ((C23_partition_count insertionSortBy? insertionSortBy_panic_contract { data := List.replicate 2049 10, infos := entriesFrom 0 (List.replicate 2049 []) } 2).2.1
      buffer.inBounds_empty_lines).elim
      (fun h hs => ⟨h, hs,
        (((C23_partition_count insertionSortBy? insertionSortBy_panic_contract { data := List.replicate 2049 10, infos := entriesFrom 0 (List.replicate 2049 []) }
          2).1 h hs).2.2.2.2.2 (by decide)).trans buffer.parallelOf_two⟩)⟩

/-- C24: the chunks sent for one reader are grouped greedily: each chunk after the first
starts with a token whose length, added to the payload of the chunk before it,
exceeds `chunk_size` (the token did not fit), while every chunk sent has a payload
within `chunk_size` (each token that joined did fit); no chunk sent is empty; and
what is sent for several readers is what is sent for each of them on its own,
reader after reader, up to the reader at which an error stops the producer. -/
theorem C24_greedy_chunks (chunkSize bufferSize : Nat) (readers : List Bytes) :
    (∀ reader : Bytes, List.Chain' (NewChunker.Overflows chunkSize)
      (NewChunker chunkSize bufferSize [reader]).out) ∧
    (∀ c ∈ (NewChunker chunkSize bufferSize readers).out,
      c ≠ [] ∧ (c.map List.length).sum ≤ chunkSize) ∧
    ∃ k, (NewChunker chunkSize bufferSize readers).out =
      ((readers.take k).map (fun r => (NewChunker chunkSize bufferSize [r]).out)).flatten := by
  unfold NewChunker
  obtain ⟨k, hk⟩ := NewChunker.readersLoop_parts chunkSize readers
  refine ⟨fun reader => (NewChunker.reader_greedy chunkSize reader).1, ?_, k, hk⟩
  intro c hc
  refine ⟨?_, NewChunker.readersLoop_size chunkSize readers c hc⟩
  rw [hk] at hc
  obtain ⟨part, hpart, hcp⟩ := List.mem_flatten.1 hc
  obtain ⟨r, _, hr⟩ := List.mem_map.1 hpart
  rw [← hr] at hcp
  exact (NewChunker.reader_greedy chunkSize r).2 c hcp

/-- C24 (witness): the reader `"line1\nline2\nline3\nline4"` with chunk size 10: the chunks
`["line1", "line2"]` and `["line3", "line4"]`; `"line3"` did not fit the first. -/
theorem C24_greedy_chunks_witness :
    (NewChunker 10 2 [[108, 105, 110, 101, 49, 10, 108, 105, 110, 101, 50, 10,
        108, 105, 110, 101, 51, 10, 108, 105, 110, 101, 52]]).out =
      [[[108, 105, 110, 101, 49], [108, 105, 110, 101, 50]],
        [[108, 105, 110, 101, 51], [108, 105, 110, 101, 52]]] ∧
    List.Chain' (NewChunker.Overflows 10)
      (NewChunker 10 2 [[108, 105, 110, 101, 49, 10, 108, 105, 110, 101, 50, 10,
        108, 105, 110, 101, 51, 10, 108, 105, 110, 101, 52]]).out :=
  ⟨by decide,
    (C24_greedy_chunks 10 2 []).1 [108, 105, 110, 101, 49, 10, 108, 105, 110, 101, 50, 10,
        108, 105, 110, 101, 51, 10, 108, 105, 110, 101, 52]⟩

/-- C25: for every list of sources, sorted or not, `Merge` ends, returns nil and writes
each step's token followed by one `0x0A`; the tokens written are the tokens scanned
from all the sources, each as often as scanned; no token written holds a `0x0A`, so
the output splits back into exactly these tokens; and the steps written for a
source carry the tokens scanned from that source, in the order scanned, so these
tokens appear in the output in that order. -/
theorem C25_merge_keeps_tokens (readers : List Bytes) :
    ∃ w, Merge.steps readers = some w ∧
      Merge readers = some { written := joinTokens (w.map mergeStep.token), err := none } ∧
      (w.map mergeStep.token).Perm (readers.flatMap bufio.NewScanner) ∧
      (∀ t ∈ w.map mergeStep.token, 10 ∉ t) ∧
      splitTokens (joinTokens (w.map mergeStep.token)) = w.map mergeStep.token ∧
      ∀ i r, readers[i]? = some r →
        Merge.fromSource i w = bufio.NewScanner r ∧
        (bufio.NewScanner r).Sublist (w.map mergeStep.token) := by
  obtain ⟨w, hw, hwp, _⟩ := Merge.steps_spec readers
  have hno : ∀ t ∈ w.map mergeStep.token, 10 ∉ t := by
    intro t ht
    obtain ⟨r, _, htr⟩ := List.mem_flatMap.1 (hwp.subset ht)
    exact bufio.NewScanner_no_delim r.length r (le_refl _) t htr
  refine ⟨w, hw, ?_, hwp, hno, splitTokens_joinTokens _ hno, ?_⟩
  · unfold Merge
    rw [hw]
    simp [joinTokens, List.flatMap, List.map_map, Function.comp_def]
  · intro i r hir
    have h1 := Merge.steps_sources readers w hw i
    rw [List.getElem?_map, hir] at h1
    simp only [Option.map_some', Option.getD_some] at h1
    refine ⟨h1, ?_⟩
    rw [← h1]
    exact (List.filter_sublist _).map _

/-- C25 (witness): the sources `"b\na"` and `"c\nA"`, neither of them sorted. -/
theorem C25_merge_keeps_tokens_witness :
    Merge [[98, 10, 97], [99, 10, 65]] =
      some { written := [98, 10, 97, 10, 99, 10, 65, 10], err := none } ∧
    ∃ w, Merge.steps [[98, 10, 97], [99, 10, 65]] = some w ∧
      Merge.fromSource 0 w = [[98], [97]] ∧ Merge.fromSource 1 w = [[99], [65]] :=
  ⟨by decide,
    (C25_merge_keeps_tokens [[98, 10, 97], [99, 10, 65]]).imp fun _ h =>
      ⟨h.1, (h.2.2.2.2.2 0 [98, 10, 97] rfl).1.trans (by decide),
        (h.2.2.2.2.2 1 [99, 10, 65] rfl).1.trans (by decide)⟩⟩

/-- C26 (the code at the failing input): with `bufferSize = 1` and `numSorters = 1`
`chunkSize` is `1 / 1 / 2 = 0` and `totalChunks := bufferSize / chunkSize` divides by
zero; so it is for 7 bytes and 4 sorters, while 8 bytes and 4 sorters give chunks of
1 byte, 8 chunks and a channel of 4. -/
theorem C26_sizing_divides_by_zero :
    1 / 1 / 2 = 0 ∧ runSort.sizing 1 1 = none ∧ runSort.sizing 7 4 = none ∧
    runSort.sizing 8 4 = some (1, 8, 4) := by
  decide

end Gosort
